import Mathlib

/-!
# The HIDL generator back end (`generate.cpp`)

A shallow embedding of the text generator: the substitution engine `Snip`, the
field-list combinators of `Fields`, the per-function facts of
`Function::GetSubs`, the call-graph text, the type suffixes and the top-level
driver `Parser::Write`, followed by the properties proved about them.

`std::string` is a list of characters.  The errors handed to `Error` are
returned next to the result of a function; what `Snip` writes to the output
streams is given by `SnipLog` and is not followed through the callers of
`Snip`.  A null pointer is `none`; dereferencing it has no defined result,
which the embedding renders as the result `none`.
-/

namespace HidlGen

/-! ## Text and the replace primitive -/

/-- A `std::string`. -/
abbrev Text := List Char

/-- The `Subs` of the sources: an ordered list of (key, replacement) pairs. -/
abbrev Subs := List (Text × Text)

/-- The inner map of the snippet table: snippet name to template text. -/
abbrev SnipMap := List (Text × Text)

/-- The snippet table `snippets_cpp` (declared in `snippets.h`): section to
snippets.  It is a parameter of every function that fills a snippet. -/
abbrev SnipMapMap := List (Text × SnipMap)

/-- The text of a string literal of the sources. -/
def txt (s : String) : Text := s.toList

/-- The marker appended to a key by the first loop of `Snip`. -/
def marker : Text := ['#', '#', '#', '#']

/-- Index denoted by the digits after a `$` of a format string. -/
def digitVal (c : Char) : Nat := c.toNat - '0'.toNat

/-- The format step of `std::regex_replace` (ECMAScript rules) for a match `m`
of a pattern without capture groups, `pre` being the text between the previous
match and this one and `suf` the text after it: `$$` is a dollar sign, `$&`
the match, a dollar sign followed by a backquote `pre`, by a quote `suf`,
`$n` and `$nn` the n-th group (the match for index 0, nothing otherwise);
every other character is copied. -/
def formatMatch (m pre suf : Text) : Text → Text
  | [] => []
  | [c] => [c]
  | [c, d] =>
    if c = '$' then
      if d = '$' then ['$']
      else if d = '&' then m
      else if d = Char.ofNat 96 then pre
      else if d = Char.ofNat 39 then suf
      else if d.isDigit then (if digitVal d = 0 then m else [])
      else c :: formatMatch m pre suf [d]
    else c :: formatMatch m pre suf [d]
  | c :: d :: e :: r =>
    if c = '$' then
      if d = '$' then '$' :: formatMatch m pre suf (e :: r)
      else if d = '&' then m ++ formatMatch m pre suf (e :: r)
      else if d = Char.ofNat 96 then pre ++ formatMatch m pre suf (e :: r)
      else if d = Char.ofNat 39 then suf ++ formatMatch m pre suf (e :: r)
      else if d.isDigit then
        if e.isDigit then
          (if 10 * digitVal d + digitVal e = 0 then m else []) ++ formatMatch m pre suf r
        else (if digitVal d = 0 then m else []) ++ formatMatch m pre suf (e :: r)
      else c :: formatMatch m pre suf (d :: e :: r)
    else c :: formatMatch m pre suf (d :: e :: r)

/-- The characters that are syntax in a pattern of `std::regex` (ECMAScript
grammar). -/
def regexSyntax : List Char :=
  ['^', '$', '\\', '.', '*', '+', '?', '(', ')', '[', ']', Char.ofNat 123, Char.ofNat 125, '|']

/-- A key made of ordinary characters only: as a pattern of `std::regex` it
matches its own text and nothing else. -/
def plainKey (k : Text) : Bool := k.all (fun c => !regexSyntax.contains c)

/-- A key made of ordinary characters and of `.`. -/
def dottedKey (k : Text) : Bool := k.all (fun c => c = '.' || !regexSyntax.contains c)

/-- One pattern character of `std::regex` against one character of the text:
`.` matches every character but a line terminator, an ordinary character
matches itself.  The other characters of `regexSyntax` are not ordinary: the
embedding of `std::regex_replace` below is that of the library for patterns
made of ordinary characters and `.` only (`dottedKey`), and the statements
about keys are made for such keys. -/
def matchesChar (p c : Char) : Bool :=
  if p = '.' then c ≠ '\n' && c ≠ '\r' else p = c

/-- The pattern matches at the start of the text. -/
def matchesAt : Text → Text → Bool
  | [], _ => true
  | _ :: _, [] => false
  | p :: ps, c :: cs => matchesChar p c && matchesAt ps cs

/-- The scan of `std::regex_replace` for a pattern whose matches have the
length of `pat`: `skip` counts the characters of the current match still to
pass, `pre` is the unmatched text since the previous match. -/
def replaceScan (pat fmt : Text) : Nat → Text → Text → Text
  | _, pre, [] => if pat = [] then formatMatch [] pre [] fmt else []
  | skip + 1, _, _ :: s => replaceScan pat fmt skip [] s
  | 0, pre, c :: s =>
    if matchesAt pat (c :: s) then
      if pat = [] then
        formatMatch [] pre (c :: s) fmt ++ c :: replaceScan pat fmt 0 [c] s
      else
        formatMatch ((c :: s).take pat.length) pre ((c :: s).drop pat.length) fmt
          ++ replaceScan pat fmt (pat.length - 1) [] s
    else c :: replaceScan pat fmt 0 (pre ++ [c]) s

/-- The call `std::regex_replace(s, std::regex(pat), fmt)` of the C++ library
for a pattern `pat` made of ordinary characters and of `.` (none of
`^ $ \ * + ? ( ) [ ] { } |`): an ordinary character matches itself and `.`
any character but a line terminator; the matches are found from left to right
without overlap and each is replaced by the expansion of `fmt`; the empty
pattern matches once at every position.  For a pattern with another character
of `regexSyntax` the library parses the pattern as a regular expression, or
throws when it is malformed; this definition says nothing about such a
pattern. -/
def regex_replace (s pat fmt : Text) : Text :=
  replaceScan pat fmt 0 [] s

/-- What a call leaves on the two output streams, one entry per statement. -/
structure Console where
  cerr : List Text
  cout : List Text
deriving DecidableEq, Repr

/-- First loop of `Snip`: every key is replaced by the key followed by the
marker. -/
def uglify (subs : Subs) (snippet : Text) : Text :=
  subs.foldl (fun snippet sub => regex_replace snippet sub.1 (sub.1 ++ marker)) snippet

/-- Second loop of `Snip`: every key followed by the marker is replaced by the
replacement text. -/
def restore (subs : Subs) (snippet : Text) : Text :=
  subs.foldl (fun snippet sub => regex_replace snippet (sub.1 ++ marker) sub.2) snippet

/-- `Snip(section, name, subs, print)` with what it prints: the filled snippet,
or the empty text when the section or the snippet is missing. -/
def SnipLog (snippets_cpp : SnipMapMap) (section_ name : Text) (subs : Subs) (print : Bool) :
    Text × Console :=
  match snippets_cpp.lookup section_ with
  | none =>
    ([], ⟨[txt "Warning: Section " ++ section_ ++ txt " not found in snippets\n"], []⟩)
  | some snip_map =>
    match snip_map.lookup name with
    | none =>
      ([], ⟨[], if print then
          [txt "  Snip '" ++ name ++ txt "' not found in section '" ++ section_ ++ txt "'\n"]
        else []⟩)
    | some snippet =>
      let snippet := restore subs (uglify subs snippet)
      (snippet, ⟨[], if print then
          [txt "* * Final snippet for '" ++ name ++ txt "': '" ++ snippet ++ txt "' * *\n"]
        else []⟩)

/-- The text returned by `Snip(section, name, subs)` (`print` left at its
default `false`). -/
def Snip (snippets_cpp : SnipMapMap) (section_ name : Text) (subs : Subs) : Text :=
  (SnipLog snippets_cpp section_ name subs false).1

/-- The overload `Snip(section, name)`: no substitutions. -/
def Snip0 (snippets_cpp : SnipMapMap) (section_ name : Text) : Text :=
  Snip snippets_cpp section_ name []

/-- The function `upcase`: `toupper` on every character. -/
def upcase (s : Text) : Text := s.map Char.toUpper

/-- The function `make_inline`: every newline becomes a blank. -/
def make_inline (s : Text) : Text := s.map (fun ch => if ch = '\n' then ' ' else ch)

/-! ## The syntax tree -/

/-- Modelled from the spec: the class `Element` is declared in `ast.h`, which
is not among the sources; an element is given by the results of its
accessors `GetText`, `NoQuoteText` and `HasStringValue`. -/
structure Element where
  GetText : Text
  NoQuoteText : Text
  HasStringValue : Bool

/-- `Element::Generate`. -/
def Element.Generate (e : Element) (_section : Text) : Text := e.GetText

/-- An error handed to `Error`: the line, when the call names one, and the
message. -/
structure Err where
  line : Option Int
  msg : Text
deriving DecidableEq

/-- Modelled from the spec: the class `AnnotationValue` of `ast.h`; the literal
of the value may be missing (a null pointer). -/
structure AnnotationValue where
  GetValue : Option Element

/-- `AnnotationValue::NoQuoteText`, which dereferences the literal. -/
def AnnotationValue.NoQuoteText (v : AnnotationValue) : Option Text :=
  v.GetValue.map (fun e => e.NoQuoteText)

/-- Modelled from the spec: the class `Annotation` of `ast.h`: a name, a line,
the unnamed values (a pointer that may be null) and the named entries (a
pointer to a map, which may be null). -/
structure Annotation where
  NameText : Text
  Line : Int
  GetUnnamedValues : Option (List AnnotationValue)
  entries_ : Option (List (Text × List AnnotationValue))

/-- `Annotation::HasKey`. -/
def Annotation.HasKey (a : Annotation) (key : Text) : Bool :=
  match a.entries_ with
  | none => false
  | some entries => (entries.lookup key).isSome

/-- `Annotation::GetValues`: the values stored under `key`; a key without an
entry yields a null pointer. -/
def Annotation.GetValues (a : Annotation) (key : Text) : Option (List AnnotationValue) :=
  a.entries_.bind (fun entries => entries.lookup key)

/-- Modelled from the spec: the class `Annotations` of `ast.h`, the annotations
of a function or of the interface in source order. -/
abbrev Annotations := List Annotation

/-- `Annotations::GetAnnotation`: the first annotation of that name. -/
def Annotations.GetAnnotation (annotations_ : Annotations) (key : Text) : Option Annotation :=
  annotations_.find? (fun a => a.NameText = key)

/-- `Annotations::HasKey`. -/
def Annotations.HasKey (annotations_ : Annotations) (key : Text) : Bool :=
  (Annotations.GetAnnotation annotations_ key).isSome

/-- Modelled from the spec: the class `Type` and its subclasses are declared in
`ast.h`; a type is given by the results of the virtual methods the generator
calls on it.  `Generate` and `GetSubs` may run into a null pointer below them
and then have no result. -/
structure Type_ where
  Generate : Text → Option Text
  GetSubs : Text → Option Subs
  TypeName : Text
  TypeSuffix : Bool → Text
  IsPrimitive : Bool
  VtsType : Text

/-- Modelled from the spec: the class `Field` of `ast.h`: the name, the type
(absent for an enumerator), the value `GetValue()`, the member `initializer_`,
the text `GetInitText()`, the annotation, and the package name its parser
state `ps_` reports. -/
structure Field where
  GetName : Element
  GetType : Option Type_
  GetValue : Option Element
  initializer_ : Option Element
  GetInitText : Text
  annotation_ : Option Annotation
  GetPackageName : Text

/-- Modelled from the spec: the class `Fields` of `ast.h`, the member `fields_`
in declaration order. -/
abbrev Fields := List Field

/-- Modelled from the spec: `Fields::Size` is declared in `ast.h`; it is the
number of fields (a function declares return values when this is not 0). -/
def Fields.Size (fields_ : Fields) : Nat := fields_.length

/-- `Field::GetSubs`.  The notice written to standard output for a field
without type is not part of the result. -/
def Field.GetSubs (f : Field) (section_ : Text) : Option Subs :=
  let subs : Subs := [(txt "param_name", f.GetName.GetText),
    (txt "package_name", f.GetPackageName),
    (txt "init_value", match f.initializer_ with
      | some i => i.GetText
      | none => [])]
  match f.GetType with
  | some ty => (ty.GetSubs section_).map (fun type_subs => subs ++ type_subs)
  | none => some subs

/-- The body of the loop of `Field::GenVtsValues` for one value of the entry
`normal`: the text so far and the errors so far, and what they become. -/
def Field.GenVtsValues.body (snippets_cpp : SnipMapMap) (f : Field) (section_ : Text)
    (anno : Annotation) (acc : Text × List Err) (value : AnnotationValue) :
    Option (Text × List Err) :=
  match value.GetValue with
  | none => some (acc.1, acc.2 ++ [⟨some anno.Line, txt "'normal' annotation needs values!"⟩])
  | some v =>
    match f.GetType with
    | none => none
    | some ty =>
      let subs : Subs := [(txt "type_name", ty.VtsType), (txt "the_value", v.GetText)]
      some (acc.1 ++ Snip snippets_cpp section_ (txt "vts_values") subs, acc.2)

/-- `Field::GenVtsValues`: the text and the errors reported. -/
def Field.GenVtsValues (snippets_cpp : SnipMapMap) (f : Field) (section_ : Text) :
    Option (Text × List Err) :=
  match f.annotation_ with
  | none => some ([], [])
  | some anno =>
    if anno.HasKey (txt "normal") = false then some ([], [])
    else
      match anno.GetValues (txt "normal") with
      | none => none
      | some values =>
        values.foldlM (Field.GenVtsValues.body snippets_cpp f section_ anno) ([], [])

/-- The body of the loop of `Fields::GenVtsList` for one field. -/
def Fields.GenVtsList.body (snippets_cpp : SnipMapMap) (section_ label : Text)
    (acc : Text × List Err) (field : Field) : Option (Text × List Err) :=
  match field.GetType with
  | none => none
  | some ty =>
    match ty.Generate section_ with
    | none => none
    | some type_name =>
      let vts_type_type := if ty.IsPrimitive then txt "primitive_type" else txt "aggregate_type"
      match field.GenVtsValues snippets_cpp section_ with
      | none => none
      | some vts_values =>
        let subs : Subs := [(txt "arg_or_ret_type", label),
          (txt "type_name", type_name),
          (txt "vts_type_type", vts_type_type),
          (txt "vts_values", vts_values.1)]
        some (acc.1 ++ Snip snippets_cpp section_ (txt "vts_args") subs, acc.2 ++ vts_values.2)

/-- `Fields::GenVtsList`: the text and the errors reported. -/
def Fields.GenVtsList (snippets_cpp : SnipMapMap) (fields_ : Fields) (section_ label : Text) :
    Option (Text × List Err) :=
  fields_.foldlM (Fields.GenVtsList.body snippets_cpp section_ label) ([], [])

/-- The body of the loop of `Fields::GenCommaNameList` for one field. -/
def Fields.GenCommaNameList.body (snippets_cpp : SnipMapMap) (section_ snippet : Text)
    (output : Text) (field : Field) : Text :=
  let output := if output ≠ [] then output ++ txt ", " else output
  if snippet = [] then output ++ field.GetName.GetText
  else
    let subs : Subs := [(txt "param_name", field.GetName.GetText)]
    output ++ make_inline (Snip snippets_cpp section_ snippet subs)

/-- `Fields::GenCommaNameList`. -/
def Fields.GenCommaNameList (snippets_cpp : SnipMapMap) (fields_ : Fields)
    (section_ prev_list snippet : Text) : Text :=
  fields_.foldl (Fields.GenCommaNameList.body snippets_cpp section_ snippet) prev_list

/-- The local `special_string` of `Fields::GenCommaList` for one field. -/
def Fields.GenCommaList.special_string (snippets_cpp : SnipMapMap) (section_ : Text)
    (field : Field) : Option Text :=
  match field.GetType with
  | some ty =>
    match field.GetSubs section_ with
    | none => none
    | some subs =>
      some (Snip snippets_cpp section_ (txt "param_decl_" ++ ty.TypeSuffix true) subs
        ++ Snip snippets_cpp section_ (txt "param_decl_" ++ ty.TypeSuffix false) subs
        ++ Snip snippets_cpp section_ (txt "param_decl_" ++ ty.TypeName) subs)
  | none => some []

/-- The body of the loop of `Fields::GenCommaList` for one field. -/
def Fields.GenCommaList.body (snippets_cpp : SnipMapMap) (section_ : Text) (out_params : Bool)
    (output : Text) (field : Field) : Option Text :=
  let output := if output ≠ [] then output ++ txt ", " else output
  match Fields.GenCommaList.special_string snippets_cpp section_ field with
  | none => none
  | some special_string =>
    if special_string ≠ [] then
      some (output ++ (if section_ = txt "json" then special_string
        else make_inline special_string))
    else
      match (match field.GetType with
        | some ty => (ty.Generate section_).map (fun g => output ++ g)
        | none => some output) with
      | none => none
      | some output =>
        let output := if out_params = false then output ++ (txt " " ++ field.GetName.GetText)
          else output
        let output := match field.GetValue with
          | some v => output ++ (txt " = " ++ v.GetText)
          | none => output
        some output

/-- `Fields::GenCommaList`. -/
def Fields.GenCommaList (snippets_cpp : SnipMapMap) (fields_ : Fields) (section_ prev : Text)
    (out_params : Bool) : Option Text :=
  fields_.foldlM (Fields.GenCommaList.body snippets_cpp section_ out_params) prev

/-- The local `special_string` of `Fields::GenSemiList` for one field. -/
def Fields.GenSemiList.special_string (snippets_cpp : SnipMapMap) (section_ : Text)
    (field : Field) : Option Text :=
  match field.GetType with
  | some ty =>
    match field.GetSubs section_ with
    | none => none
    | some subs =>
      some (Snip snippets_cpp section_ (txt "field_decl_" ++ ty.TypeSuffix true) subs
        ++ Snip snippets_cpp section_ (txt "field_decl_" ++ ty.TypeSuffix false) subs)
  | none => some []

/-- The body of the loop of `Fields::GenSemiList` for one field. -/
def Fields.GenSemiList.body (snippets_cpp : SnipMapMap) (section_ : Text)
    (output : Text) (field : Field) : Option Text :=
  match Fields.GenSemiList.special_string snippets_cpp section_ field with
  | none => none
  | some special_string =>
    match (if special_string ≠ [] then some (output ++ make_inline special_string)
      else
        match field.GetType with
        | none => none
        | some ty =>
          match ty.Generate section_ with
          | none => none
          | some g =>
            some (output ++ (g ++ txt " " ++ field.GetName.GetText ++ field.GetInitText))) with
    | none => none
    | some output => some (output ++ txt ";\n")

/-- `Fields::GenSemiList`. -/
def Fields.GenSemiList (snippets_cpp : SnipMapMap) (fields_ : Fields) (section_ : Text) :
    Option Text :=
  fields_.foldlM (Fields.GenSemiList.body snippets_cpp section_) []

/-- The body of the loop of `Fields::GenByType` for one field. -/
def Fields.GenByType.body (snippets_cpp : SnipMapMap) (section_ prefix_ : Text)
    (output : Text) (field : Field) : Option Text :=
  match field.GetSubs section_ with
  | none => none
  | some subs =>
    match field.GetType with
    | none => none
    | some ty => some (output ++ Snip snippets_cpp section_ (prefix_ ++ ty.TypeName) subs)

/-- `Fields::GenByType`. -/
def Fields.GenByType (snippets_cpp : SnipMapMap) (fields_ : Fields) (section_ prefix_ : Text) :
    Option Text :=
  fields_.foldlM (Fields.GenByType.body snippets_cpp section_ prefix_) []

/-- The body of the loop of `Fields::TextByPrefix` for one field. -/
def Fields.TextByPrefix.body (snippets_cpp : SnipMapMap) (section_ prefix_ : Text)
    (out : Text) (thing : Field) : Option Text :=
  match thing.GetType with
  | none => none
  | some ty =>
    match thing.GetSubs section_ with
    | none => none
    | some subs =>
      let out := out ++ Snip snippets_cpp section_ (prefix_ ++ ty.TypeSuffix true) subs
      some (out ++ Snip snippets_cpp section_ (prefix_ ++ ty.TypeSuffix false) subs)

/-- `Fields::TextByPrefix`. -/
def Fields.TextByPrefix (snippets_cpp : SnipMapMap) (fields_ : Fields) (section_ prefix_ : Text) :
    Option Text :=
  fields_.foldlM (Fields.TextByPrefix.body snippets_cpp section_ prefix_) []

/-- Modelled from the spec: the default arguments of `Fields::GenCommaList`
are declared in `ast.h`: an empty previous text. -/
def Fields.GenCommaList.prev_default : Text := []

/-- Modelled from the spec: the default arguments of `Fields::GenCommaList`
are declared in `ast.h`: names are not suppressed. -/
def Fields.GenCommaList.out_params_default : Bool := false

/-- `EnumType::Generate`, for the enumerators `fields_`. -/
def EnumType.Generate (snippets_cpp : SnipMapMap) (fields_ : Fields) (section_ : Text) :
    Option Text :=
  (Fields.GenCommaList snippets_cpp fields_ section_ Fields.GenCommaList.prev_default
    Fields.GenCommaList.out_params_default).map (fun l => txt "enum \x7b" ++ l ++ txt "\x7d")

/-- `UnionType::Generate`. -/
def UnionType.Generate (snippets_cpp : SnipMapMap) (fields_ : Fields) (section_ : Text) :
    Option Text :=
  (Fields.GenSemiList snippets_cpp fields_ section_).map
    (fun l => txt "union \x7b\n" ++ l ++ ['\x7d'])

/-- `StructType::Generate`. -/
def StructType.Generate (snippets_cpp : SnipMapMap) (fields_ : Fields) (section_ : Text) :
    Option Text :=
  (Fields.GenSemiList snippets_cpp fields_ section_).map
    (fun l => txt "struct \x7b\n" ++ l ++ ['\x7d'])

/-! ## Functions and the call graph -/

/-- `Annotations::GenVtsCalls`: the text and the errors reported. -/
def Annotations.GenVtsCalls (snippets_cpp : SnipMapMap) (annotations_ : Annotations)
    (section_ anno_name out_label : Text) : Option (Text × List Err) :=
  match Annotations.GetAnnotation annotations_ anno_name with
  | none => some ([], [])
  | some calls =>
    match calls.GetUnnamedValues with
    | none => some ([], [⟨some calls.Line, (txt "Call-graph annotation '") ++ anno_name
        ++ (txt "' needs 1 or more unnamed string values")⟩])
    | some values =>
      if values.length > 0 then
        (values.foldlM (fun (out : Text) (value : AnnotationValue) => do
          let v ← value.GetValue
          let subs : Subs := [(txt "callflow_label", out_label),
            (txt "callflow_func_name", v.GetText)]
          pure (out ++ Snip snippets_cpp section_ (txt "anno_calls") subs)) []).map
            (fun out => (out, []))
      else some ([], [⟨some calls.Line, (txt "Call-graph annotation '") ++ anno_name
        ++ (txt "' needs 1 or more unnamed string values")⟩])

/-- Modelled from the spec: the class `Function` of `ast.h`: the name, the
parameters `fields_`, the return values `generates_`, the annotations, and what
its parser state `ps_` reports as package name and interface. -/
structure Function where
  GetName : Element
  fields_ : Fields
  generates_ : Fields
  annotations_ : Annotations
  GetPackageName : Text
  GetInterface : Option Element

/-- `Function::GenCallflow`: the text and the errors reported. -/
def Function.GenCallflow (snippets_cpp : SnipMapMap) (f : Function) (section_ : Text) :
    Option (Text × List Err) := do
  let next ← Annotations.GenVtsCalls snippets_cpp f.annotations_ section_
    (txt "next_calls") (txt "next")
  let prev ← Annotations.GenVtsCalls snippets_cpp f.annotations_ section_
    (txt "prev_calls") (txt "prev")
  let next_text := next.1
  let prev_text := prev.1
  let entry_text := if Annotations.HasKey f.annotations_ (txt "entry")
    then Snip0 snippets_cpp section_ (txt "anno_entry") else []
  let exit_text := if Annotations.HasKey f.annotations_ (txt "exit")
    then Snip0 snippets_cpp section_ (txt "anno_exit") else []
  let subs : Subs := [(txt "anno_entry", entry_text),
    (txt "anno_exit", exit_text),
    (txt "anno_calls", next_text ++ prev_text)]
  if entry_text ++ exit_text ++ next_text ++ prev_text = [] then
    pure ([], next.2 ++ prev.2)
  else
    pure (Snip snippets_cpp section_ (txt "vts_callflow") subs, next.2 ++ prev.2)

/-- The local `callback_param` of `Function::GetSubs`. -/
def Function.callback_param (snippets_cpp : SnipMapMap) (f : Function) (section_ : Text) : Text :=
  if Fields.Size f.generates_ ≠ 0 then
    let subs : Subs := [(txt "function_name", f.GetName.GetText),
      (txt "package_name", f.GetPackageName)]
    make_inline (Snip snippets_cpp section_ (txt "callback_param") subs)
  else []

/-- The local `params_and_callback` of `Function::GetSubs`. -/
def Function.params_and_callback (call_param_list callback_param : Text) : Text :=
  if call_param_list = [] ∨ callback_param = [] then call_param_list ++ callback_param
  else call_param_list ++ txt ", " ++ callback_param

/-- The local `callback_invocation` of `Function::GetSubs`. -/
def Function.callback_invocation (snippets_cpp : SnipMapMap) (f : Function) (section_ : Text) :
    Text :=
  if Fields.Size f.generates_ > 0 then
    let return_param_names := Fields.GenCommaNameList snippets_cpp f.generates_ section_ [] []
    let subs : Subs := [(txt "return_param_names", return_param_names)]
    Snip snippets_cpp section_ (txt "callback_invocation") subs
  else []

/-- `Function::GetSubs`: the substitution list and the errors reported while it
is built.  The entries are evaluated in the order of the list; the two
`GenVtsList` calls of `vts_args` are operands of one `+`, the left one is
taken first. -/
def Function.GetSubs (snippets_cpp : SnipMapMap) (f : Function) (section_ : Text) :
    Option (Subs × List Err) :=
  let callback_param := Function.callback_param snippets_cpp f section_
  match Fields.GenCommaList snippets_cpp f.fields_ section_ []
    Fields.GenCommaList.out_params_default with
  | none => none
  | some call_param_list =>
  let params_and_callback := Function.params_and_callback call_param_list callback_param
  let callback_invocation := Function.callback_invocation snippets_cpp f section_
  match f.GetInterface with
  | none => none
  | some interface =>
  match Fields.GenCommaList snippets_cpp f.generates_ section_ []
    Fields.GenCommaList.out_params_default with
  | none => none
  | some return_param_list =>
  match Fields.TextByPrefix snippets_cpp f.generates_ section_ (txt "param_write_") with
  | none => none
  | some param_write_ret_snips =>
  match Fields.TextByPrefix snippets_cpp f.generates_ section_ (txt "param_read_") with
  | none => none
  | some param_read_ret_snips =>
  match Fields.TextByPrefix snippets_cpp f.fields_ section_ (txt "param_write_") with
  | none => none
  | some param_write_snips =>
  match Fields.TextByPrefix snippets_cpp f.fields_ section_ (txt "param_read_") with
  | none => none
  | some param_read_snips =>
  match Fields.GenSemiList snippets_cpp f.fields_ section_ with
  | none => none
  | some param_decls =>
  match Fields.GenSemiList snippets_cpp f.generates_ section_ with
  | none => none
  | some generates_variables =>
  match Fields.GenVtsList snippets_cpp f.generates_ section_ (txt "return_type_hidl") with
  | none => none
  | some vts_ret =>
  match Fields.GenVtsList snippets_cpp f.fields_ section_ (txt "arg") with
  | none => none
  | some vts_arg =>
  match Function.GenCallflow snippets_cpp f section_ with
  | none => none
  | some vts_callflow =>
  let subs : Subs := [(txt "function_name", f.GetName.GetText),
    (txt "package_name", interface.GetText),
    (txt "params_and_callback", params_and_callback),
    (txt "call_param_list", call_param_list),
    (txt "return_param_list", return_param_list),
    (txt "function_params_stubs",
      Fields.GenCommaNameList snippets_cpp f.fields_ section_ [] []),
    (txt "return_params_stubs",
      Fields.GenCommaNameList snippets_cpp f.generates_ section_ [] (txt "return_param_decl")),
    (txt "param_write_ret_snips", param_write_ret_snips),
    (txt "param_read_ret_snips", param_read_ret_snips),
    (txt "param_write_snips", param_write_snips),
    (txt "param_read_snips", param_read_snips),
    (txt "func_name_as_enum", upcase f.GetName.GetText),
    (txt "param_decls", param_decls),
    (txt "callback_invocation", callback_invocation),
    (txt "generates_variables", generates_variables),
    (txt "vts_args", vts_ret.1 ++ vts_arg.1),
    (txt "vts_callflow", vts_callflow.1)]
  some (subs, vts_ret.2 ++ vts_arg.2 ++ vts_callflow.2)

/-! ## The top-level driver -/

/-- Modelled from the spec: the declarations `things_` of the parser state
(class `Thing` of `ast.h`): a function, or a declaration of another kind given
by the results of its virtual methods `TypeName` and `GetSubs`. -/
inductive Thing where
  | function (f : Function)
  | other (TypeName : Text) (GetSubs : Text → Option Subs)

/-- Modelled from the spec: `TypeName()` of a declaration; the generator
takes a declaration for a `Function` exactly when this is the text
`function`. -/
def Thing.TypeName : Thing → Text
  | .function _ => txt "function"
  | .other n _ => n

/-- The virtual call `thing->GetSubs(section)`. -/
def Thing.GetSubs (snippets_cpp : SnipMapMap) : Thing → Text → Option (Subs × List Err)
  | .function f, section_ => Function.GetSubs snippets_cpp f section_
  | .other _ g, section_ => (g section_).map (fun subs => (subs, []))

/-- The cast of a declaration to `Function *`; it has a result only on a
function. -/
def Thing.asFunction : Thing → Option Function
  | .function f => some f
  | .other _ _ => none

/-- Modelled from the spec: the members of the class `Parser` (declared in
`ast.h`) that `Parser::Write` reads. -/
structure Parser where
  interface_ : Option Element
  version_major_ : Int
  version_minor_ : Int
  interface_annotations_ : Option Annotations
  namespace_ : List Element
  imports_ : List (List Element)
  things_ : List Thing
  vars_ : Fields
  section_ : Text
  GetPackageName : Text

/-- `std::to_string` on an `int`. -/
def to_string (n : Int) : Text := (toString n).toList

/-- `Parser::TextByPrefix`: the text and the errors reported. -/
def Parser.TextByPrefix (snippets_cpp : SnipMapMap) (things_ : List Thing)
    (section_ prefix_ : Text) : Option (Text × List Err) :=
  things_.foldlM (fun (acc : Text × List Err) thing => do
    let subs ← Thing.GetSubs snippets_cpp thing section_
    pure (acc.1 ++ Snip snippets_cpp section_ (prefix_ ++ thing.TypeName) subs.1,
      acc.2 ++ subs.2)) ([], [])

/-- `Parser::CallEnumList`; the state of the loop is the flag `first` and the
text `out`. -/
def Parser.CallEnumList (snippets_cpp : SnipMapMap) (things_ : List Thing) (section_ : Text) :
    Option Text :=
  (things_.foldlM (fun (st : Bool × Text) (thing : Thing) =>
    if thing.TypeName ≠ txt "function" then pure st
    else do
      let fn ← thing.asFunction
      let fname := upcase fn.GetName.GetText
      if st.1 then
        let subs : Subs := [(txt "call_enum_name", fname)]
        pure (false, st.2 ++ Snip snippets_cpp section_ (txt "first_call_enum") subs
          ++ (txt "
"))
      else pure (st.1, st.2 ++ (txt "  " ++ fname ++ (txt ", ")))) (true, [])).map
    (fun (st : Bool × Text) => st.2)

/-- `Parser::CallbackDeclList`: the text and the errors reported. -/
def Parser.CallbackDeclList (snippets_cpp : SnipMapMap) (things_ : List Thing)
    (section_ : Text) : Option (Text × List Err) :=
  things_.foldlM (fun (acc : Text × List Err) thing =>
    if thing.TypeName ≠ txt "function" then pure acc
    else do
      let fn ← thing.asFunction
      let subs ← Function.GetSubs snippets_cpp fn section_
      pure (acc.1 ++ Snip snippets_cpp section_ (txt "callback_decl_line") subs.1,
        acc.2 ++ subs.2)) ([], [])

/-- The five texts `Parser::BuildNamespaceText` assigns to its reference
parameters. -/
structure NamespaceText where
  namespace_open : Text
  namespace_close : Text
  namespace_slashes : Text
  namespace_dots : Text
  namespace_underscores : Text
deriving DecidableEq

/-- `Parser::BuildNamespaceText`. -/
def Parser.BuildNamespaceText (snippets_cpp : SnipMapMap) (section_ : Text)
    (namespace_ : List Element) : NamespaceText :=
  namespace_.foldl (fun ns name =>
    let subs : Subs := [(txt "namespace_name", name.GetText)]
    { namespace_open :=
        ns.namespace_open ++ Snip snippets_cpp section_ (txt "namespace_open_line") subs
      namespace_close :=
        Snip snippets_cpp section_ (txt "namespace_close_line") subs ++ ns.namespace_close
      namespace_slashes :=
        (if ns.namespace_slashes ≠ [] then ns.namespace_slashes ++ txt "/"
          else ns.namespace_slashes) ++ name.GetText
      namespace_dots :=
        (if ns.namespace_dots ≠ [] then ns.namespace_dots ++ txt "."
          else ns.namespace_dots) ++ name.GetText
      namespace_underscores :=
        (if ns.namespace_underscores ≠ [] then ns.namespace_underscores ++ txt "_"
          else ns.namespace_underscores) ++ name.GetText })
    ⟨[], [], [], [], []⟩

/-- The local `component_type` of `Parser::Write` with the errors reported
while it is computed.  `front()` of an empty list of values and a value
without literal have no defined result. -/
def Parser.component_type (snippets_cpp : SnipMapMap) (p : Parser) : Option (Text × List Err) :=
  match p.interface_annotations_.bind
      (fun annotations => Annotations.GetAnnotation annotations (txt "hal_type")) with
  | none => some ([], [])
  | some c_type_a =>
    match c_type_a.GetUnnamedValues with
    | none => some ([], [⟨none, txt "hal_type annotation needs one string value"⟩])
    | some values => do
      let front ← values.head?
      let v ← front.GetValue
      if v.HasStringValue then
        let subs : Subs := [(txt "vts_ct_enum", v.NoQuoteText)]
        pure (Snip snippets_cpp p.section_ (txt "component_type_enum") subs, [])
      else pure ([], [⟨none, txt "hal_type annotation needs one string value"⟩])

/-- The local `imports_section` of `Parser::Write`; `back()` of an empty import
path has no defined result. -/
def Parser.imports_section (snippets_cpp : SnipMapMap) (p : Parser) : Option Text :=
  p.imports_.foldlM (fun imports_section imp => do
    let back ← imp.getLast?
    let subs : Subs := [(txt "import_name", back.GetText)]
    pure (imports_section ++ Snip snippets_cpp p.section_ (txt "import_line") subs)) []

/-- What `Parser::Write` does to the outside: the texts handed to the output
sink `writer_`, one per call, and the errors reported. -/
structure WriteResult where
  written : List Text
  errors : List Err
deriving DecidableEq

/-- `Parser::Write`. -/
def Parser.Write (snippets_cpp : SnipMapMap) (p : Parser) : Option WriteResult :=
  match p.interface_ with
  | none => some ⟨[], [⟨none, txt "Cannot Write output; don't have interface."⟩]⟩
  | some _ =>
  let version := to_string p.version_major_ ++ ['.'] ++ to_string p.version_minor_
  match Parser.component_type snippets_cpp p with
  | none => none
  | some component_type =>
  let ns := Parser.BuildNamespaceText snippets_cpp p.section_ p.namespace_
  match Parser.imports_section snippets_cpp p with
  | none => none
  | some imports_section =>
  match Parser.TextByPrefix snippets_cpp p.things_ p.section_ (txt "declare_") with
  | none => none
  | some declarations =>
  match Parser.TextByPrefix snippets_cpp p.things_ p.section_ (txt "code_for_") with
  | none => none
  | some code_snips =>
  match Parser.CallEnumList snippets_cpp p.things_ p.section_ with
  | none => none
  | some call_enum_list =>
  match Parser.CallbackDeclList snippets_cpp p.things_ p.section_ with
  | none => none
  | some callback_decls =>
  match Fields.TextByPrefix snippets_cpp p.vars_ p.section_ (txt "param_write_") with
  | none => none
  | some vars_writer =>
  match Fields.TextByPrefix snippets_cpp p.vars_ p.section_ (txt "param_read_") with
  | none => none
  | some vars_reader =>
  match Fields.GenSemiList snippets_cpp p.vars_ p.section_ with
  | none => none
  | some vars_decl =>
  let subs : Subs := [(txt "header_guard", p.GetPackageName),
    (txt "version_string", version),
    (txt "version_major_string", to_string p.version_major_),
    (txt "version_minor_string", to_string p.version_minor_),
    (txt "imports_section", imports_section),
    (txt "component_type_enum", component_type.1),
    (txt "package_name", p.GetPackageName),
    (txt "declarations", declarations.1),
    (txt "code_snips", code_snips.1),
    (txt "call_enum_list", call_enum_list),
    (txt "callback_decls", callback_decls.1),
    (txt "namespace_open_section", ns.namespace_open),
    (txt "namespace_close_section", ns.namespace_close),
    (txt "namespace_slashes", ns.namespace_slashes),
    (txt "namespace_dots", ns.namespace_dots),
    (txt "namespace_underscores", ns.namespace_underscores),
    (txt "vars_writer", vars_writer),
    (txt "vars_reader", vars_reader),
    (txt "vars_decl", vars_decl)]
  some ⟨[Snip snippets_cpp p.section_ (txt "file") subs],
    component_type.2 ++ declarations.2 ++ code_snips.2 ++ callback_decls.2⟩

/-! ## Test data

A small snippet table and syntax tree on which the statements below are
evaluated. -/

/-- The snippets of the section `cpp`. -/
def demoCpp : SnipMap :=
  [(txt "header", txt "// generated\n"),
   (txt "callback_param", txt "function_name_cb cb"),
   (txt "anno_entry", txt "entry: true\n"),
   (txt "vts_callflow", txt "callflow \x7b anno_entry anno_exit anno_calls \x7d"),
   (txt "param_write_scalar_all", txt "writeInt32(param_name);\n"),
   (txt "struct_field_scalar", txt "field param_name;\n"),
   (txt "vts_args", txt "arg_or_ret_type: type_name\n"),
   (txt "anno_calls", txt "callflow_label: callflow_func_name\n"),
   (txt "component_type_enum", txt "component_class: vts_ct_enum\n"),
   (txt "namespace_open_line", txt "namespace namespace_name \x7b\n"),
   (txt "namespace_close_line", txt "\x7d  // namespace_name\n"),
   (txt "file", txt "package package_name; version version_string\n")]

/-- A snippet table with the one section `cpp`. -/
def demoSnippets : SnipMapMap := [(txt "cpp", demoCpp)]

/-- The scalar type `int32_t`, which no snippet of `demoSnippets` specialises. -/
def demoInt : Type_ where
  Generate := fun _ => some (txt "int32_t")
  GetSubs := fun _ => some [(txt "field_type_vts", txt "TYPE_SCALAR"),
    (txt "base_type_name", txt "int32_t")]
  TypeName := txt "scalar"
  TypeSuffix := fun subtype => if subtype then txt "scalar_int32_t" else txt "scalar_all"
  IsPrimitive := true
  VtsType := txt "int32_t"

/-- A parameter `int32_t <name>` without default value. -/
def demoParam (name : String) : Field where
  GetName := ⟨name.toList, name.toList, false⟩
  GetType := some demoInt
  GetValue := none
  initializer_ := none
  GetInitText := []
  annotation_ := none
  GetPackageName := txt "android.hardware.demo"

/-- An enumerator `<name>` or `<name> = <value>`. -/
def demoEnumerator (name : String) (value : Option String) : Field where
  GetName := ⟨name.toList, name.toList, false⟩
  GetType := none
  GetValue := value.map (fun v => ⟨v.toList, v.toList, false⟩)
  initializer_ := none
  GetInitText := []
  annotation_ := none
  GetPackageName := txt "android.hardware.demo"

/-- A function `doThing(int32_t a) generates (int32_t status)` with an `entry`
annotation. -/
def demoFunction : Function where
  GetName := ⟨(txt "doThing"), (txt "doThing"), false⟩
  fields_ := [demoParam "a"]
  generates_ := [demoParam "status"]
  annotations_ := [⟨(txt "entry"), 7, none, none⟩]
  GetPackageName := txt "android.hardware.demo"
  GetInterface := some ⟨(txt "IDemo"), (txt "IDemo"), false⟩

/-- A function `ping()` without parameters and return values. -/
def demoProcedure : Function where
  GetName := ⟨(txt "ping"), (txt "ping"), false⟩
  fields_ := []
  generates_ := []
  annotations_ := []
  GetPackageName := txt "android.hardware.demo"
  GetInterface := some ⟨(txt "IDemo"), (txt "IDemo"), false⟩

/-- A parser state with the interface `IDemo`, version 1.0, the namespace
`android::hardware` and the one function `demoFunction`. -/
def demoParser : Parser where
  interface_ := some ⟨txt "IDemo", txt "IDemo", false⟩
  version_major_ := 1
  version_minor_ := 0
  interface_annotations_ := none
  namespace_ := [⟨txt "android", txt "android", false⟩, ⟨txt "hardware", txt "hardware", false⟩]
  imports_ := []
  things_ := [Thing.function demoFunction]
  vars_ := []
  section_ := txt "cpp"
  GetPackageName := txt "android.hardware.demo"

/-- The state `demoParser` without interface declaration. -/
def demoParserNoInterface : Parser := { demoParser with interface_ := none }

/-- A parameter `int32_t count` with the default value `5` and the initializer
text ` = 5`. -/
def demoDefaulted : Field :=
  { demoParam "count" with
    GetValue := some ⟨txt "5", txt "5", false⟩
    initializer_ := some ⟨txt "5", txt "5", false⟩
    GetInitText := txt " = 5" }

/-- Snippets on which the two loops of `Snip` are put to the test. -/
def trapSnippets : SnipMapMap :=
  [(txt "cpp",
    [(txt "const", txt "const NAME = VAL;\n"),
     (txt "qualified", txt "package_name::function_name"),
     (txt "marked", txt "NAME####VAL"),
     (txt "bare", txt "NAME"),
     (txt "overlap", txt "abc"),
     (txt "typed", txt "base_type_name type_name"),
     (txt "nested", txt "param_name name"),
     (txt "dotted", txt "p.name = p_name;"),
     (txt "guard", txt "#ifndef GUARD\n#define GUARD\nINCLUDES#endif  // GUARD\n"),
     (txt "longer", txt "param_name"),
     (txt "method",
       txt "void function_name(params_and_callback) \x7b callback_invocation \x7d"),
     (txt "vts_args", txt "arg_or_ret_type: \x7b vts_type_type: type_name vts_values\x7d\n")])]

/-! ## Auxiliary notions of the statements -/

/-- A field with a type whose `Generate` and `GetSubs` have a result. -/
def Field.typed (section_ : Text) (f : Field) : Bool :=
  match f.GetType with
  | some ty => (ty.Generate section_).isSome && (ty.GetSubs section_).isSome
  | none => false

/-- Componentwise append of a text and an error log. -/
def appendLog (a b : Text × List Err) : Text × List Err := (a.1 ++ b.1, a.2 ++ b.2)

/-- The keys of the substitution list of `Parser::Write`, in order. -/
def Parser.Write.keys : List Text :=
  [txt "header_guard", txt "version_string", txt "version_major_string",
    txt "version_minor_string", txt "imports_section", txt "component_type_enum",
    txt "package_name", txt "declarations", txt "code_snips", txt "call_enum_list",
    txt "callback_decls", txt "namespace_open_section", txt "namespace_close_section",
    txt "namespace_slashes", txt "namespace_dots", txt "namespace_underscores",
    txt "vars_writer", txt "vars_reader", txt "vars_decl"]

/-! ## The single pass and the states of the two loops of `Snip` -/

/-- Replacement of the occurrences of the text `pat` by the text `rep`, from
left to right and without overlap; `skip` counts the characters of the current
occurrence still to pass. -/
def replaceLit (pat rep : Text) : Nat → Text → Text
  | _, [] => []
  | skip + 1, _ :: s => replaceLit pat rep skip s
  | 0, c :: s =>
    if pat.isPrefixOf (c :: s) then rep ++ replaceLit pat rep (pat.length - 1) s
    else c :: replaceLit pat rep 0 s

/-- Following the spec's words: the snippet with each key occurrence replaced by
that key's value in one pass from left to right; the text between the
occurrences is copied and an inserted value is not looked at again.  At a
position where several keys occur the first of the list is taken; `skip`
counts the characters of the current occurrence still to pass. -/
def singlePass (subs : Subs) : Nat → Text → Text
  | _, [] => []
  | skip + 1, _ :: s => singlePass subs skip s
  | 0, c :: s =>
    match subs.find? (fun sub => sub.1.isPrefixOf (c :: s)) with
    | some sub => sub.2 ++ singlePass subs (sub.1.length - 1) s
    | none => c :: singlePass subs 0 s

/-- A key is identifier-like: letters, digits and the underscore. -/
def identLike (k : Text) : Bool := k.all (fun c => c.isAlphanum || c = '_')

/-- The occurrences that the single pass replaces fit the order of the list:
at each of them no key that stands before its key in the list occurs in the
snippet beginning inside the occurrence, behind its first character, and no
key that stands behind its key in the list is part of its key (or equal to
it).  `skip` counts the characters of the current occurrence still to
pass. -/
def occurrencesFit (subs : Subs) : Nat → Text → Bool
  | _, [] => true
  | skip + 1, _ :: s => occurrencesFit subs skip s
  | 0, c :: s =>
    match subs.find? (fun sub => sub.1.isPrefixOf (c :: s)) with
    | some sub =>
      (subs.takeWhile (fun a => !a.1.isPrefixOf (c :: s))).all (fun a =>
          (List.range (sub.1.length - 1)).all (fun o => !a.1.isPrefixOf (s.drop o)))
        && (subs.dropWhile (fun a => !a.1.isPrefixOf (c :: s))).tail.all
          (fun b => !decide (b.1 <:+: sub.1))
        && occurrencesFit subs (sub.1.length - 1) s
    | none => occurrencesFit subs 0 s

/-- A value that `std::regex_replace` copies as it is when it is the format
string: no `$` of it is followed by `$`, `&`, a backquote, a quote or a
digit. -/
def plainFormat : Text → Bool
  | [] => true
  | [_] => true
  | c :: d :: r =>
    !(c = '$' && (d = '$' || d = '&' || d = Char.ofNat 96 || d = Char.ofNat 39 || d.isDigit))
      && plainFormat (d :: r)

/-- What stands for an occurrence when the second loop of `Snip` reaches the
key `k`, the occurrences of `k` themselves being blanked: the value for a key
of `done`, a blank for `k`, the key followed by the marker for every other
key. -/
def awaited (done : List Text) (k : Text) (sub : Text × Text) : Text :=
  if sub.1 ∈ done then sub.2 else if sub.1 = k then [' '] else sub.1 ++ marker

/-- The substitution list that writes `awaited done k` for each occurrence. -/
def heldBack (done : List Text) (k : Text) (subs : Subs) : Subs :=
  subs.map (fun sub => (sub.1, awaited done k sub))

/-- No key followed by the marker arises from the snippet and the inserted
values: for each key of the list, the key followed by `####` is not part of
the snippet in which the occurrences of the keys before it in the list are
replaced by their values, its own occurrences by a blank and the occurrences
of the keys behind it by the key followed by `####`. -/
def markerFree (subs : Subs) (snippet : Text) : Bool :=
  (List.range subs.length).all (fun i =>
    !decide (((subs.map Prod.fst).getD i [] ++ marker)
      <:+: singlePass (heldBack ((subs.take i).map Prod.fst) ((subs.map Prod.fst).getD i [])
        subs) 0 snippet))

/-- A piece of a snippet: a character that is copied, or the occurrence of a
key with its substitution. -/
inductive Tok where
  | lit (c : Char)
  | key (sub : Text × Text)

/-- The pieces of a snippet as `singlePass` meets them. -/
def tokens (subs : Subs) : Nat → Text → List Tok
  | _, [] => []
  | skip + 1, _ :: s => tokens subs skip s
  | 0, c :: s =>
    match subs.find? (fun sub => sub.1.isPrefixOf (c :: s)) with
    | some sub => Tok.key sub :: tokens subs (sub.1.length - 1) s
    | none => Tok.lit c :: tokens subs 0 s

/-- The text of a list of pieces when the occurrence of a key is written as
`f` says. -/
def render (f : Text × Text → Text) : List Tok → Text
  | [] => []
  | Tok.lit c :: ts => c :: render f ts
  | Tok.key sub :: ts => f sub ++ render f ts

/-- The pieces are those of a pass over their text: no key of `subs` occurs
where a character is copied, and an occurrence is that of the first
substitution of `subs` whose key occurs there. -/
def validToks (subs : Subs) : List Tok → Prop
  | [] => True
  | Tok.lit c :: ts => (∀ sub ∈ subs, ¬ sub.1 <+: c :: render Prod.fst ts) ∧ validToks subs ts
  | Tok.key sub :: ts =>
    subs.find? (fun s => s.1.isPrefixOf (sub.1 ++ render Prod.fst ts)) = some sub
      ∧ validToks subs ts

/-- The occurrences among the pieces fit the order of the list: the list
splits at the substitution of an occurrence into the substitutions before it,
whose keys neither occur at the occurrence nor begin inside it, and the
substitutions behind it, whose keys are not part of its key. -/
def fitToks (subs : Subs) : List Tok → Prop
  | [] => True
  | Tok.lit _ :: ts => fitToks subs ts
  | Tok.key sub :: ts =>
    (∃ before behind, subs = before ++ sub :: behind ∧
      (∀ a ∈ before, ∀ o, o < sub.1.length →
        ¬ a.1 <+: (sub.1 ++ render Prod.fst ts).drop o) ∧
      (∀ b ∈ behind, ¬ b.1 <:+: sub.1)) ∧ fitToks subs ts

/-- State of the first loop of `Snip`: the keys of `done` carry the marker. -/
def uglified (done : List Text) (sub : Text × Text) : Text :=
  if sub.1 ∈ done then sub.1 ++ marker else sub.1

/-- State of the second loop of `Snip`: the keys of `done` are replaced by
their values, the others carry the marker. -/
def restored (done : List Text) (sub : Text × Text) : Text :=
  if sub.1 ∈ done then sub.2 else sub.1 ++ marker

/-- The conditions on a substitution list and a snippet as the specification
states them: the keys are distinct, not empty and identifier-like, and each
of them occurs in the snippet. -/
abbrev statedKeys (subs : Subs) (snippet : Text) : Prop :=
  (subs.map Prod.fst).Nodup ∧
    ∀ sub ∈ subs, sub.1 ≠ [] ∧ identLike sub.1 = true ∧ sub.1 <:+: snippet

/-! ## Type trees, further test data and notions of the later statements -/

/-- The snippets of a section `bare` that knows the snippet `vts_callflow` but
has no snippet `anno_entry`. -/
def bareSnippets : SnipMapMap :=
  [(txt "bare",
    [(txt "vts_callflow", txt "callflow \x7b anno_entry anno_exit anno_calls \x7d")]),
   (txt "noflow", [(txt "anno_entry", txt "entry: true\n")])]

/-- A literal of the parsed file with the text `s`. -/
def demoElement (s : String) : Element := ⟨s.toList, s.toList, false⟩

/-- A string literal of the parsed file: the text with quotes, the text
without them. -/
def demoQuoted (s : String) : Element := ⟨txt "\"" ++ s.toList ++ txt "\"", s.toList, true⟩

/-- A function `open()` with the annotations `next_calls` (two values),
`prev_calls` (no value) and `exit`. -/
def demoEdges : Function where
  GetName := demoElement "open"
  fields_ := []
  generates_ := []
  annotations_ :=
    [⟨txt "next_calls", 11, some [⟨some (demoElement "read")⟩, ⟨some (demoElement "close")⟩],
       none⟩,
     ⟨txt "prev_calls", 12, some [], none⟩,
     ⟨txt "exit", 13, none, none⟩]
  GetPackageName := txt "android.hardware.demo"
  GetInterface := some (demoElement "IDemo")

/-- The state `demoParser` with the interface annotation `hal_type` carrying
the two string values `"NFC"` and `"OTHER"`. -/
def demoParserTwoHalTypes : Parser :=
  { demoParser with
    interface_annotations_ :=
      some [⟨txt "hal_type", 3, some [⟨some (demoQuoted "NFC")⟩, ⟨some (demoQuoted "OTHER")⟩],
        none⟩] }

/-- The state `demoParser` with the interface annotation `hal_type` carrying
an empty list of values. -/
def demoParserEmptyHalType : Parser :=
  { demoParser with interface_annotations_ := some [⟨txt "hal_type", 3, some [], none⟩] }

/-- The snippets of `demoCpp` with a snippet `file` that shows each of the 19
facts of the driver, and the snippets the facts are made of. -/
def factsSnippets : SnipMapMap :=
  [(txt "cpp",
    (txt "file", txt "header_guard|version_string|version_major_string|version_minor_string|"
      ++ txt "imports_section|component_type_enum|package_name|declarations|code_snips|"
      ++ txt "call_enum_list|callback_decls|namespace_open_section|namespace_close_section|"
      ++ txt "namespace_slashes|namespace_dots|namespace_underscores|vars_writer|vars_reader|"
      ++ txt "vars_decl") ::
    (txt "first_call_enum", txt "call_enum_name = 1,") ::
    (txt "declare_function", txt "void function_name();") ::
    (txt "code_for_function", txt "// function_name\n") ::
    (txt "callback_decl_line", txt "cb function_name;") ::
    (txt "param_read_scalar_all", txt "readInt32(param_name);\n") ::
    (txt "import_line", txt "import import_name;") :: demoCpp)]

/-- The state `demoParser` with an import, the interface annotation
`hal_type("NFC")` and a variable `v`. -/
def factsParser : Parser :=
  { demoParser with
    imports_ := [[demoElement "android", demoElement "base"]]
    interface_annotations_ := some [⟨txt "hal_type", 3, some [⟨some (demoQuoted "NFC")⟩], none⟩]
    vars_ := [demoParam "v"] }

/-- The message of `Annotations::GenVtsCalls` for an annotation without unnamed
values. -/
def GenVtsCalls.message (anno_name : Text) : Text :=
  txt "Call-graph annotation '" ++ anno_name ++ txt "' needs 1 or more unnamed string values"

/-- Modelled from the spec: the types on which `generate.cpp` defines
`TypeSuffix` (the classes are declared in `ast.h`): a scalar type with its
`TypeName()` and `SubtypeSuffix()`, a derived type (vector, array, reference,
alias) with its `TypeName()` and its base type `base_`, an enum type with its
`TypeName()` and its storage type `type_`, and a type of another kind, given
by its `TypeName()` and `TypeSuffix`. -/
inductive TypeTree where
  | scalarType (TypeName SubtypeSuffix : Text)
  | derivedType (TypeName : Text) (base_ : TypeTree)
  | enumType (TypeName : Text) (type_ : TypeTree)
  | otherType (TypeName : Text) (TypeSuffix : Bool → Text)

/-- `ScalarType::TypeSuffix`, `DerivedType::TypeSuffix` and
`EnumType::TypeSuffix`. -/
def TypeTree.TypeSuffix : TypeTree → Bool → Text
  | .scalarType name sfx, subtype =>
    if subtype then name ++ sfx else name ++ txt "_all"
  | .derivedType name base_, subtype =>
    if subtype then name ++ txt "_" ++ base_.TypeSuffix subtype else name ++ txt "_all"
  | .enumType name type_, subtype =>
    if subtype then name ++ txt "_" ++ type_.TypeSuffix subtype else name ++ txt "_all"
  | .otherType _ f, subtype => f subtype

/-- The kind names of the derived and enum types around the innermost type,
outermost first. -/
def TypeTree.wrappers : TypeTree → List Text
  | .derivedType name base_ => name :: base_.wrappers
  | .enumType name type_ => name :: type_.wrappers
  | _ => []

/-- The innermost type of a type tree, below all derived and enum types. -/
def TypeTree.innermost : TypeTree → TypeTree
  | .derivedType _ base_ => base_.innermost
  | .enumType _ type_ => type_.innermost
  | t => t

/-- The vector of 32-bit integers `vec<int32_t>`. -/
def demoVec : TypeTree :=
  .derivedType (txt "vec") (.scalarType (txt "scalar") (txt "_int32_t"))

/-- One step of a separated list as the loops of the generator build it: the
separator is put behind the text so far unless that is empty, then the item
follows. -/
def sepStep (sep out item : Text) : Text :=
  (if out ≠ [] then out ++ sep else out) ++ item

/-- The keys of the substitution list of `Function::GetSubs`, in order. -/
def Function.GetSubs.keys : List Text :=
  [txt "function_name", txt "package_name", txt "params_and_callback", txt "call_param_list",
    txt "return_param_list", txt "function_params_stubs", txt "return_params_stubs",
    txt "param_write_ret_snips", txt "param_read_ret_snips", txt "param_write_snips",
    txt "param_read_snips", txt "func_name_as_enum", txt "param_decls",
    txt "callback_invocation", txt "generates_variables", txt "vts_args", txt "vts_callflow"]

/-- The pattern matches somewhere in the text. -/
def occursIn (pat s : Text) : Bool := s.tails.any (matchesAt pat)

/-- A section `cpp` whose snippet `namespace_open_line` has the text that
`namespace_close_line` has in `demoSnippets`. -/
def mirrorSnippets : SnipMapMap :=
  [(txt "cpp", [(txt "namespace_open_line", txt "\x7d  // namespace_name\n")])]

/-! ## Lookup misses of `Snip` -/

/-- C3: a lookup miss of `Snip` yields the empty text.  When the section is not
in the snippet table the result is empty and exactly one warning goes to the
error stream (and nothing to standard output); when the section is there
but has no snippet of that name the result is empty and nothing is written to
the error stream, nor, with `print` at its default, to standard output. -/
theorem Snip_lookup_miss (snippets_cpp : SnipMapMap) (section_ name : Text) (subs : Subs)
    (print : Bool) :
    (snippets_cpp.lookup section_ = none →
      SnipLog snippets_cpp section_ name subs print =
          ([], ⟨[txt "Warning: Section " ++ section_ ++ txt " not found in snippets\n"], []⟩)
        ∧ Snip snippets_cpp section_ name subs = []) ∧
    (∀ snip_map, snippets_cpp.lookup section_ = some snip_map → snip_map.lookup name = none →
      (SnipLog snippets_cpp section_ name subs print).1 = []
        ∧ (SnipLog snippets_cpp section_ name subs print).2.cerr = []
        ∧ (SnipLog snippets_cpp section_ name subs false).2.cout = []
        ∧ Snip snippets_cpp section_ name subs = []) := by
  refine ⟨fun h => ?_, fun snip_map h1 h2 => ?_⟩
  · simp [Snip, SnipLog, h]
  · simp [Snip, SnipLog, h1, h2]

/-- Witness of C3 on `demoSnippets`: an unknown section, and a snippet that the
section `cpp` does not have. -/
theorem Snip_lookup_miss_witness :
    (SnipLog demoSnippets (txt "unknownSection") (txt "header") [] false =
        ([], ⟨[txt "Warning: Section unknownSection not found in snippets\n"], []⟩)
      ∧ Snip demoSnippets (txt "unknownSection") (txt "header") [] = [])
    ∧ ((SnipLog demoSnippets (txt "cpp") (txt "noSuchSnippet") [] true).1 = []
      ∧ (SnipLog demoSnippets (txt "cpp") (txt "noSuchSnippet") [] true).2.cerr = []
      ∧ (SnipLog demoSnippets (txt "cpp") (txt "noSuchSnippet") [] false).2.cout = []
      ∧ Snip demoSnippets (txt "cpp") (txt "noSuchSnippet") [] = []) :=
  ⟨(Snip_lookup_miss demoSnippets (txt "unknownSection") (txt "header") [] false).1
      (by decide),
    (Snip_lookup_miss demoSnippets (txt "cpp") (txt "noSuchSnippet") [] true).2 demoCpp
      (by decide) (by decide)⟩

/-! ## The two loops of `Snip` -/

/-- A format string without `$` is copied as it is. -/
theorem formatMatch_of_no_dollar (m pre suf : Text) (fmt : Text) (h : '$' ∉ fmt) :
    formatMatch m pre suf fmt = fmt := by
  induction fmt with
  | nil => rfl
  | cons c t ih =>
    have hc : c ≠ '$' := fun e => h (e ▸ List.mem_cons_self _ _)
    have ht : '$' ∉ t := fun e => h (List.mem_cons_of_mem _ e)
    cases t with
    | nil => rfl
    | cons d t2 =>
      cases t2 with
      | nil =>
        have := ih ht
        simp only [formatMatch, hc, if_false] at this ⊢
      | cons e r =>
        have := ih ht
        simp only [formatMatch, hc, if_false, this]

/-- A pattern without `.` matches exactly where it is a prefix. -/
theorem matchesAt_eq_isPrefixOf (pat : Text) (hdot : '.' ∉ pat) (s : Text) :
    matchesAt pat s = pat.isPrefixOf s := by
  induction pat generalizing s with
  | nil => simp [matchesAt]
  | cons p ps ih =>
    cases s with
    | nil => simp [matchesAt]
    | cons c cs =>
      have hp : p ≠ '.' := fun e => hdot (e ▸ List.mem_cons_self _ _)
      have hps : '.' ∉ ps := fun e => hdot (List.mem_cons_of_mem _ e)
      simp only [matchesAt, matchesChar, hp, if_false, ih hps, List.isPrefixOf]
      congr 1

/-- A plain format string is copied as it is. -/
theorem formatMatch_of_plain (m pre suf : Text) (fmt : Text) (h : plainFormat fmt = true) :
    formatMatch m pre suf fmt = fmt := by
  induction fmt with
  | nil => rfl
  | cons c t ih =>
    cases t with
    | nil => rfl
    | cons d t2 =>
      simp only [plainFormat, Bool.and_eq_true, Bool.not_eq_true', Bool.and_eq_false_imp,
        Bool.or_eq_false_iff, decide_eq_true_eq, decide_eq_false_iff_not] at h
      have ih2 := ih h.2
      by_cases hc : c = '$'
      · obtain ⟨⟨⟨⟨h1, h2⟩, h3⟩, h4⟩, h5⟩ := h.1 hc
        cases t2 with
        | nil => simp only [formatMatch, hc, h1, h2, h3, h4, h5, if_true, if_false] at ih2 ⊢
                 simp
        | cons e r =>
          simp only [formatMatch, hc, h1, h2, h3, h4, h5, if_true, if_false, ih2]
          simp
      · cases t2 with
        | nil => simp only [formatMatch, hc, if_false] at ih2 ⊢
        | cons e r => simp only [formatMatch, hc, if_false, ih2]

/-- For a non-empty pattern without `.` and a format string that is copied as it
is the scan of `std::regex_replace` is the replacement of the occurrences by
the format string. -/
theorem replaceScan_eq_replaceLit (pat fmt : Text) (hp : pat ≠ []) (hdot : '.' ∉ pat)
    (hf : ∀ m pre suf, formatMatch m pre suf fmt = fmt) (s : Text) (skip : Nat) (pre : Text) :
    replaceScan pat fmt skip pre s = replaceLit pat fmt skip s := by
  induction s generalizing skip pre with
  | nil => simp [replaceScan, replaceLit, hp]
  | cons c s ih =>
    cases skip with
    | succ n => simp only [replaceScan, replaceLit, ih]
    | zero =>
      simp only [replaceScan, replaceLit, hp, if_false, ih, hf,
        matchesAt_eq_isPrefixOf pat hdot]

/-- The call `regex_replace` for a non-empty pattern without `.` and a format
string that is copied as it is. -/
theorem regex_replace_eq_replaceLit (s pat fmt : Text) (hp : pat ≠ []) (hdot : '.' ∉ pat)
    (hf : ∀ m pre suf, formatMatch m pre suf fmt = fmt) :
    regex_replace s pat fmt = replaceLit pat fmt 0 s :=
  replaceScan_eq_replaceLit pat fmt hp hdot hf s 0 []

/-- Passing the rest of an occurrence. -/
theorem replaceLit_skip (pat rep : Text) (u rest : Text) :
    replaceLit pat rep u.length (u ++ rest) = replaceLit pat rep 0 rest := by
  induction u with
  | nil => rfl
  | cons c u ih => simpa [replaceLit] using ih

/-- An occurrence at the start is replaced and the scan goes on behind it. -/
theorem replaceLit_match (pat rep rest : Text) (hp : pat ≠ []) :
    replaceLit pat rep 0 (pat ++ rest) = rep ++ replaceLit pat rep 0 rest := by
  cases pat with
  | nil => exact absurd rfl hp
  | cons c k =>
    have h : (c :: k).isPrefixOf (c :: (k ++ rest)) = true := by
      rw [List.isPrefixOf_iff_prefix]
      exact List.prefix_append (c :: k) rest
    show replaceLit (c :: k) rep 0 (c :: (k ++ rest)) = _
    rw [replaceLit, if_pos h]
    show rep ++ replaceLit (c :: k) rep k.length (k ++ rest) = _
    rw [replaceLit_skip]

/-- A character at which no occurrence starts is copied. -/
theorem replaceLit_nomatch (pat rep : Text) (c : Char) (s : Text) (h : ¬ pat <+: c :: s) :
    replaceLit pat rep 0 (c :: s) = c :: replaceLit pat rep 0 s := by
  have h2 : pat.isPrefixOf (c :: s) = false := by
    rw [← Bool.not_eq_true, List.isPrefixOf_iff_prefix]
    exact h
  simp [replaceLit, h2]

/-- A stretch of text in which no occurrence starts is copied. -/
theorem replaceLit_pass (pat rep : Text) (u rest : Text)
    (h : ∀ o, o < u.length → ¬ pat <+: u.drop o ++ rest) :
    replaceLit pat rep 0 (u ++ rest) = u ++ replaceLit pat rep 0 rest := by
  induction u with
  | nil => rfl
  | cons c u ih =>
    have h0 := h 0 (by simp)
    simp only [List.drop_zero, List.cons_append] at h0
    rw [List.cons_append, replaceLit_nomatch pat rep c _ h0, ih, List.cons_append]
    intro o ho
    have := h (o + 1) (by simpa using ho)
    simpa using this

/-! ### Keys and the marker -/

/-- An identifier-like key has no `#`. -/
theorem identLike_no_hash (k : Text) (h : identLike k = true) : '#' ∉ k := by
  intro hm
  have := List.all_eq_true.1 h _ hm
  revert this
  decide

/-- An identifier-like key has no `$`. -/
theorem identLike_no_dollar (k : Text) (h : identLike k = true) : '$' ∉ k := by
  intro hm
  have := List.all_eq_true.1 h _ hm
  revert this
  decide

/-- The marker has no `$`. -/
theorem marker_no_dollar : '$' ∉ marker := by decide

/-- An identifier-like key has no `.`. -/
theorem identLike_no_dot (k : Text) (h : identLike k = true) : '.' ∉ k := by
  intro hm
  have := List.all_eq_true.1 h _ hm
  revert this
  decide

/-- The marker has no `.`. -/
theorem marker_no_dot : '.' ∉ marker := by decide

/-- A text without `#` that begins a text `b ++ '#' :: c` begins `b`. -/
theorem prefix_of_prefix_hash (a b c : Text) (ha : '#' ∉ a) (h : a <+: b ++ '#' :: c) :
    a <+: b := by
  induction b generalizing a with
  | nil =>
    cases a with
    | nil => exact List.prefix_refl _
    | cons x a =>
      rw [List.nil_append, List.cons_prefix_cons] at h
      exact absurd (h.1 ▸ List.mem_cons_self _ _) ha
  | cons y b ih =>
    cases a with
    | nil => exact List.nil_prefix
    | cons x a =>
      rw [List.cons_append, List.cons_prefix_cons] at h
      rw [List.cons_prefix_cons]
      exact ⟨h.1, ih a (fun e => ha (List.mem_cons_of_mem _ e)) h.2⟩

/-- The first `#` of a text is at one place. -/
theorem eq_of_hash_prefix (a b x y : Text) (ha : '#' ∉ a) (hb : '#' ∉ b)
    (h : a ++ '#' :: x <+: b ++ '#' :: y) : a = b := by
  induction a generalizing b with
  | nil =>
    cases b with
    | nil => rfl
    | cons c b =>
      rw [List.nil_append, List.cons_append, List.cons_prefix_cons] at h
      exact absurd (h.1 ▸ List.mem_cons_self _ _) hb
  | cons c a ih =>
    cases b with
    | nil =>
      rw [List.nil_append, List.cons_append, List.cons_prefix_cons] at h
      exact absurd (h.1 ▸ List.mem_cons_self _ _) ha
    | cons d b =>
      rw [List.cons_append, List.cons_append, List.cons_prefix_cons] at h
      rw [h.1, ih b (fun e => ha (List.mem_cons_of_mem _ e))
        (fun e => hb (List.mem_cons_of_mem _ e)) h.2]

/-- A text that begins `b ++ c` begins `b` or is begun by `b`. -/
theorem prefix_append_cases (a b c : Text) (h : a <+: b ++ c) : a <+: b ∨ b <+: a :=
  List.prefix_or_prefix_of_prefix h (List.prefix_append b c)

/-- No text that begins with a character other than `#` begins at a marker. -/
theorem replaceLit_pass_marker (pat rep rest : Text) (c : Char) (k : Text)
    (hp : pat = c :: k) (hc : c ≠ '#') :
    replaceLit pat rep 0 (marker ++ rest) = marker ++ replaceLit pat rep 0 rest := by
  apply replaceLit_pass
  intro o ho h
  subst hp
  have ho4 : o < 4 := ho
  have : o = 0 ∨ o = 1 ∨ o = 2 ∨ o = 3 := by omega
  rcases this with rfl | rfl | rfl | rfl <;>
    · simp only [marker, List.drop, List.cons_append, List.cons_prefix_cons] at h
      exact hc h.1

/-- A key without `#` and not empty begins with a character other than `#`. -/
theorem key_head (k : Text) (hne : k ≠ []) (hh : '#' ∉ k) (rest : Text) :
    ∃ c t, k ++ rest = c :: t ∧ c ≠ '#' := by
  cases k with
  | nil => exact absurd rfl hne
  | cons c t => exact ⟨c, t ++ rest, rfl, fun e => hh (e ▸ List.mem_cons_self _ _)⟩

/-! ### The order of the list -/

/-- The first element of a list with a property splits the list into the
elements before it, which do not have the property, and those behind it. -/
theorem find_split {α : Type} (p : α → Bool) (l : List α) (x : α) (h : l.find? p = some x) :
    l = l.takeWhile (fun a => !p a) ++ x :: (l.dropWhile (fun a => !p a)).tail ∧
      ∀ a ∈ l.takeWhile (fun a => !p a), p a = false := by
  induction l with
  | nil => simp at h
  | cons y l ih =>
    by_cases hy : p y = true
    · simp only [List.find?_cons, hy, Option.some.injEq] at h
      subst h
      simp [List.takeWhile, List.dropWhile, hy]
    · have hy2 : p y = false := by simpa using hy
      simp only [List.find?_cons, hy2] at h
      obtain ⟨h1, h2⟩ := ih h
      simp only [List.takeWhile, List.dropWhile, hy2, Bool.not_false, List.cons_append,
        List.cons.injEq, true_and, List.mem_cons, forall_eq_or_imp]
      exact ⟨h1, h2⟩

/-- Two places of a list: the first is before the second, they are the same, or
the first is behind the second. -/
theorem split_compare {α : Type} (before behind pre post : List α) (x y : α)
    (h : before ++ x :: behind = pre ++ y :: post) :
    (∃ mid, pre = before ++ x :: mid ∧ behind = mid ++ y :: post) ∨
    (before = pre ∧ x = y ∧ behind = post) ∨
    (∃ mid, before = pre ++ y :: mid ∧ post = mid ++ x :: behind) := by
  rcases List.append_eq_append_iff.1 h with ⟨a, ha, hb⟩ | ⟨c, hc, hd⟩
  · cases a with
    | nil =>
      simp only [List.nil_append, List.cons.injEq, List.append_nil] at ha hb
      exact Or.inr (Or.inl ⟨ha.symm, hb.1, hb.2⟩)
    | cons a0 a =>
      simp only [List.cons_append, List.cons.injEq] at hb
      exact Or.inl ⟨a, by rw [ha, hb.1], hb.2⟩
  · cases c with
    | nil =>
      simp only [List.nil_append, List.cons.injEq, List.append_nil] at hc hd
      exact Or.inr (Or.inl ⟨hc, hd.1.symm, hd.2.symm⟩)
    | cons c0 c =>
      simp only [List.cons_append, List.cons.injEq] at hd
      exact Or.inr (Or.inr ⟨c, by rw [hc, hd.1], hd.2⟩)

/-! ### The pieces of a snippet -/

/-- The single pass writes each piece of the snippet: a copied character, or the
value for the occurrence of a key. -/
theorem singlePass_eq_render (subs : Subs) (s : Text) (skip : Nat) :
    singlePass subs skip s = render Prod.snd (tokens subs skip s) := by
  induction s generalizing skip with
  | nil => simp [singlePass, tokens, render]
  | cons c s ih =>
    cases skip with
    | succ n => simp only [singlePass, tokens, ih]
    | zero =>
      simp only [singlePass, tokens]
      cases subs.find? (fun sub => sub.1.isPrefixOf (c :: s)) with
      | none => simp only [render, ih]
      | some sub => simp only [render, ih]

/-- The single pass of a list with other values writes these values for the
pieces of the snippet. -/
theorem singlePass_map (subs : Subs) (g : Text × Text → Text) (s : Text) (skip : Nat) :
    singlePass (subs.map (fun sub => (sub.1, g sub))) skip s = render g (tokens subs skip s) := by
  induction s generalizing skip with
  | nil => simp [singlePass, tokens, render]
  | cons c s ih =>
    cases skip with
    | succ n => simp only [singlePass, tokens, ih]
    | zero =>
      simp only [singlePass, tokens, List.find?_map]
      have e : ((fun sub : Text × Text => sub.1.isPrefixOf (c :: s)) ∘
          fun sub : Text × Text => (sub.1, g sub)) = fun sub => sub.1.isPrefixOf (c :: s) := rfl
      rw [e]
      cases subs.find? (fun sub => sub.1.isPrefixOf (c :: s)) with
      | none => simp only [Option.map_none', render, ih]
      | some sub => simp only [Option.map_some', render, ih]

/-- The pieces of a snippet spell the snippet and are those of a pass over
it. -/
theorem tokens_valid (subs : Subs) (hk : ∀ sub ∈ subs, sub.1 ≠ []) (s : Text) (skip : Nat) :
    render Prod.fst (tokens subs skip s) = s.drop skip ∧ validToks subs (tokens subs skip s) := by
  induction s generalizing skip with
  | nil => simp [tokens, render, validToks]
  | cons c s ih =>
    cases skip with
    | succ n => simpa only [tokens, List.drop_succ_cons] using ih n
    | zero =>
      simp only [tokens, List.drop_zero]
      cases hf : subs.find? (fun sub => sub.1.isPrefixOf (c :: s)) with
      | none =>
        have h0 := ih 0
        rw [List.drop_zero] at h0
        refine ⟨by simp only [render, h0.1], ?_, h0.2⟩
        intro sub hsub hp
        rw [h0.1] at hp
        have := List.find?_eq_none.1 hf sub hsub
        rw [List.isPrefixOf_iff_prefix] at this
        exact this hp
      | some sub =>
        have hmem : sub ∈ subs := List.mem_of_find?_eq_some hf
        have hp : sub.1 <+: c :: s := by
          have := List.find?_some hf
          simpa [List.isPrefixOf_iff_prefix] using this
        have h1 := ih (sub.1.length - 1)
        have hraw : render Prod.fst (Tok.key sub :: tokens subs (sub.1.length - 1) s)
            = c :: s := by
          simp only [render, h1.1]
          have hne := hk sub hmem
          obtain ⟨t, ht⟩ := hp
          cases hsub1 : sub.1 with
          | nil => exact absurd hsub1 hne
          | cons d k =>
            rw [hsub1] at ht
            simp only [List.cons_append, List.cons.injEq] at ht
            simp only [List.length_cons, Nat.add_sub_cancel, List.cons_append, List.cons.injEq]
            refine ⟨ht.1, ?_⟩
            rw [← ht.2, List.drop_left]
        refine ⟨hraw, ?_, h1.2⟩
        simp only [render] at hraw
        rw [hraw]
        exact hf

/-- The substitution of an occurrence is in the list. -/
theorem validToks_mem (subs : Subs) (sub : Text × Text) (ts : List Tok)
    (hv : validToks subs (Tok.key sub :: ts)) : sub ∈ subs :=
  List.mem_of_find?_eq_some hv.1

/-- Two ways of writing the occurrences give the same text when they agree
on the keys of `subs`. -/
theorem render_congr (subs : Subs) (f g : Text × Text → Text)
    (h : ∀ sub ∈ subs, f sub = g sub) (ts : List Tok) (hv : validToks subs ts) :
    render f ts = render g ts := by
  induction ts with
  | nil => rfl
  | cons t ts ih =>
    cases t with
    | lit c => simp only [render, ih hv.2]
    | key sub => simp only [render, ih hv.2, h sub (validToks_mem subs sub ts hv)]

/-- The text of the pieces behind the first is the end of the text of all. -/
theorem render_tail_suffix (f : Text × Text → Text) (t : Tok) (ts : List Tok) :
    render f ts <:+ render f (t :: ts) := by
  cases t with
  | lit c => exact List.suffix_cons c _
  | key sub => exact List.suffix_append _ _

/-- The check `occurrencesFit` gives what `fitToks` asks of the pieces. -/
theorem occurrencesFit_toks (subs : Subs) (hk : ∀ sub ∈ subs, sub.1 ≠ []) (s : Text)
    (skip : Nat) (h : occurrencesFit subs skip s = true) : fitToks subs (tokens subs skip s) := by
  induction s generalizing skip with
  | nil => simp [tokens, fitToks]
  | cons c s ih =>
    cases skip with
    | succ n =>
      simp only [occurrencesFit] at h
      simpa only [tokens] using ih n h
    | zero =>
      have hraw0 := (tokens_valid subs hk (c :: s) 0).1
      simp only [occurrencesFit] at h
      simp only [tokens] at hraw0 ⊢
      cases hf : subs.find? (fun sub => sub.1.isPrefixOf (c :: s)) with
      | none =>
        rw [hf] at h
        exact ih 0 h
      | some sub =>
        rw [hf] at h hraw0
        simp only [Bool.and_eq_true, List.all_eq_true, List.mem_range, Bool.not_eq_true',
          decide_eq_false_iff_not] at h
        simp only [render, List.drop_zero] at hraw0
        obtain ⟨hsplit, hnot⟩ := find_split _ subs sub hf
        refine ⟨⟨_, _, hsplit, ?_, fun b hb => h.1.2 b hb⟩, ih _ h.2⟩
        intro a ha o ho
        rw [hraw0]
        cases o with
        | zero =>
          rw [List.drop_zero, ← List.isPrefixOf_iff_prefix, hnot a ha]
          exact Bool.noConfusion
        | succ o =>
          rw [List.drop_succ_cons, ← List.isPrefixOf_iff_prefix, h.1.1 a ha o (by omega)]
          exact Bool.noConfusion

/-! ### The first loop -/

/-- A key that begins the text of the first loop begins the snippet there. -/
theorem prefix_raw_of_prefix_uglified (done : List Text) (ts : List Tok) (k : Text)
    (hk : '#' ∉ k) (h : k <+: render (uglified done) ts) : k <+: render Prod.fst ts := by
  induction ts generalizing k with
  | nil => exact h
  | cons t ts ih =>
    cases t with
    | lit c =>
      cases k with
      | nil => exact List.nil_prefix
      | cons d k =>
        simp only [render, List.cons_prefix_cons] at h ⊢
        exact ⟨h.1, ih k (fun e => hk (List.mem_cons_of_mem _ e)) h.2⟩
    | key sub =>
      simp only [render] at h ⊢
      by_cases hd : sub.1 ∈ done
      · simp only [uglified, hd, if_true, marker, List.append_assoc, List.cons_append] at h
        exact (prefix_of_prefix_hash k sub.1 _ hk h).trans (List.prefix_append _ _)
      · simp only [uglified, hd, if_false] at h
        rcases prefix_append_cases k sub.1 _ h with h1 | ⟨k2, hk2⟩
        · exact h1.trans (List.prefix_append _ _)
        · subst hk2
          rw [List.prefix_append_right_inj] at h ⊢
          exact ih k2 (fun e => hk (List.mem_append_right _ e)) h

/-- A key that begins the text of the first loop behind a stretch `x` of the
snippet begins the snippet there. -/
theorem prefix_raw_behind (done : List Text) (ts : List Tok) (k x : Text)
    (hk : '#' ∉ k) (h : k <+: x ++ render (uglified done) ts) :
    k <+: x ++ render Prod.fst ts := by
  rcases prefix_append_cases k x _ h with h1 | ⟨k2, hk2⟩
  · exact h1.trans (List.prefix_append _ _)
  · subst hk2
    rw [List.prefix_append_right_inj] at h ⊢
    exact prefix_raw_of_prefix_uglified done ts k2 (fun e => hk (List.mem_append_right _ e)) h

/-- One pass of the first loop, for the key `k` of a list whose order the
occurrences fit, when the keys before it carry the marker: the occurrences of
`k`, and only they, get the marker. -/
theorem uglify_step (pre post : Subs) (k v : Text) (ts : List Tok)
    (hv : validToks (pre ++ (k, v) :: post) ts) (hft : fitToks (pre ++ (k, v) :: post) ts)
    (hkeys : ∀ sub ∈ pre ++ (k, v) :: post, sub.1 ≠ [] ∧ '#' ∉ sub.1) :
    replaceLit k (k ++ marker) 0 (render (uglified (pre.map Prod.fst)) ts)
      = render (uglified (k :: pre.map Prod.fst)) ts := by
  have hk := hkeys (k, v) (by simp)
  induction ts with
  | nil => rfl
  | cons t ts ih =>
    cases t with
    | lit c =>
      simp only [render]
      rw [replaceLit_nomatch, ih hv.2 hft]
      intro hp
      exact hv.1 (k, v) (by simp)
        (prefix_raw_of_prefix_uglified _ (Tok.lit c :: ts) k hk.2 hp)
    | key sub =>
      obtain ⟨⟨before, behind, hsplit, hbefore, hbehind⟩, hft2⟩ := hft
      have hocc : sub.1 <+: (sub.1 ++ render Prod.fst ts).drop 0 := List.prefix_append _ _
      have hpos : 0 < sub.1.length :=
        List.length_pos.2 (hkeys sub (validToks_mem _ sub ts hv)).1
      simp only [render]
      by_cases hsk : sub.1 = k
      · have hdone : k ∉ pre.map Prod.fst := by
          intro e
          obtain ⟨a, ha, hak⟩ := List.mem_map.1 e
          rcases split_compare before behind pre post sub (k, v) hsplit.symm with
            ⟨mid, _, h2⟩ | ⟨h1, _, _⟩ | ⟨mid, h1, _⟩
          · exact hbehind (k, v) (by rw [h2]; simp) (hsk ▸ List.infix_refl _)
          · exact hbefore a (h1 ▸ ha) 0 hpos (hak ▸ hsk ▸ hocc)
          · exact hbefore (k, v) (by rw [h1]; simp) 0 hpos (hsk ▸ hocc)
        have h1 : uglified (pre.map Prod.fst) sub = k := by simp [uglified, hsk, hdone]
        have h2 : uglified (k :: pre.map Prod.fst) sub = k ++ marker := by simp [uglified, hsk]
        rw [h1, h2, replaceLit_match _ _ _ hk.1, ih hv.2 hft2]
      · have h2 : uglified (k :: pre.map Prod.fst) sub = uglified (pre.map Prod.fst) sub := by
          have hmc : sub.1 ∈ k :: pre.map Prod.fst ↔ sub.1 ∈ pre.map Prod.fst := by
            rw [List.mem_cons]
            exact or_iff_right hsk
          simp only [uglified, hmc]
        rw [h2]
        obtain ⟨c0, t0, hk0, hc0⟩ := key_head k hk.1 hk.2 []
        rw [List.append_nil] at hk0
        by_cases hd : sub.1 ∈ pre.map Prod.fst
        · simp only [uglified, hd, if_true, List.append_assoc]
          obtain ⟨a, ha, hak⟩ := List.mem_map.1 hd
          have hnot : ¬ k <:+: sub.1 := by
            rcases split_compare before behind pre post sub (k, v) hsplit.symm with
              ⟨mid, _, h2⟩ | ⟨_, h1, _⟩ | ⟨mid, h1, _⟩
            · exact hbehind (k, v) (by rw [h2]; simp)
            · exact absurd (by rw [h1]) hsk
            · exact absurd (hak ▸ hocc) (hbefore a (by rw [h1]; simp [ha]) 0 hpos)
          rw [replaceLit_pass, replaceLit_pass_marker _ _ _ c0 t0 hk0 hc0, ih hv.2 hft2]
          intro o _ hp
          have h3 : k <+: sub.1.drop o :=
            prefix_of_prefix_hash k _ _ hk.2 (by simpa [marker] using hp)
          exact hnot (h3.isInfix.trans (List.drop_suffix o _).isInfix)
        · simp only [uglified, hd, if_false]
          have hkb : (k, v) ∈ before := by
            rcases split_compare before behind pre post sub (k, v) hsplit.symm with
              ⟨mid, h1, _⟩ | ⟨_, h1, _⟩ | ⟨mid, h1, _⟩
            · exact absurd (List.mem_map_of_mem Prod.fst (by rw [h1]; simp : sub ∈ pre)) hd
            · exact absurd (by rw [h1]) hsk
            · rw [h1]; simp
          rw [replaceLit_pass, ih hv.2 hft2]
          intro o ho hp
          have hp2 := prefix_raw_behind (pre.map Prod.fst) ts k _ hk.2 hp
          refine hbefore (k, v) hkb o ho ?_
          rw [List.drop_append_of_le_length (Nat.le_of_lt ho)]
          exact hp2

/-! ### The second loop -/

/-- A key followed by the marker that begins a text of the second loop behind
a stretch `x` already met begins the same stretch followed by the text in
which the occurrences of the key itself are blanked: it does not reach into
one of them. -/
theorem match_awaited (done : List Text) (k : Text) (ts : List Tok)
    (hk : k ≠ [] ∧ '#' ∉ k) (x : Text) (hx : x ≠ [])
    (h : k ++ marker <+: x ++ render (restored done) ts) :
    k ++ marker <+: x ++ render (awaited done k) ts := by
  induction ts generalizing x with
  | nil => simpa only [render] using h
  | cons t ts ih =>
    cases t with
    | lit c =>
      simp only [render] at h ⊢
      have := ih (x ++ [c]) (by simp) (by simpa using h)
      simpa using this
    | key sub =>
      simp only [render] at h ⊢
      by_cases hd : sub.1 ∈ done
      · simp only [restored, awaited, hd, if_true] at h ⊢
        have := ih (x ++ sub.2) (by simp [hx]) (by simpa using h)
        simpa using this
      · by_cases hsk : sub.1 = k
        · simp only [restored, hd, if_false, List.append_assoc] at h
          suffices hs : k ++ marker <+: x from hs.trans (List.prefix_append _ _)
          rcases prefix_append_cases _ _ _ h with h1 | ⟨q, hq⟩
          · exact h1
          · rw [← hq, List.prefix_append_right_inj, hsk] at h
            rcases List.append_eq_append_iff.1 hq with ⟨a, ha, hqa⟩ | ⟨c, hc, hm⟩
            · -- the stretch ends inside the key
              exfalso
              subst hqa
              have hah : '#' ∉ a := fun e => hk.2 (ha ▸ List.mem_append_right _ e)
              have hae : a = k := eq_of_hash_prefix a k _ _ hah hk.2
                (by simpa [marker] using h)
              have hl := congrArg List.length ha
              rw [hae, List.length_append] at hl
              have : 0 < x.length := List.length_pos.2 hx
              omega
            · -- the stretch ends inside the marker
              cases q with
              | nil =>
                rw [List.append_nil] at hm
                rw [hc, hm]
              | cons q0 q1 =>
                exfalso
                have hq0 : q0 = '#' := by
                  have : q0 ∈ marker := hm ▸ List.mem_append_right _ (List.mem_cons_self _ _)
                  simpa [marker] using this
                obtain ⟨c0, t0, hk0, hc0⟩ := key_head k hk.1 hk.2
                  (marker ++ render (restored done) ts)
                rw [hk0, List.cons_prefix_cons] at h
                exact hc0 (h.1 ▸ hq0)
        · simp only [restored, awaited, hd, hsk, if_false] at h ⊢
          have := ih (x ++ (sub.1 ++ marker)) (by simp [hx]) (by simpa using h)
          simpa using this

/-- One pass of the second loop, for the substitution `(k, v)` of a list whose
order the occurrences fit, when the keys before it are replaced already and
the key followed by the marker does not arise from the text so far: the
occurrences of `k`, and only they, are replaced by `v`. -/
theorem restore_step (pre post : Subs) (k v : Text) (ts : List Tok)
    (hv : validToks (pre ++ (k, v) :: post) ts) (hft : fitToks (pre ++ (k, v) :: post) ts)
    (hkeys : ∀ sub ∈ pre ++ (k, v) :: post, sub.1 ≠ [] ∧ '#' ∉ sub.1)
    (hfree : ¬ k ++ marker <:+: render (awaited (pre.map Prod.fst) k) ts) :
    replaceLit (k ++ marker) v 0 (render (restored (pre.map Prod.fst)) ts)
      = render (restored (k :: pre.map Prod.fst)) ts := by
  have hk := hkeys (k, v) (by simp)
  have hpat : k ++ marker ≠ [] := by simp [marker]
  have hmb := fun ts => match_awaited (pre.map Prod.fst) k ts hk
  induction ts with
  | nil => rfl
  | cons t ts ih =>
    have hfree2 : ¬ k ++ marker <:+: render (awaited (pre.map Prod.fst) k) ts :=
      fun e => hfree (e.trans (render_tail_suffix _ t ts).isInfix)
    cases t with
    | lit c =>
      simp only [render]
      rw [replaceLit_nomatch, ih hv.2 hft hfree2]
      intro hp
      have := hmb ts [c] (by simp) (by simpa using hp)
      exact hfree (by simpa only [render] using this.isInfix)
    | key sub =>
      obtain ⟨⟨before, behind, hsplit, hbefore, hbehind⟩, hft2⟩ := hft
      have hsub := validToks_mem _ sub ts hv
      have hocc : sub.1 <+: (sub.1 ++ render Prod.fst ts).drop 0 := List.prefix_append _ _
      have hpos : 0 < sub.1.length := List.length_pos.2 (hkeys sub hsub).1
      simp only [render]
      by_cases hsk : sub.1 = k
      · have hboth : sub = (k, v) ∧ k ∉ pre.map Prod.fst := by
          rcases split_compare before behind pre post sub (k, v) hsplit.symm with
            ⟨mid, _, h2⟩ | ⟨h1, h2, _⟩ | ⟨mid, h1, _⟩
          · exact absurd (hsk ▸ List.infix_refl _) (hbehind (k, v) (by rw [h2]; simp))
          · refine ⟨h2, fun e => ?_⟩
            obtain ⟨a, ha, hak⟩ := List.mem_map.1 e
            exact hbefore a (h1 ▸ ha) 0 hpos (hak ▸ hsk ▸ hocc)
          · exact absurd (hsk ▸ hocc) (hbefore (k, v) (by rw [h1]; simp) 0 hpos)
        obtain ⟨hsv, hdone⟩ := hboth
        have h1 : restored (pre.map Prod.fst) sub = k ++ marker := by
          simp only [restored, hsv, hdone, if_false]
        have h2 : restored (k :: pre.map Prod.fst) sub = v := by
          simp only [restored, hsv, List.mem_cons_self, if_true]
        rw [h1, h2, replaceLit_match _ _ _ hpat, ih hv.2 hft2 hfree2]
      · have h2 : restored (k :: pre.map Prod.fst) sub = restored (pre.map Prod.fst) sub := by
          have hmc : sub.1 ∈ k :: pre.map Prod.fst ↔ sub.1 ∈ pre.map Prod.fst := by
            rw [List.mem_cons]
            exact or_iff_right hsk
          simp only [restored, hmc]
        rw [h2]
        by_cases hd : sub.1 ∈ pre.map Prod.fst
        · simp only [restored, hd, if_true]
          rw [replaceLit_pass, ih hv.2 hft2 hfree2]
          intro o ho hp
          have hdrop : sub.2.drop o ≠ [] := by
            intro e
            have := congrArg List.length e
            simp only [List.length_drop, List.length_nil] at this
            omega
          have := hmb ts (sub.2.drop o) hdrop hp
          apply hfree
          simp only [render, awaited, hd, if_true]
          have e : sub.2 ++ render (awaited (pre.map Prod.fst) k) ts
              = sub.2.take o ++ (sub.2.drop o ++ render (awaited (pre.map Prod.fst) k) ts) := by
            rw [← List.append_assoc, List.take_append_drop]
          rw [e]
          exact this.isInfix.trans (List.suffix_append _ _).isInfix
        · simp only [restored, hd, if_false, List.append_assoc]
          have hkb : (k, v) ∈ before := by
            rcases split_compare before behind pre post sub (k, v) hsplit.symm with
              ⟨mid, h1, _⟩ | ⟨_, h1, _⟩ | ⟨mid, h1, _⟩
            · exact absurd (List.mem_map_of_mem Prod.fst (by rw [h1]; simp : sub ∈ pre)) hd
            · exact absurd (by rw [h1]) hsk
            · rw [h1]; simp
          obtain ⟨c0, t0, hk0, hc0⟩ := key_head k hk.1 hk.2 marker
          rw [replaceLit_pass, replaceLit_pass_marker _ _ _ c0 t0 hk0 hc0,
            ih hv.2 hft2 hfree2]
          intro o ho hp
          have hk2 := (hkeys sub hsub).2
          have he := eq_of_hash_prefix k (sub.1.drop o) _ _ hk.2
            (fun e => hk2 (List.mem_of_mem_drop e)) (by simpa [marker] using hp)
          refine hbefore (k, v) hkb o ho ?_
          rw [List.drop_append_of_le_length (Nat.le_of_lt ho), ← he]
          exact List.prefix_append _ _

/-! ### The two loops together -/

/-- The state of the first loop depends on the set of the keys done only. -/
theorem uglified_congr (d1 d2 : List Text) (h : ∀ x, x ∈ d1 ↔ x ∈ d2) :
    uglified d1 = uglified d2 := by
  funext sub
  simp only [uglified, h]

/-- The state of the second loop depends on the set of the keys done only. -/
theorem restored_congr (d1 d2 : List Text) (h : ∀ x, x ∈ d1 ↔ x ∈ d2) :
    restored d1 = restored d2 := by
  funext sub
  simp only [restored, h]

/-- The keys done after one more substitution. -/
theorem mem_done_snoc (pre : Subs) (k v : Text) (x : Text) :
    x ∈ k :: pre.map Prod.fst ↔ x ∈ (pre ++ [(k, v)]).map Prod.fst := by
  simp only [List.map_append, List.map_cons, List.map_nil, List.mem_cons, List.mem_append,
    List.mem_singleton, List.not_mem_nil, or_false]
  exact or_comm

/-- The first loop over the substitutions `todo` of a list whose order the
occurrences fit, the keys of the substitutions `pre` before them carrying the
marker already. -/
theorem uglify_fold (ts : List Tok) (todo pre : Subs)
    (hv : validToks (pre ++ todo) ts) (hft : fitToks (pre ++ todo) ts)
    (hkeys : ∀ sub ∈ pre ++ todo, sub.1 ≠ [] ∧ identLike sub.1 = true) :
    uglify todo (render (uglified (pre.map Prod.fst)) ts)
      = render (uglified ((pre ++ todo).map Prod.fst)) ts := by
  induction todo generalizing pre with
  | nil => simp [uglify]
  | cons sub todo ih =>
    obtain ⟨k, v⟩ := sub
    have hk := hkeys (k, v) (by simp)
    have hd : '$' ∉ k ++ marker := by
      intro e
      rcases List.mem_append.1 e with e | e
      · exact identLike_no_dollar _ hk.2 e
      · exact marker_no_dollar e
    have e : pre ++ (k, v) :: todo = (pre ++ [(k, v)]) ++ todo := by simp
    have h2 := ih (pre ++ [(k, v)]) (e ▸ hv) (e ▸ hft) (e ▸ hkeys)
    unfold uglify at h2 ⊢
    rw [List.foldl_cons,
      regex_replace_eq_replaceLit _ _ _ hk.1 (identLike_no_dot _ hk.2)
        (fun m p s => formatMatch_of_no_dollar m p s _ hd),
      uglify_step pre todo k v ts hv hft
        (fun s hs => ⟨(hkeys s hs).1, identLike_no_hash _ (hkeys s hs).2⟩),
      uglified_congr _ _ (mem_done_snoc pre k v), h2, e]

/-- The second loop over the substitutions `todo` of a list whose order the
occurrences fit, the keys of the substitutions `pre` before them being
replaced already. -/
theorem restore_fold (ts : List Tok) (todo pre : Subs)
    (hv : validToks (pre ++ todo) ts) (hft : fitToks (pre ++ todo) ts)
    (hkeys : ∀ sub ∈ pre ++ todo, sub.1 ≠ [] ∧ identLike sub.1 = true)
    (hvals : ∀ sub ∈ pre ++ todo, plainFormat sub.2 = true)
    (hfree : ∀ p1 k v p2, todo = p1 ++ (k, v) :: p2 →
      ¬ k ++ marker <:+: render (awaited ((pre ++ p1).map Prod.fst) k) ts) :
    restore todo (render (restored (pre.map Prod.fst)) ts)
      = render (restored ((pre ++ todo).map Prod.fst)) ts := by
  induction todo generalizing pre with
  | nil => simp [restore]
  | cons sub todo ih =>
    obtain ⟨k, v⟩ := sub
    have hk := hkeys (k, v) (by simp)
    have hpat : k ++ marker ≠ [] := by simp [marker]
    have hpdot : '.' ∉ k ++ marker := by
      intro e
      rcases List.mem_append.1 e with e | e
      · exact identLike_no_dot _ hk.2 e
      · exact marker_no_dot e
    have e : pre ++ (k, v) :: todo = (pre ++ [(k, v)]) ++ todo := by simp
    have h2 := ih (pre ++ [(k, v)]) (e ▸ hv) (e ▸ hft) (e ▸ hkeys) (e ▸ hvals)
      (fun p1 k2 v2 p2 hs => by
        have := hfree ((k, v) :: p1) k2 v2 p2 (by rw [hs]; rfl)
        simpa using this)
    have h0 := hfree [] k v todo rfl
    rw [List.append_nil] at h0
    unfold restore at h2 ⊢
    rw [List.foldl_cons,
      regex_replace_eq_replaceLit _ _ _ hpat hpdot
        (fun m p s => formatMatch_of_plain m p s _ (hvals (k, v) (by simp))),
      restore_step pre todo k v ts hv hft
        (fun s hs => ⟨(hkeys s hs).1, identLike_no_hash _ (hkeys s hs).2⟩) h0,
      restored_congr _ _ (mem_done_snoc pre k v), h2, e]

/-- What `markerFree` says at a substitution of the list. -/
theorem markerFree_at (subs : Subs) (snippet : Text) (h : markerFree subs snippet = true)
    (p1 p2 : Subs) (k v : Text) (hs : subs = p1 ++ (k, v) :: p2) :
    ¬ k ++ marker <:+: render (awaited (p1.map Prod.fst) k) (tokens subs 0 snippet) := by
  unfold markerFree at h
  rw [List.all_eq_true] at h
  have hi : p1.length ∈ List.range subs.length := by
    rw [List.mem_range, hs, List.length_append, List.length_cons]
    omega
  have := h p1.length hi
  have e1 : (subs.map Prod.fst).getD p1.length [] = k := by
    rw [hs, List.map_append, List.map_cons, List.getD_eq_getElem?_getD,
      List.getElem?_append_right (by simp), List.length_map, Nat.sub_self]
    simp
  have e2 : subs.take p1.length = p1 := by
    rw [hs]
    simp
  rw [e1, e2] at this
  unfold heldBack at this
  rw [singlePass_map] at this
  simpa using this

/-- The two loops of `Snip` compute the single pass for a substitution list
with non-empty identifier-like keys and plain values, when the occurrences fit
the order of the list and no key followed by the marker arises. -/
theorem restore_uglify (subs : Subs) (snippet : Text)
    (hkeys : ∀ sub ∈ subs, sub.1 ≠ [] ∧ identLike sub.1 = true)
    (hfit : occurrencesFit subs 0 snippet = true)
    (hvals : ∀ sub ∈ subs, plainFormat sub.2 = true)
    (hfree : markerFree subs snippet = true) :
    restore subs (uglify subs snippet) = singlePass subs 0 snippet := by
  have hk : ∀ sub ∈ subs, sub.1 ≠ [] := fun s hs => (hkeys s hs).1
  obtain ⟨hraw, hv⟩ := tokens_valid subs hk snippet 0
  rw [List.drop_zero] at hraw
  have hft := occurrencesFit_toks subs hk snippet 0 hfit
  have hin : ∀ sub ∈ subs, sub.1 ∈ subs.map Prod.fst :=
    fun sub hsub => List.mem_map_of_mem Prod.fst hsub
  have e0 : snippet = render (uglified (([] : Subs).map Prod.fst)) (tokens subs 0 snippet) :=
    hraw.symm.trans (render_congr subs _ _
      (fun sub _ => by simp [uglified]) _ hv)
  have e1 : render (uglified (subs.map Prod.fst)) (tokens subs 0 snippet)
      = render (restored (([] : Subs).map Prod.fst)) (tokens subs 0 snippet) :=
    render_congr subs _ _ (fun sub hsub => by
      unfold uglified restored
      rw [if_pos (hin sub hsub), if_neg (by simp)]) _ hv
  have e2 : render (restored (subs.map Prod.fst)) (tokens subs 0 snippet)
      = render Prod.snd (tokens subs 0 snippet) :=
    render_congr subs _ _ (fun sub hsub => by
      unfold restored
      rw [if_pos (hin sub hsub)]) _ hv
  have u := uglify_fold (tokens subs 0 snippet) subs [] hv hft hkeys
  have r := restore_fold (tokens subs 0 snippet) subs [] hv hft hkeys hvals
    (fun p1 k v p2 hs => markerFree_at subs snippet hfree p1 p2 k v hs)
  rw [List.nil_append] at u r
  conv_lhs => rw [e0]
  rw [u, e1, r, e2, singlePass_eq_render]

/-! ### Keys of which one is part of the other -/

/-- Counting through a replacement: with `n` the number of occurrences
replaced, each character is counted as often in the result as in the text,
less the occurrences and plus the replacements; an occurrence in the text is
replaced, a replacement shows in the result, and without one the text is
unchanged. -/
theorem replaceLit_counts (pat rep : Text) (hp : pat ≠ []) (s : Text) :
    ∃ n, (∀ c, (replaceLit pat rep 0 s).count c + n * pat.count c
        = s.count c + n * rep.count c) ∧
      (pat <:+: s → 1 ≤ n) ∧ (1 ≤ n → rep <:+: replaceLit pat rep 0 s) ∧
      (n = 0 → replaceLit pat rep 0 s = s) := by
  generalize hl : s.length = m
  induction m using Nat.strong_induction_on generalizing s with
  | _ m ih =>
    cases s with
    | nil =>
      refine ⟨0, fun c => by simp [replaceLit], fun h => ?_, fun h => absurd h (by omega),
        fun _ => rfl⟩
      exact absurd (List.eq_nil_of_infix_nil h) hp
    | cons d s =>
      by_cases hpre : pat <+: d :: s
      · obtain ⟨rest, hrest⟩ := hpre
        have hlen : rest.length < m := by
          have := congrArg List.length hrest
          have hpl : 0 < pat.length := List.length_pos.2 hp
          rw [List.length_append] at this
          omega
        obtain ⟨n, h1, _, _, _⟩ := ih rest.length hlen rest rfl
        refine ⟨n + 1, fun c => ?_, fun _ => by omega, fun _ => ?_, fun h => absurd h (by omega)⟩
        · rw [← hrest, replaceLit_match _ _ _ hp, List.count_append, List.count_append]
          have := h1 c
          rw [Nat.add_mul, Nat.add_mul]
          omega
        · rw [← hrest, replaceLit_match _ _ _ hp]
          exact (List.prefix_append _ _).isInfix
      · have hlen : s.length < m := by
          rw [← hl, List.length_cons]
          omega
        obtain ⟨n, h1, h2, h3, h4⟩ := ih s.length hlen s rfl
        refine ⟨n, fun c => ?_, fun h => ?_, fun h => ?_, fun h => ?_⟩
        · rw [replaceLit_nomatch _ _ _ _ hpre, List.count_cons, List.count_cons]
          have := h1 c
          omega
        · apply h2
          obtain ⟨u, w, huw⟩ := h
          cases u with
          | nil => exact absurd ⟨w, by simpa using huw⟩ hpre
          | cons u0 u =>
            simp only [List.cons_append, List.cons.injEq, List.append_assoc] at huw
            exact ⟨u, w, by simpa using huw.2⟩
        · rw [replaceLit_nomatch _ _ _ _ hpre]
          exact (h3 h).trans (List.suffix_cons _ _).isInfix
        · rw [replaceLit_nomatch _ _ _ _ hpre, h4 h]

/-- A character that is not identifier-like is not in an identifier-like key. -/
theorem identLike_count (k : Text) (h : identLike k = true) (c : Char)
    (hc : (c.isAlphanum || c = '_') = false) : k.count c = 0 := by
  rw [List.count_eq_zero]
  intro hm
  have := List.all_eq_true.1 h _ hm
  rw [hc] at this
  exact Bool.noConfusion this

/-- The two loops of `Snip` for two substitutions with identifier-like keys and
the values `x` and `y` without `$`: four replacements. -/
theorem two_loops (a b x y s : Text) (ha : a ≠ [] ∧ identLike a = true)
    (hb : b ≠ [] ∧ identLike b = true) (hx : '$' ∉ x) (hy : '$' ∉ y) :
    restore [(a, x), (b, y)] (uglify [(a, x), (b, y)] s)
      = replaceLit (b ++ marker) y 0 (replaceLit (a ++ marker) x 0
          (replaceLit b (b ++ marker) 0 (replaceLit a (a ++ marker) 0 s))) := by
  have hd : ∀ k, identLike k = true → '$' ∉ k ++ marker := by
    intro k hk e
    rcases List.mem_append.1 e with e | e
    · exact identLike_no_dollar _ hk e
    · exact marker_no_dollar e
  have hdot : ∀ k, identLike k = true → '.' ∉ k ++ marker := by
    intro k hk e
    rcases List.mem_append.1 e with e | e
    · exact identLike_no_dot _ hk e
    · exact marker_no_dot e
  have hne : ∀ k : Text, k ++ marker ≠ [] := by
    intro k
    simp [marker]
  simp only [restore, uglify, List.foldl]
  rw [regex_replace_eq_replaceLit _ a _ ha.1 (identLike_no_dot _ ha.2)
      (fun m p s => formatMatch_of_no_dollar m p s _ (hd a ha.2)),
    regex_replace_eq_replaceLit _ b _ hb.1 (identLike_no_dot _ hb.2)
      (fun m p s => formatMatch_of_no_dollar m p s _ (hd b hb.2)),
    regex_replace_eq_replaceLit _ (a ++ marker) _ (hne a) (hdot a ha.2)
      (fun m p s => formatMatch_of_no_dollar m p s _ hx),
    regex_replace_eq_replaceLit _ (b ++ marker) _ (hne b) (hdot b hb.2)
      (fun m p s => formatMatch_of_no_dollar m p s _ hy)]

/-- Two keys of which one is part of the other are not handled: on the
snippet that is the longer key `b`, with the values `-` for the shorter key `a`
and `+` for `b`, the two loops of `Snip` do not return the value of `b`, in
either order of the list. -/
theorem nested_keys_fail (a b : Text) (ha : a ≠ [] ∧ identLike a = true)
    (hb : b ≠ [] ∧ identLike b = true) (hab : a <:+: b) :
    restore [(a, txt "-"), (b, txt "+")] (uglify [(a, txt "-"), (b, txt "+")] b) ≠ txt "+" ∧
    restore [(b, txt "+"), (a, txt "-")] (uglify [(b, txt "+"), (a, txt "-")] b) ≠ txt "+" := by
  have hm : ∀ k : Text, k ++ marker ≠ [] := by
    intro k
    simp [marker]
  have cnt : ∀ (k : Text), identLike k = true →
      k.count '-' = 0 ∧ k.count '+' = 0 ∧ k.count '#' = 0 ∧
      (k ++ marker).count '-' = 0 ∧ (k ++ marker).count '+' = 0 ∧
      (k ++ marker).count '#' = 4 := by
    intro k hk
    have h1 := identLike_count k hk '-' (by decide)
    have h2 := identLike_count k hk '+' (by decide)
    have h3 := identLike_count k hk '#' (by decide)
    refine ⟨h1, h2, h3, ?_, ?_, ?_⟩ <;> rw [List.count_append] <;> simp [marker, *]
  obtain ⟨a1, a2, a3, a4, a5, a6⟩ := cnt a ha.2
  obtain ⟨b1, b2, b3, b4, b5, b6⟩ := cnt b hb.2
  have m1 : (txt "-").count '-' = 1 := by decide
  have m2 : (txt "-").count '+' = 0 := by decide
  have m3 : (txt "-").count '#' = 0 := by decide
  have p1 : (txt "+").count '-' = 0 := by decide
  have p2 : (txt "+").count '+' = 1 := by decide
  have p3 : (txt "+").count '#' = 0 := by decide
  constructor
  · rw [two_loops a b _ _ b ha hb (by decide) (by decide)]
    obtain ⟨n1, c1, o1, r1, _⟩ := replaceLit_counts a (a ++ marker) ha.1 b
    obtain ⟨n2, c2, _, _, z2⟩ := replaceLit_counts b (b ++ marker) hb.1
      (replaceLit a (a ++ marker) 0 b)
    obtain ⟨n3, c3, o3, _, _⟩ := replaceLit_counts (a ++ marker) (txt "-") (hm a)
      (replaceLit b (b ++ marker) 0 (replaceLit a (a ++ marker) 0 b))
    obtain ⟨n4, c4, _, _, _⟩ := replaceLit_counts (b ++ marker) (txt "+") (hm b)
      (replaceLit (a ++ marker) (txt "-") 0
        (replaceLit b (b ++ marker) 0 (replaceLit a (a ++ marker) 0 b)))
    intro e
    rw [e] at c4
    have d1 := c1 '-'; have d2 := c2 '-'; have d3 := c3 '-'; have d4 := c4 '-'
    have e1 := c1 '+'; have e2 := c2 '+'; have e3 := c3 '+'; have e4 := c4 '+'
    have f1 := c1 '#'; have f2 := c2 '#'; have f3 := c3 '#'; have f4 := c4 '#'
    simp only [a1, a2, a3, a4, a5, a6, b1, b2, b3, b4, b5, b6, m1, m2, m3, p1, p2, p3,
      Nat.mul_zero, Nat.add_zero, Nat.mul_one] at d1 d2 d3 d4 e1 e2 e3 e4 f1 f2 f3 f4
    have hn1 := o1 hab
    have hn2 : n2 = 0 := by omega
    have hn3 : n3 = 0 := by omega
    have := o3 (by rw [z2 hn2]; exact r1 hn1)
    omega
  · rw [two_loops b a _ _ b hb ha (by decide) (by decide)]
    obtain ⟨n1, c1, o1, r1, _⟩ := replaceLit_counts b (b ++ marker) hb.1 b
    obtain ⟨n2, c2, o2, _, _⟩ := replaceLit_counts a (a ++ marker) ha.1
      (replaceLit b (b ++ marker) 0 b)
    obtain ⟨n3, c3, _, _, _⟩ := replaceLit_counts (b ++ marker) (txt "+") (hm b)
      (replaceLit a (a ++ marker) 0 (replaceLit b (b ++ marker) 0 b))
    obtain ⟨n4, c4, _, _, _⟩ := replaceLit_counts (a ++ marker) (txt "-") (hm a)
      (replaceLit (b ++ marker) (txt "+") 0
        (replaceLit a (a ++ marker) 0 (replaceLit b (b ++ marker) 0 b)))
    intro e
    rw [e] at c4
    have d1 := c1 '-'; have d2 := c2 '-'; have d3 := c3 '-'; have d4 := c4 '-'
    have e1 := c1 '+'; have e2 := c2 '+'; have e3 := c3 '+'; have e4 := c4 '+'
    have f1 := c1 '#'; have f2 := c2 '#'; have f3 := c3 '#'; have f4 := c4 '#'
    simp only [a1, a2, a3, a4, a5, a6, b1, b2, b3, b4, b5, b6, m1, m2, m3, p1, p2, p3,
      Nat.mul_zero, Nat.add_zero, Nat.mul_one] at d1 d2 d3 d4 e1 e2 e3 e4 f1 f2 f3 f4
    have hn1 := o1 (List.infix_refl _)
    have hn2 := o2 (hab.trans ((List.prefix_append b marker).isInfix.trans (r1 hn1)))
    omega

/-! ### `Snip` and the single pass -/

/-- `Snip` on a snippet that is in the table: the two loops. -/
theorem Snip_found (snippets_cpp : SnipMapMap) (section_ name : Text) (snip_map : SnipMap)
    (snippet : Text) (subs : Subs)
    (hsec : snippets_cpp.lookup section_ = some snip_map)
    (hname : snip_map.lookup name = some snippet) :
    Snip snippets_cpp section_ name subs = restore subs (uglify subs snippet) := by
  simp [Snip, SnipLog, hsec, hname]

/-- The single pass leaves no `#` when the values and the snippet have none. -/
theorem singlePass_no_hash (subs : Subs) (hvals : ∀ sub ∈ subs, '#' ∉ sub.2) (s : Text)
    (hs : '#' ∉ s) (skip : Nat) : '#' ∉ singlePass subs skip s := by
  induction s generalizing skip with
  | nil => simp [singlePass]
  | cons c s ih =>
    have hs2 : '#' ∉ s := fun e => hs (List.mem_cons_of_mem _ e)
    cases skip with
    | succ n => simpa only [singlePass] using ih hs2 n
    | zero =>
      simp only [singlePass]
      cases hf : subs.find? (fun sub => sub.1.isPrefixOf (c :: s)) with
      | none =>
        simp only [List.mem_cons, not_or]
        exact ⟨fun e => hs (e ▸ List.mem_cons_self _ _), ih hs2 0⟩
      | some sub =>
        simp only [List.mem_append, not_or]
        exact ⟨hvals sub (List.mem_of_find?_eq_some hf), ih hs2 _⟩

/-- Two keys whose occurrences fit both orders of the list: the single pass
does not depend on the order. -/
theorem singlePass_swap (a b x y : Text) (s : Text) (skip : Nat)
    (h1 : occurrencesFit [(a, x), (b, y)] skip s = true)
    (h2 : occurrencesFit [(b, y), (a, x)] skip s = true) :
    singlePass [(b, y), (a, x)] skip s = singlePass [(a, x), (b, y)] skip s := by
  induction s generalizing skip with
  | nil => simp [singlePass]
  | cons c s ih =>
    cases skip with
    | succ n =>
      simp only [occurrencesFit] at h1 h2
      simpa only [singlePass] using ih n h1 h2
    | zero =>
      simp only [singlePass, occurrencesFit, List.find?_cons, List.find?_nil] at h1 h2 ⊢
      by_cases ha : a.isPrefixOf (c :: s) = true
      · by_cases hb : b.isPrefixOf (c :: s) = true
        · exfalso
          simp only [ha, hb, List.dropWhile, Bool.not_true, List.tail_cons, List.all_cons,
            List.all_nil, Bool.and_true, Bool.and_eq_true, Bool.not_eq_true',
            decide_eq_false_iff_not] at h1 h2
          rw [List.isPrefixOf_iff_prefix] at ha hb
          rcases List.prefix_or_prefix_of_prefix ha hb with h3 | h3
          · exact h2.1.2 h3.isInfix
          · exact h1.1.2 h3.isInfix
        · have hb2 : b.isPrefixOf (c :: s) = false := Bool.eq_false_iff.2 hb
          simp only [ha, hb2, Bool.and_eq_true] at h1 h2 ⊢
          rw [ih _ h1.2 h2.2]
      · have ha2 : a.isPrefixOf (c :: s) = false := Bool.eq_false_iff.2 ha
        by_cases hb : b.isPrefixOf (c :: s) = true
        · simp only [ha2, hb, Bool.and_eq_true] at h1 h2 ⊢
          rw [ih _ h1.2 h2.2]
        · have hb2 : b.isPrefixOf (c :: s) = false := Bool.eq_false_iff.2 hb
          simp only [ha2, hb2] at h1 h2 ⊢
          rw [ih _ h1 h2]

/-- C1 as amended: the two loops of `Snip` compute the single pass.  For a
substitution list with non-empty identifier-like keys and a snippet of the
table, provided that the occurrences the single pass replaces fit the order of
the list (no key that stands before the key of an occurrence begins inside the
occurrence, no key that stands behind it is part of it), that no value has a
`$` followed by `$`, `&`, a backquote, a quote or a digit, and that no key
followed by `####` arises from the snippet and the values inserted before the
second loop reaches the key, `Snip` returns the snippet with each key
occurrence replaced by that key's value, the text between the occurrences
unchanged and no substitution inside an inserted value, also when a value is
or contains the name of another key. -/
theorem Snip_two_phase (snippets_cpp : SnipMapMap) (section_ name : Text) (snip_map : SnipMap)
    (snippet : Text) (subs : Subs)
    (hsec : snippets_cpp.lookup section_ = some snip_map)
    (hname : snip_map.lookup name = some snippet)
    (hkeys : ∀ sub ∈ subs, sub.1 ≠ [] ∧ identLike sub.1 = true)
    (hfit : occurrencesFit subs 0 snippet = true)
    (hvals : ∀ sub ∈ subs, plainFormat sub.2 = true)
    (hfree : markerFree subs snippet = true) :
    Snip snippets_cpp section_ name subs = singlePass subs 0 snippet := by
  rw [Snip_found snippets_cpp section_ name snip_map snippet subs hsec hname]
  exact restore_uglify subs snippet hkeys hfit hvals hfree

set_option maxRecDepth 1000000 in
/-- Witness of C1 as amended: a constant that is itself named `VAL` (the value
inserted for `NAME` is not replaced again); an include guard with `#` in the
snippet and in a value; the keys `ab` and `bc` on `abc`, of which the first
ends as the second begins; a snippet with `####` behind the key that is
replaced last; and the substitution lists of `Function::GetSubs` (for
`demoFunction`), of `Fields::GenVtsList` and of `Parser::Write`. -/
theorem Snip_two_phase_witness :
    Snip trapSnippets (txt "cpp") (txt "const") [(txt "NAME", txt "VAL"), (txt "VAL", txt "3")]
      = txt "const VAL = 3;\n" ∧
    Snip trapSnippets (txt "cpp") (txt "guard")
        [(txt "GUARD", txt "DEMO_H"), (txt "INCLUDES", txt "#include <demo.h>\n")]
      = txt "#ifndef DEMO_H\n#define DEMO_H\n#include <demo.h>\n#endif  // DEMO_H\n" ∧
    Snip trapSnippets (txt "cpp") (txt "overlap") [(txt "ab", txt "X"), (txt "bc", txt "Y")]
      = txt "Xc" ∧
    Snip trapSnippets (txt "cpp") (txt "marked") [(txt "VAL", txt "3"), (txt "NAME", txt "VAL")]
      = txt "VAL####3" ∧
    Snip trapSnippets (txt "cpp") (txt "method")
        ((Function.GetSubs demoSnippets demoFunction (txt "cpp")).getD ([], [])).1
      = txt "void doThing(int32_t a, doThing_cb cb) \x7b  \x7d" ∧
    Snip trapSnippets (txt "cpp") (txt "vts_args")
        [(txt "arg_or_ret_type", txt "arg"), (txt "type_name", txt "int32_t"),
          (txt "vts_type_type", txt "primitive_type"), (txt "vts_values", [])]
      = txt "arg: \x7b primitive_type: int32_t \x7d\n" ∧
    Snip factsSnippets (txt "cpp") (txt "file") (Parser.Write.keys.map (fun k => (k, txt "V")))
      = txt "V|V|V|V|V|V|V|V|V|V|V|V|V|V|V|V|V|V|V" :=
  ⟨(Snip_two_phase trapSnippets (txt "cpp") (txt "const") _ (txt "const NAME = VAL;\n")
      [(txt "NAME", txt "VAL"), (txt "VAL", txt "3")] rfl rfl (by decide) (by decide) (by decide)
      (by decide)).trans (by decide),
    (Snip_two_phase trapSnippets (txt "cpp") (txt "guard") _
      (txt "#ifndef GUARD\n#define GUARD\nINCLUDES#endif  // GUARD\n")
      [(txt "GUARD", txt "DEMO_H"), (txt "INCLUDES", txt "#include <demo.h>\n")] rfl rfl
      (by decide) (by decide) (by decide) (by decide)).trans (by decide),
    (Snip_two_phase trapSnippets (txt "cpp") (txt "overlap") _ (txt "abc")
      [(txt "ab", txt "X"), (txt "bc", txt "Y")] rfl rfl (by decide) (by decide) (by decide)
      (by decide)).trans (by decide),
    (Snip_two_phase trapSnippets (txt "cpp") (txt "marked") _ (txt "NAME####VAL")
      [(txt "VAL", txt "3"), (txt "NAME", txt "VAL")] rfl rfl (by decide) (by decide) (by decide)
      (by decide)).trans (by decide),
    (Snip_two_phase trapSnippets (txt "cpp") (txt "method") _
      (txt "void function_name(params_and_callback) \x7b callback_invocation \x7d")
      ((Function.GetSubs demoSnippets demoFunction (txt "cpp")).getD ([], [])).1 rfl rfl
      (by decide) (by decide) (by decide) (by decide)).trans (by decide),
    (Snip_two_phase trapSnippets (txt "cpp") (txt "vts_args") _
      (txt "arg_or_ret_type: \x7b vts_type_type: type_name vts_values\x7d\n")
      [(txt "arg_or_ret_type", txt "arg"), (txt "type_name", txt "int32_t"),
        (txt "vts_type_type", txt "primitive_type"), (txt "vts_values", [])] rfl rfl
      (by decide) (by decide) (by decide) (by decide)).trans (by decide),
    (Snip_two_phase factsSnippets (txt "cpp") (txt "file") _ _
      (Parser.Write.keys.map (fun k => (k, txt "V"))) rfl rfl
      (by decide) (by decide) (by decide) (by decide)).trans (by decide)⟩

/-- C1, the statement of the specification refuted.  On each of six inputs
with distinct, non-empty, identifier-like keys that occur in the snippet, `Snip`
does not return the single pass: a snippet with `####` behind a key (the value
`VAL` inserted for `NAME` is replaced again), a value that contains a key
followed by `####`, a value with `$&`, two keys of which the later ends as the
earlier begins, a key that begins inside an occurrence of a later key, and a
key that is part of an earlier key (the marker stays in the result).  In the
first, third, fourth and sixth input one condition of the amended statement
fails and the others hold. -/
theorem Snip_two_phase_counterexample :
    (statedKeys [(txt "NAME", txt "VAL"), (txt "VAL", txt "3")] (txt "NAME####VAL") ∧
      Snip trapSnippets (txt "cpp") (txt "marked") [(txt "NAME", txt "VAL"), (txt "VAL", txt "3")]
        = txt "33" ∧
      singlePass [(txt "NAME", txt "VAL"), (txt "VAL", txt "3")] 0 (txt "NAME####VAL")
        = txt "VAL####3" ∧
      occurrencesFit [(txt "NAME", txt "VAL"), (txt "VAL", txt "3")] 0 (txt "NAME####VAL")
        = true ∧
      markerFree [(txt "NAME", txt "VAL"), (txt "VAL", txt "3")] (txt "NAME####VAL") = false) ∧
    (statedKeys [(txt "NAME", txt "VAL####"), (txt "VAL", txt "3")] (txt "const NAME = VAL;\n") ∧
      Snip trapSnippets (txt "cpp") (txt "const")
        [(txt "NAME", txt "VAL####"), (txt "VAL", txt "3")] = txt "const 3 = 3;\n" ∧
      singlePass [(txt "NAME", txt "VAL####"), (txt "VAL", txt "3")] 0
        (txt "const NAME = VAL;\n") = txt "const VAL#### = 3;\n") ∧
    (statedKeys [(txt "NAME", txt "$&")] (txt "NAME") ∧
      Snip trapSnippets (txt "cpp") (txt "bare") [(txt "NAME", txt "$&")] = txt "NAME####" ∧
      singlePass [(txt "NAME", txt "$&")] 0 (txt "NAME") = txt "$&" ∧
      occurrencesFit [(txt "NAME", txt "$&")] 0 (txt "NAME") = true ∧
      plainFormat (txt "$&") = false ∧
      markerFree [(txt "NAME", txt "$&")] (txt "NAME") = true) ∧
    (statedKeys [(txt "bc", txt "Y"), (txt "ab", txt "X")] (txt "abc") ∧
      Snip trapSnippets (txt "cpp") (txt "overlap") [(txt "bc", txt "Y"), (txt "ab", txt "X")]
        = txt "Xc####" ∧
      singlePass [(txt "bc", txt "Y"), (txt "ab", txt "X")] 0 (txt "abc") = txt "Xc" ∧
      occurrencesFit [(txt "bc", txt "Y"), (txt "ab", txt "X")] 0 (txt "abc") = false ∧
      markerFree [(txt "bc", txt "Y"), (txt "ab", txt "X")] (txt "abc") = true) ∧
    (statedKeys [(txt "type_name", txt "T"), (txt "base_type_name", txt "B")]
        (txt "base_type_name type_name") ∧
      Snip trapSnippets (txt "cpp") (txt "typed")
        [(txt "type_name", txt "T"), (txt "base_type_name", txt "B")] = txt "base_T#### T" ∧
      singlePass [(txt "type_name", txt "T"), (txt "base_type_name", txt "B")] 0
        (txt "base_type_name type_name") = txt "B T") ∧
    (statedKeys [(txt "param_name", txt "Y"), (txt "name", txt "X")] (txt "param_name name") ∧
      Snip trapSnippets (txt "cpp") (txt "nested")
        [(txt "param_name", txt "Y"), (txt "name", txt "X")] = txt "Y#### X" ∧
      singlePass [(txt "param_name", txt "Y"), (txt "name", txt "X")] 0 (txt "param_name name")
        = txt "Y X" ∧
      occurrencesFit [(txt "param_name", txt "Y"), (txt "name", txt "X")] 0
        (txt "param_name name") = false ∧
      markerFree [(txt "param_name", txt "Y"), (txt "name", txt "X")] (txt "param_name name")
        = true) :=
  ⟨by decide, by decide, by decide, by decide, by decide, by decide⟩

/-- C2 as amended: two keys in either order of the list.  Keys of which one is
part of the other are not handled: on the snippet that is the longer key `b`,
with the value `+` for `b` and `-` for the shorter key `a`, `Snip` does not
return the value of `b` in either order.  Two keys are handled in either order
when the occurrences fit both orders of the list (in the snippet neither key
begins inside an occurrence of the other, and neither is part of the other
where that one occurs), the values are plain and no key followed by `####`
arises: `Snip` then returns for both orders the same text, the snippet with
every occurrence of each key replaced by that key's value, and no `#` is in
the result when none is in the snippet and in the values. -/
theorem Snip_two_keys (snippets_cpp : SnipMapMap) (section_ name : Text) (snip_map : SnipMap)
    (snippet : Text) (a b x y : Text)
    (hsec : snippets_cpp.lookup section_ = some snip_map)
    (hname : snip_map.lookup name = some snippet)
    (ha : a ≠ [] ∧ identLike a = true) (hb : b ≠ [] ∧ identLike b = true) :
    (a <:+: b → snippet = b →
      Snip snippets_cpp section_ name [(a, txt "-"), (b, txt "+")] ≠ txt "+" ∧
      Snip snippets_cpp section_ name [(b, txt "+"), (a, txt "-")] ≠ txt "+") ∧
    (plainFormat x = true → plainFormat y = true →
      occurrencesFit [(a, x), (b, y)] 0 snippet = true →
      occurrencesFit [(b, y), (a, x)] 0 snippet = true →
      markerFree [(a, x), (b, y)] snippet = true →
      markerFree [(b, y), (a, x)] snippet = true →
      Snip snippets_cpp section_ name [(a, x), (b, y)] = singlePass [(a, x), (b, y)] 0 snippet ∧
      Snip snippets_cpp section_ name [(b, y), (a, x)] = singlePass [(a, x), (b, y)] 0 snippet ∧
      ('#' ∉ snippet → '#' ∉ x → '#' ∉ y →
        '#' ∉ Snip snippets_cpp section_ name [(a, x), (b, y)])) := by
  refine ⟨fun hab hs => ?_, fun hx hy f1 f2 m1 m2 => ?_⟩
  · subst hs
    rw [Snip_found snippets_cpp section_ name snip_map snippet _ hsec hname,
      Snip_found snippets_cpp section_ name snip_map snippet _ hsec hname]
    exact nested_keys_fail a snippet ha hb hab
  · have e1 : Snip snippets_cpp section_ name [(a, x), (b, y)]
        = singlePass [(a, x), (b, y)] 0 snippet := by
      rw [Snip_found snippets_cpp section_ name snip_map snippet _ hsec hname]
      exact restore_uglify _ snippet (by simp [ha, hb]) f1 (by simp [hx, hy]) m1
    refine ⟨e1, ?_, fun hs h3 h4 => ?_⟩
    · rw [Snip_found snippets_cpp section_ name snip_map snippet _ hsec hname,
        restore_uglify _ snippet (by simp [ha, hb]) f2 (by simp [hx, hy]) m2]
      exact singlePass_swap a b x y snippet 0 f1 f2
    · rw [e1]
      exact singlePass_no_hash _ (by simp [h3, h4]) snippet hs 0

/-- Witness of C2 as amended: the keys `name` and `param_name` on the snippet
`param_name`, and the keys `function_name` and `package_name`. -/
theorem Snip_two_keys_witness :
    (Snip trapSnippets (txt "cpp") (txt "longer") [(txt "name", txt "-"), (txt "param_name", txt "+")]
        ≠ txt "+" ∧
      Snip trapSnippets (txt "cpp") (txt "longer")
        [(txt "param_name", txt "+"), (txt "name", txt "-")] ≠ txt "+") ∧
    Snip trapSnippets (txt "cpp") (txt "qualified")
      [(txt "function_name", txt "doThing"), (txt "package_name", txt "demo")]
      = txt "demo::doThing" ∧
    Snip trapSnippets (txt "cpp") (txt "qualified")
      [(txt "package_name", txt "demo"), (txt "function_name", txt "doThing")]
      = txt "demo::doThing" := by
  have h := (Snip_two_keys trapSnippets (txt "cpp") (txt "qualified") _
    (txt "package_name::function_name") (txt "function_name") (txt "package_name")
    (txt "doThing") (txt "demo") rfl rfl (by decide) (by decide)).2 (by decide) (by decide)
    (by decide) (by decide) (by decide) (by decide)
  exact ⟨(Snip_two_keys trapSnippets (txt "cpp") (txt "longer") _ (txt "param_name")
      (txt "name") (txt "param_name") [] [] rfl rfl (by decide) (by decide)).1 (by decide) rfl,
    h.1.trans (by decide), h.2.1.trans (by decide)⟩

/-- C2, the statement of the specification refuted: with the keys `name` and
`param_name`, of which the first is part of the second, the occurrence of
`param_name` is not replaced by the value of `param_name` alone in either
order of the list, and the marker `####` is left in the result. -/
theorem Snip_two_keys_counterexample :
    statedKeys [(txt "param_name", txt "Y"), (txt "name", txt "X")] (txt "param_name name") ∧
    singlePass [(txt "param_name", txt "Y"), (txt "name", txt "X")] 0 (txt "param_name name")
      = txt "Y X" ∧
    singlePass [(txt "name", txt "X"), (txt "param_name", txt "Y")] 0 (txt "param_name name")
      = txt "Y X" ∧
    Snip trapSnippets (txt "cpp") (txt "nested")
      [(txt "param_name", txt "Y"), (txt "name", txt "X")] = txt "Y#### X" ∧
    Snip trapSnippets (txt "cpp") (txt "nested")
      [(txt "name", txt "X"), (txt "param_name", txt "Y")] = txt "param_X#### X" ∧
    marker <:+: Snip trapSnippets (txt "cpp") (txt "nested")
      [(txt "param_name", txt "Y"), (txt "name", txt "X")] ∧
    marker <:+: Snip trapSnippets (txt "cpp") (txt "nested")
      [(txt "name", txt "X"), (txt "param_name", txt "Y")] := by
  decide

/-! ## Callback joining -/

/-- C4: callback joining in `Function::GetSubs`.  The joined text is the
parameter list when the callback text is empty, the callback text when the
parameter list is empty, and the two separated by a comma and a blank when
neither is empty; the callback text is empty for a function without return
values; and the entry `params_and_callback` of the substitution list is this
join of the comma parameter list and the callback text. -/
theorem GetSubs_params_and_callback (snippets_cpp : SnipMapMap) (f : Function)
    (section_ : Text) :
    (∀ p c : Text, Function.params_and_callback p c =
      if c = [] then p else if p = [] then c else p ++ txt ", " ++ c) ∧
    (f.generates_ = [] → Function.callback_param snippets_cpp f section_ = []) ∧
    (∀ subs errs, Function.GetSubs snippets_cpp f section_ = some (subs, errs) →
      ∃ p, Fields.GenCommaList snippets_cpp f.fields_ section_ [] false = some p ∧
        subs.lookup (txt "params_and_callback") =
          some (Function.params_and_callback p
            (Function.callback_param snippets_cpp f section_))) := by
  refine ⟨fun p c => ?_, fun h => ?_, fun subs errs h => ?_⟩
  · unfold Function.params_and_callback
    by_cases hc : c = []
    · simp [hc]
    · by_cases hp : p = []
      · simp [hc, hp]
      · simp [hc, hp]
  · simp [Function.callback_param, Fields.Size, h]
  · unfold Function.GetSubs at h
    simp only [Fields.GenCommaList.out_params_default] at h
    cases hp : Fields.GenCommaList snippets_cpp f.fields_ section_ [] false with
    | none => simp [hp] at h
    | some p =>
      refine ⟨p, rfl, ?_⟩
      simp only [hp] at h
      split at h <;> try contradiction
      split at h <;> try contradiction
      split at h <;> try contradiction
      split at h <;> try contradiction
      split at h <;> try contradiction
      split at h <;> try contradiction
      split at h <;> try contradiction
      split at h <;> try contradiction
      split at h <;> try contradiction
      split at h <;> try contradiction
      split at h <;> try contradiction
      simp only [Option.some.injEq, Prod.mk.injEq] at h
      rw [← h.1]
      rfl

/-- Witness of C4: the three joins of the specification, a function without
return values, and the entry computed for `demoFunction`. -/
theorem GetSubs_params_and_callback_witness :
    Function.params_and_callback (txt "a: int32") [] = txt "a: int32" ∧
    Function.params_and_callback (txt "a: int32") (txt "cb: Callback")
      = txt "a: int32, cb: Callback" ∧
    Function.params_and_callback [] (txt "cb: Callback") = txt "cb: Callback" ∧
    Function.callback_param demoSnippets demoProcedure (txt "cpp") = [] ∧
    ((Function.GetSubs demoSnippets demoFunction (txt "cpp")).getD ([], [])).1.lookup
      (txt "params_and_callback") = some (txt "int32_t a, doThing_cb cb") := by
  have h := GetSubs_params_and_callback demoSnippets demoFunction (txt "cpp")
  refine ⟨by rw [h.1]; decide, by rw [h.1]; decide, by rw [h.1]; decide,
    (GetSubs_params_and_callback demoSnippets demoProcedure (txt "cpp")).2.1 rfl, ?_⟩
  obtain ⟨p, hp, hl⟩ := h.2.2
    ((Function.GetSubs demoSnippets demoFunction (txt "cpp")).getD ([], [])).1
    ((Function.GetSubs demoSnippets demoFunction (txt "cpp")).getD ([], [])).2 (by decide)
  have hp2 : Fields.GenCommaList demoSnippets demoFunction.fields_ (txt "cpp") [] false
      = some (txt "int32_t a") := by decide
  rw [hp2] at hp
  cases hp
  rw [hl]
  decide

/-! ## Order of the concatenating combinators -/

/-- A loop whose body appends to its state: started from `init` it yields
`init` followed by what it yields from the unit `e`. -/
theorem foldlM_prepend {α σ : Type} (op : σ → σ → σ) (e : σ)
    (hassoc : ∀ a b c, op (op a b) c = op a (op b c)) (hunit : ∀ a, op a e = a)
    (step : σ → α → Option σ)
    (h : ∀ out x, step out x = (step e x).map (fun t => op out t)) (xs : List α) (init : σ) :
    xs.foldlM step init = (xs.foldlM step e).map (fun t => op init t) := by
  induction xs generalizing init with
  | nil => simp [hunit]
  | cons x xs ih =>
    simp only [List.foldlM_cons, Option.bind_eq_bind]
    rw [h init x]
    cases hx : step e x with
    | none => simp
    | some t =>
      simp only [Option.map_some', Option.some_bind]
      rw [ih (op init t), ih t]
      cases List.foldlM step e xs with
      | none => simp
      | some r => simp [hassoc]

/-- Such a loop over `xs ++ ys` yields its result on `xs` followed by its
result on `ys`. -/
theorem foldlM_append_op {α σ : Type} (op : σ → σ → σ) (e : σ)
    (hassoc : ∀ a b c, op (op a b) c = op a (op b c)) (hunit : ∀ a, op a e = a)
    (step : σ → α → Option σ)
    (h : ∀ out x, step out x = (step e x).map (fun t => op out t)) (xs ys : List α) :
    (xs ++ ys).foldlM step e =
      (xs.foldlM step e).bind (fun a => (ys.foldlM step e).map (fun b => op a b)) := by
  rw [List.foldlM_append]
  simp only [Option.bind_eq_bind]
  congr 1
  funext a
  exact foldlM_prepend op e hassoc hunit step h ys a

/-- Such a loop has a result when its body has one on every element. -/
theorem foldlM_isSome {α σ : Type} (op : σ → σ → σ) (e : σ)
    (hassoc : ∀ a b c, op (op a b) c = op a (op b c)) (hunit : ∀ a, op a e = a)
    (step : σ → α → Option σ)
    (h : ∀ out x, step out x = (step e x).map (fun t => op out t)) (xs : List α)
    (hx : ∀ x ∈ xs, (step e x).isSome = true) :
    (xs.foldlM step e).isSome = true := by
  induction xs with
  | nil => simp
  | cons x xs ih =>
    simp only [List.foldlM_cons, Option.bind_eq_bind]
    have h1 := hx x (List.mem_cons_self _ _)
    obtain ⟨t, ht⟩ := Option.isSome_iff_exists.1 h1
    rw [ht, Option.some_bind, foldlM_prepend op e hassoc hunit step h xs t]
    have h2 := ih (fun y hy => hx y (List.mem_cons_of_mem _ hy))
    obtain ⟨r, hr⟩ := Option.isSome_iff_exists.1 h2
    simp [hr]


/-- Appending texts and logs is associative. -/
theorem appendLog_assoc (a b c : Text × List Err) :
    appendLog (appendLog a b) c = appendLog a (appendLog b c) := by
  simp [appendLog, List.append_assoc]

/-- The empty text with the empty log is a right unit. -/
theorem appendLog_unit (a : Text × List Err) : appendLog a ([], []) = a := by
  simp [appendLog]

/-- The loop of `Field::GenVtsValues` has a result from any state when the
field has a type. -/
theorem GenVtsValues_loop_isSome (snippets_cpp : SnipMapMap) (f : Field) (section_ : Text)
    (anno : Annotation) (ty : Type_) (hty : f.GetType = some ty)
    (values : List AnnotationValue) (acc : Text × List Err) :
    (values.foldlM (Field.GenVtsValues.body snippets_cpp f section_ anno) acc).isSome
      = true := by
  induction values generalizing acc with
  | nil => simp
  | cons v vs ih =>
    simp only [List.foldlM_cons, Option.bind_eq_bind, Field.GenVtsValues.body]
    cases hv : v.GetValue with
    | none => simpa using ih _
    | some e => simpa [hty] using ih _

/-- `Field::GenVtsValues` has a result on a field with a type. -/
theorem GenVtsValues_isSome (snippets_cpp : SnipMapMap) (f : Field) (section_ : Text)
    (ty : Type_) (hty : f.GetType = some ty) :
    (Field.GenVtsValues snippets_cpp f section_).isSome = true := by
  unfold Field.GenVtsValues
  cases ha : f.annotation_ with
  | none => rfl
  | some anno =>
    simp only
    by_cases hk : anno.HasKey (txt "normal") = false
    · simp [hk]
    · simp only [hk, if_false]
      unfold Annotation.HasKey at hk
      unfold Annotation.GetValues
      cases he : anno.entries_ with
      | none => simp [he] at hk
      | some entries =>
        simp only [he] at hk
        cases hl : entries.lookup (txt "normal") with
        | none => simp [hl] at hk
        | some values =>
          simp only [Option.bind_eq_bind, Option.some_bind, hl]
          exact GenVtsValues_loop_isSome snippets_cpp f section_ anno ty hty values ([], [])

/-- The body of the loop of `Fields::GenSemiList` appends to the output. -/
theorem GenSemiList_body_prepend (snippets_cpp : SnipMapMap) (section_ : Text) (out : Text)
    (field : Field) :
    Fields.GenSemiList.body snippets_cpp section_ out field =
      (Fields.GenSemiList.body snippets_cpp section_ [] field).map (fun t => out ++ t) := by
  unfold Fields.GenSemiList.body
  cases Fields.GenSemiList.special_string snippets_cpp section_ field with
  | none => rfl
  | some sp =>
    simp only
    by_cases hsp : sp ≠ []
    · simp [hsp]
    · simp only [hsp, if_false]
      cases field.GetType with
      | none => rfl
      | some ty =>
        simp only
        cases ty.Generate section_ with
        | none => rfl
        | some g => simp

/-- The body of the loop of `Fields::GenByType` appends to the output. -/
theorem GenByType_body_prepend (snippets_cpp : SnipMapMap) (section_ prefix_ : Text) (out : Text)
    (field : Field) :
    Fields.GenByType.body snippets_cpp section_ prefix_ out field =
      (Fields.GenByType.body snippets_cpp section_ prefix_ [] field).map (fun t => out ++ t) := by
  unfold Fields.GenByType.body
  cases field.GetSubs section_ with
  | none => rfl
  | some subs =>
    cases field.GetType with
    | none => rfl
    | some ty => simp

/-- The body of the loop of `Fields::TextByPrefix` appends to the output. -/
theorem TextByPrefix_body_prepend (snippets_cpp : SnipMapMap) (section_ prefix_ : Text)
    (out : Text) (field : Field) :
    Fields.TextByPrefix.body snippets_cpp section_ prefix_ out field =
      (Fields.TextByPrefix.body snippets_cpp section_ prefix_ [] field).map
        (fun t => out ++ t) := by
  unfold Fields.TextByPrefix.body
  cases field.GetType with
  | none => rfl
  | some ty =>
    cases field.GetSubs section_ with
    | none => rfl
    | some subs => simp

/-- The body of the loop of `Fields::GenVtsList` appends to the text and to the
errors. -/
theorem GenVtsList_body_prepend (snippets_cpp : SnipMapMap) (section_ label : Text)
    (acc : Text × List Err) (field : Field) :
    Fields.GenVtsList.body snippets_cpp section_ label acc field =
      (Fields.GenVtsList.body snippets_cpp section_ label ([], []) field).map
        (fun t => appendLog acc t) := by
  unfold Fields.GenVtsList.body
  cases field.GetType with
  | none => rfl
  | some ty =>
    simp only
    cases ty.Generate section_ with
    | none => rfl
    | some g =>
      simp only
      cases field.GenVtsValues snippets_cpp section_ with
      | none => rfl
      | some v => simp [appendLog]

/-- The fields of a list all have a type whose `Generate` and `GetSubs` have a
result: the four concatenating combinators have a result. -/
theorem Fields_bodies_isSome (snippets_cpp : SnipMapMap) (section_ prefix_ label : Text)
    (field : Field) (h : Field.typed section_ field = true) :
    (Fields.GenSemiList.body snippets_cpp section_ [] field).isSome = true ∧
    (Fields.TextByPrefix.body snippets_cpp section_ prefix_ [] field).isSome = true ∧
    (Fields.GenByType.body snippets_cpp section_ prefix_ [] field).isSome = true ∧
    (Fields.GenVtsList.body snippets_cpp section_ label ([], []) field).isSome = true := by
  unfold Field.typed at h
  cases hty : field.GetType with
  | none => simp [hty] at h
  | some ty =>
    simp only [hty, Bool.and_eq_true] at h
    obtain ⟨g, hg⟩ := Option.isSome_iff_exists.1 h.1
    obtain ⟨ts, hts⟩ := Option.isSome_iff_exists.1 h.2
    have hsubs : ∃ subs, field.GetSubs section_ = some subs := by
      simp [Field.GetSubs, hty, hts]
    obtain ⟨subs, hsubs⟩ := hsubs
    obtain ⟨v, hv⟩ := Option.isSome_iff_exists.1
      (GenVtsValues_isSome snippets_cpp field section_ ty hty)
    refine ⟨?_, ?_, ?_, ?_⟩
    · simp only [Fields.GenSemiList.body, Fields.GenSemiList.special_string, hty, hsubs, hg]
      split_ifs <;> rfl
    · simp [Fields.TextByPrefix.body, hty, hsubs]
    · simp [Fields.GenByType.body, hty, hsubs]
    · simp [Fields.GenVtsList.body, hty, hg, hv]

/-- Such a loop yields, in order, what its body yields on each element. -/
theorem foldlM_eq_foldr {α σ : Type} (op : σ → σ → σ) (e : σ)
    (hassoc : ∀ a b c, op (op a b) c = op a (op b c)) (hunit : ∀ a, op a e = a)
    (step : σ → α → Option σ)
    (h : ∀ out x, step out x = (step e x).map (fun t => op out t)) (xs : List α)
    (hx : ∀ x ∈ xs, (step e x).isSome = true) :
    xs.foldlM step e = some ((xs.map (fun x => (step e x).getD e)).foldr op e) := by
  induction xs with
  | nil => rfl
  | cons x xs ih =>
    obtain ⟨t, ht⟩ := Option.isSome_iff_exists.1 (hx x (List.mem_cons_self _ _))
    simp only [List.foldlM_cons, Option.bind_eq_bind, ht, Option.some_bind, List.map_cons,
      List.foldr_cons, Option.getD_some]
    rw [foldlM_prepend op e hassoc hunit step h xs t,
      ih (fun y hy => hx y (List.mem_cons_of_mem _ hy))]
    rfl

/-- Appending the texts of a list one after the other is the concatenation of
the list. -/
theorem foldr_append_flatten (l : List Text) : l.foldr (fun a b => a ++ b) [] = l.flatten := by
  induction l with
  | nil => rfl
  | cons a l ih => simp only [List.foldr_cons, List.flatten_cons, ih]

/-- A loop over one element is its body. -/
theorem foldlM_singleton_some {α σ : Type} (step : σ → α → Option σ) (e : σ) (x : α) :
    [x].foldlM step e = step e x := by
  simp only [List.foldlM_cons, List.foldlM_nil, Option.bind_eq_bind]
  cases step e x <;> rfl

/-- C5: the concatenating field combinators preserve the order of the fields.
For field sequences `xs` and `ys` in which every field has a type (with a
generated spelling and facts), each of `Fields::GenSemiList`,
`Fields::TextByPrefix`, `Fields::GenByType` and `Fields::GenVtsList` has a
result on `xs`, on `ys` and on `xs ++ ys`; the result on `xs ++ ys` is the
result on `xs` followed by the result on `ys` (for `GenVtsList` also the
reported errors follow each other); and the text on `xs ++ ys` is the
concatenation, in the order of the fields, of the texts the combinator yields
on each field alone. -/
theorem Fields_concat_order (snippets_cpp : SnipMapMap) (xs ys : Fields)
    (section_ prefix_ label : Text)
    (h : ∀ f ∈ xs ++ ys, Field.typed section_ f = true) :
    (∃ a b, Fields.GenSemiList snippets_cpp xs section_ = some a ∧
      Fields.GenSemiList snippets_cpp ys section_ = some b ∧
      Fields.GenSemiList snippets_cpp (xs ++ ys) section_ = some (a ++ b) ∧
      a ++ b = ((xs ++ ys).map
        (fun f => (Fields.GenSemiList snippets_cpp [f] section_).getD [])).flatten) ∧
    (∃ a b, Fields.TextByPrefix snippets_cpp xs section_ prefix_ = some a ∧
      Fields.TextByPrefix snippets_cpp ys section_ prefix_ = some b ∧
      Fields.TextByPrefix snippets_cpp (xs ++ ys) section_ prefix_ = some (a ++ b) ∧
      a ++ b = ((xs ++ ys).map
        (fun f => (Fields.TextByPrefix snippets_cpp [f] section_ prefix_).getD [])).flatten) ∧
    (∃ a b, Fields.GenByType snippets_cpp xs section_ prefix_ = some a ∧
      Fields.GenByType snippets_cpp ys section_ prefix_ = some b ∧
      Fields.GenByType snippets_cpp (xs ++ ys) section_ prefix_ = some (a ++ b) ∧
      a ++ b = ((xs ++ ys).map
        (fun f => (Fields.GenByType snippets_cpp [f] section_ prefix_).getD [])).flatten) ∧
    (∃ a b, Fields.GenVtsList snippets_cpp xs section_ label = some a ∧
      Fields.GenVtsList snippets_cpp ys section_ label = some b ∧
      Fields.GenVtsList snippets_cpp (xs ++ ys) section_ label
        = some (a.1 ++ b.1, a.2 ++ b.2) ∧
      a.1 ++ b.1 = ((xs ++ ys).map
        (fun f => ((Fields.GenVtsList snippets_cpp [f] section_ label).getD ([], [])).1)).flatten)
    := by
  have hx : ∀ f ∈ xs, Field.typed section_ f = true :=
    fun f hf => h f (List.mem_append_left _ hf)
  have hy : ∀ f ∈ ys, Field.typed section_ f = true :=
    fun f hf => h f (List.mem_append_right _ hf)
  have hb := Fields_bodies_isSome snippets_cpp section_ prefix_ label
  have key : ∀ (step : Text → Field → Option Text),
      (∀ out x, step out x = (step [] x).map (fun t => out ++ t)) →
      (∀ f, Field.typed section_ f = true → (step [] f).isSome = true) →
      ∃ a b, xs.foldlM step [] = some a ∧ ys.foldlM step [] = some b ∧
        (xs ++ ys).foldlM step [] = some (a ++ b) ∧
        a ++ b = ((xs ++ ys).map (fun f => ([f].foldlM step []).getD [])).flatten := by
    intro step hstep hsome
    obtain ⟨a, ha⟩ := Option.isSome_iff_exists.1
      (foldlM_isSome (· ++ ·) [] List.append_assoc List.append_nil step hstep xs
        (fun f hf => hsome f (hx f hf)))
    obtain ⟨b, hb⟩ := Option.isSome_iff_exists.1
      (foldlM_isSome (· ++ ·) [] List.append_assoc List.append_nil step hstep ys
        (fun f hf => hsome f (hy f hf)))
    have hab : (xs ++ ys).foldlM step [] = some (a ++ b) := by
      rw [foldlM_append_op (· ++ ·) [] List.append_assoc List.append_nil step hstep, ha, hb]
      rfl
    refine ⟨a, b, ha, hb, hab, ?_⟩
    have := foldlM_eq_foldr (· ++ ·) [] List.append_assoc List.append_nil step hstep (xs ++ ys)
      (fun f hf => hsome f (h f hf))
    rw [hab, foldr_append_flatten] at this
    simp only [foldlM_singleton_some]
    exact Option.some.inj this
  refine ⟨?_, ?_, ?_, ?_⟩
  · exact key _ (GenSemiList_body_prepend snippets_cpp section_) (fun f hf => (hb f hf).1)
  · exact key _ (TextByPrefix_body_prepend snippets_cpp section_ prefix_)
      (fun f hf => (hb f hf).2.1)
  · exact key _ (GenByType_body_prepend snippets_cpp section_ prefix_)
      (fun f hf => (hb f hf).2.2.1)
  · obtain ⟨a, ha⟩ := Option.isSome_iff_exists.1
      (foldlM_isSome appendLog ([], []) appendLog_assoc appendLog_unit _
        (GenVtsList_body_prepend snippets_cpp section_ label) xs
        (fun f hf => (hb f (hx f hf)).2.2.2))
    obtain ⟨b, hb2⟩ := Option.isSome_iff_exists.1
      (foldlM_isSome appendLog ([], []) appendLog_assoc appendLog_unit _
        (GenVtsList_body_prepend snippets_cpp section_ label) ys
        (fun f hf => (hb f (hy f hf)).2.2.2))
    have hab : Fields.GenVtsList snippets_cpp (xs ++ ys) section_ label
        = some (a.1 ++ b.1, a.2 ++ b.2) := by
      unfold Fields.GenVtsList
      rw [foldlM_append_op appendLog ([], []) appendLog_assoc appendLog_unit _
        (GenVtsList_body_prepend snippets_cpp section_ label), ha, hb2]
      rfl
    refine ⟨a, b, ha, hb2, hab, ?_⟩
    have := foldlM_eq_foldr appendLog ([], []) appendLog_assoc appendLog_unit _
      (GenVtsList_body_prepend snippets_cpp section_ label) (xs ++ ys)
      (fun f hf => (hb f (h f hf)).2.2.2)
    unfold Fields.GenVtsList at hab ⊢
    rw [hab] at this
    have h1 : a.1 ++ b.1 = _ := congrArg Prod.fst (Option.some.inj this)
    simp only [foldlM_singleton_some]
    rw [h1]
    generalize (xs ++ ys) = zs
    induction zs with
    | nil => rfl
    | cons z zs ih => simp only [List.map_cons, List.foldr_cons, List.flatten_cons, appendLog, ih]

/-- Witness of C5 on the parameters `a` and `b`: the four results on the two
fields in this order. -/
theorem Fields_concat_order_witness :
    Fields.GenSemiList demoSnippets ([demoParam "a"] ++ [demoParam "b"]) (txt "cpp")
      = some (txt "int32_t a;\n" ++ txt "int32_t b;\n") ∧
    Fields.TextByPrefix demoSnippets ([demoParam "a"] ++ [demoParam "b"]) (txt "cpp")
      (txt "param_write_") = some (txt "writeInt32(a);\n" ++ txt "writeInt32(b);\n") ∧
    Fields.GenByType demoSnippets ([demoParam "a"] ++ [demoParam "b"]) (txt "cpp")
      (txt "struct_field_") = some (txt "field a;\n" ++ txt "field b;\n") ∧
    Fields.GenVtsList demoSnippets ([demoParam "a"] ++ [demoParam "b"]) (txt "cpp") (txt "arg")
      = some (txt "arg: int32_t\n" ++ txt "arg: int32_t\n", [] ++ []) := by
  obtain ⟨⟨a1, b1, ha1, hb1, h1, _⟩, ⟨a2, b2, ha2, hb2, h2, _⟩, ⟨a3, b3, ha3, hb3, h3, _⟩,
    ⟨a4, b4, ha4, hb4, h4, _⟩⟩ :=
    Fields_concat_order demoSnippets [demoParam "a"] [demoParam "b"] (txt "cpp")
      (txt "param_write_") (txt "arg") (by decide)
  have e1 : Fields.GenSemiList demoSnippets [demoParam "a"] (txt "cpp")
      = some (txt "int32_t a;\n") := by decide
  have e2 : Fields.GenSemiList demoSnippets [demoParam "b"] (txt "cpp")
      = some (txt "int32_t b;\n") := by decide
  rw [e1] at ha1
  rw [e2] at hb1
  cases ha1
  cases hb1
  exact ⟨h1, by decide, by decide, by decide⟩

/-! ## Fallbacks of the comma list and of the declaration block -/

/-- The comma list of `xs` followed by one more field: the loop body applied to
the list of `xs`. -/
theorem GenCommaList_snoc (snippets_cpp : SnipMapMap) (xs : Fields) (field : Field)
    (section_ prev out : Text) (out_params : Bool)
    (hxs : Fields.GenCommaList snippets_cpp xs section_ prev out_params = some out) :
    Fields.GenCommaList snippets_cpp (xs ++ [field]) section_ prev out_params =
      Fields.GenCommaList.body snippets_cpp section_ out_params out field := by
  unfold Fields.GenCommaList at hxs ⊢
  rw [List.foldlM_append, hxs]
  simp

/-- The declaration block of `xs` followed by one more field: the loop body
applied to the block of `xs`. -/
theorem GenSemiList_snoc (snippets_cpp : SnipMapMap) (xs : Fields) (field : Field)
    (section_ out : Text)
    (hxs : Fields.GenSemiList snippets_cpp xs section_ = some out) :
    Fields.GenSemiList snippets_cpp (xs ++ [field]) section_ =
      Fields.GenSemiList.body snippets_cpp section_ out field := by
  unfold Fields.GenSemiList at hxs ⊢
  rw [List.foldlM_append, hxs]
  simp

/-- C6: fallback of the comma parameter list.  For a field with a type whose
three specialised snippets (`param_decl_` followed by the subtype suffix, by
the plain suffix and by the type name) are all empty, the list of the
preceding fields `out` is continued by a comma and a blank (unless `out` is
empty) and then by exactly the generated type, a blank and the name (omitted
when `out_params` suppresses names), and `" = "` and the default value when the
field has one. -/
theorem GenCommaList_fallback (snippets_cpp : SnipMapMap) (xs : Fields) (field : Field)
    (ty : Type_) (section_ prev out : Text) (out_params : Bool) (subs : Subs) (g : Text)
    (hxs : Fields.GenCommaList snippets_cpp xs section_ prev out_params = some out)
    (hty : field.GetType = some ty) (hsubs : field.GetSubs section_ = some subs)
    (hg : ty.Generate section_ = some g)
    (h1 : Snip snippets_cpp section_ (txt "param_decl_" ++ ty.TypeSuffix true) subs = [])
    (h2 : Snip snippets_cpp section_ (txt "param_decl_" ++ ty.TypeSuffix false) subs = [])
    (h3 : Snip snippets_cpp section_ (txt "param_decl_" ++ ty.TypeName) subs = []) :
    Fields.GenCommaList snippets_cpp (xs ++ [field]) section_ prev out_params =
      some ((if out ≠ [] then out ++ txt ", " else out)
        ++ (g ++ (if out_params = true then [] else txt " " ++ field.GetName.GetText)
          ++ (match field.GetValue with
            | some v => txt " = " ++ v.GetText
            | none => []))) := by
  rw [GenCommaList_snoc snippets_cpp xs field section_ prev out out_params hxs]
  simp only [Fields.GenCommaList.body, Fields.GenCommaList.special_string, hty, hsubs, h1, h2,
    h3, List.append_nil, ne_eq, not_true_eq_false, if_false, hg, Option.map_some']
  cases out_params <;> cases field.GetValue <;> simp [List.append_assoc]

/-- C7: the semicolon declaration block.  For a field with a type, the block of
the preceding fields `out` is continued by exactly one fragment ending in
`";\n"`: the two specialised snippets (`field_decl_` followed by the subtype
suffix and by the plain suffix) made inline when they are not both empty, and
otherwise exactly the generated type, a blank, the name and the initializer
text. -/
theorem GenSemiList_fragment (snippets_cpp : SnipMapMap) (xs : Fields) (field : Field)
    (ty : Type_) (section_ out : Text) (subs : Subs) (g : Text)
    (hxs : Fields.GenSemiList snippets_cpp xs section_ = some out)
    (hty : field.GetType = some ty) (hsubs : field.GetSubs section_ = some subs)
    (hg : ty.Generate section_ = some g) :
    (Snip snippets_cpp section_ (txt "field_decl_" ++ ty.TypeSuffix true) subs = [] →
      Snip snippets_cpp section_ (txt "field_decl_" ++ ty.TypeSuffix false) subs = [] →
      Fields.GenSemiList snippets_cpp (xs ++ [field]) section_ =
        some (out ++ (g ++ txt " " ++ field.GetName.GetText ++ field.GetInitText ++ txt ";\n"))) ∧
    (Snip snippets_cpp section_ (txt "field_decl_" ++ ty.TypeSuffix true) subs
        ++ Snip snippets_cpp section_ (txt "field_decl_" ++ ty.TypeSuffix false) subs ≠ [] →
      Fields.GenSemiList snippets_cpp (xs ++ [field]) section_ =
        some (out ++ (make_inline
          (Snip snippets_cpp section_ (txt "field_decl_" ++ ty.TypeSuffix true) subs
            ++ Snip snippets_cpp section_ (txt "field_decl_" ++ ty.TypeSuffix false) subs)
          ++ txt ";\n"))) ∧
    (∃ fragment, Fields.GenSemiList snippets_cpp (xs ++ [field]) section_ =
      some (out ++ (fragment ++ txt ";\n"))) := by
  rw [GenSemiList_snoc snippets_cpp xs field section_ out hxs]
  simp only [Fields.GenSemiList.body, Fields.GenSemiList.special_string, hty, hsubs, hg]
  refine ⟨fun h1 h2 => ?_, fun h => ?_, ?_⟩
  · simp [h1, h2, List.append_assoc]
  · rw [if_pos h]
    simp only [List.append_assoc]
  · split_ifs with hsp
    · exact ⟨make_inline _, congrArg some (List.append_assoc _ _ _)⟩
    · exact ⟨g ++ txt " " ++ field.GetName.GetText ++ field.GetInitText,
        congrArg some (List.append_assoc _ _ _)⟩

/-- C8 as amended: enumerators in the comma list.  For a field without type and
with names not suppressed, the list of the preceding fields `out` is continued
by a comma and a blank (unless `out` is empty) and then by a blank and the
name, followed by `" = "` and the value when the field has one. -/
theorem GenCommaList_enumerator (snippets_cpp : SnipMapMap) (xs : Fields) (field : Field)
    (section_ prev out : Text)
    (hxs : Fields.GenCommaList snippets_cpp xs section_ prev false = some out)
    (hty : field.GetType = none) :
    Fields.GenCommaList snippets_cpp (xs ++ [field]) section_ prev false =
      some ((if out ≠ [] then out ++ txt ", " else out)
        ++ (txt " " ++ field.GetName.GetText
          ++ (match field.GetValue with
            | some v => txt " = " ++ v.GetText
            | none => []))) := by
  rw [GenCommaList_snoc snippets_cpp xs field section_ prev out false hxs]
  simp only [Fields.GenCommaList.body, Fields.GenCommaList.special_string, hty, ne_eq,
    not_true_eq_false, if_false]
  cases field.GetValue <;> simp [List.append_assoc]

/-- C8, the statement of the specification refuted: the list of the single
enumerator `A` with empty previous text is `" A"`, with a leading blank, and
the spelling of the enum with the one enumerator `A = 1` is `enum { A = 1}`. -/
theorem GenCommaList_enumerator_counterexample :
    (demoEnumerator "A" none).GetType.isNone = true ∧
    Fields.GenCommaList demoSnippets [demoEnumerator "A" none] (txt "cpp") [] false
      = some (txt " A") ∧
    Fields.GenCommaList demoSnippets [demoEnumerator "A" none] (txt "cpp") [] false
      ≠ some (txt "A") ∧
    Fields.GenCommaList demoSnippets [demoEnumerator "A" (some "1")] (txt "cpp") [] false
      ≠ some (txt "A = 1") ∧
    EnumType.Generate demoSnippets [demoEnumerator "A" (some "1")] (txt "cpp")
      = some (txt "enum \x7b A = 1\x7d") := by
  decide

/-- Witness of C6: the parameter `count` with default value `5` after the
parameter `a`. -/
theorem GenCommaList_fallback_witness :
    Fields.GenCommaList demoSnippets ([demoParam "a"] ++ [demoDefaulted]) (txt "cpp") [] false
      = some (txt "int32_t a, int32_t count = 5") ∧
    Fields.GenCommaList demoSnippets ([demoParam "a"] ++ [demoDefaulted]) (txt "cpp") [] true
      = some (txt "int32_t, int32_t = 5") :=
  ⟨(GenCommaList_fallback demoSnippets [demoParam "a"] demoDefaulted demoInt (txt "cpp") []
      (txt "int32_t a") false ((demoDefaulted.GetSubs (txt "cpp")).getD []) (txt "int32_t")
      (by decide) rfl (by decide) rfl (by decide) (by decide) (by decide)).trans (by decide),
    (GenCommaList_fallback demoSnippets [demoParam "a"] demoDefaulted demoInt (txt "cpp") []
      (txt "int32_t") true ((demoDefaulted.GetSubs (txt "cpp")).getD []) (txt "int32_t")
      (by decide) rfl (by decide) rfl (by decide) (by decide) (by decide)).trans (by decide)⟩

/-- Witness of C7: the parameter `count` with initializer after the parameter
`a`. -/
theorem GenSemiList_fragment_witness :
    Fields.GenSemiList demoSnippets ([demoParam "a"] ++ [demoDefaulted]) (txt "cpp")
      = some (txt "int32_t a;\n" ++ txt "int32_t count = 5;\n") :=
  ((GenSemiList_fragment demoSnippets [demoParam "a"] demoDefaulted demoInt (txt "cpp")
      (txt "int32_t a;\n") ((demoDefaulted.GetSubs (txt "cpp")).getD []) (txt "int32_t")
      (by decide) rfl (by decide) rfl).1 (by decide) (by decide)).trans (by decide)

/-- Witness of C8 as amended: the enumerator `B` after the enumerator
`A = 1`. -/
theorem GenCommaList_enumerator_witness :
    Fields.GenCommaList demoSnippets ([demoEnumerator "A" (some "1")] ++ [demoEnumerator "B" none])
      (txt "cpp") [] false = some (txt " A = 1,  B") :=
  (GenCommaList_enumerator demoSnippets [demoEnumerator "A" (some "1")]
    (demoEnumerator "B" none) (txt "cpp") [] (txt " A = 1") (by decide) rfl).trans (by decide)

/-! ## The pass of `Parser::Write` -/

/-- C9: the missing-interface pass.  Without interface declaration
`Parser::Write` hands nothing to the output sink and reports exactly one
error.  With an interface, whenever the pass completes the sink has been
invoked exactly once, with the snippet `file` of the active section filled
with the 19 facts of the driver, each of them the text that the driver
assembles for it, and the errors reported are those of the assembled texts;
and the pass completes exactly when each of the texts it assembles has a
result. -/
theorem Write_missing_interface (snippets_cpp : SnipMapMap) (p : Parser) :
    (p.interface_ = none →
      Parser.Write snippets_cpp p =
        some ⟨[], [⟨none, txt "Cannot Write output; don't have interface."⟩]⟩) ∧
    (p.interface_.isSome = true → ∀ r, Parser.Write snippets_cpp p = some r →
      ∃ component_type imports_section declarations code_snips call_enum_list callback_decls
          vars_writer vars_reader vars_decl,
        Parser.component_type snippets_cpp p = some component_type ∧
        Parser.imports_section snippets_cpp p = some imports_section ∧
        Parser.TextByPrefix snippets_cpp p.things_ p.section_ (txt "declare_")
          = some declarations ∧
        Parser.TextByPrefix snippets_cpp p.things_ p.section_ (txt "code_for_")
          = some code_snips ∧
        Parser.CallEnumList snippets_cpp p.things_ p.section_ = some call_enum_list ∧
        Parser.CallbackDeclList snippets_cpp p.things_ p.section_ = some callback_decls ∧
        Fields.TextByPrefix snippets_cpp p.vars_ p.section_ (txt "param_write_")
          = some vars_writer ∧
        Fields.TextByPrefix snippets_cpp p.vars_ p.section_ (txt "param_read_")
          = some vars_reader ∧
        Fields.GenSemiList snippets_cpp p.vars_ p.section_ = some vars_decl ∧
        r.written = [Snip snippets_cpp p.section_ (txt "file")
          [(txt "header_guard", p.GetPackageName),
            (txt "version_string",
              to_string p.version_major_ ++ ['.'] ++ to_string p.version_minor_),
            (txt "version_major_string", to_string p.version_major_),
            (txt "version_minor_string", to_string p.version_minor_),
            (txt "imports_section", imports_section),
            (txt "component_type_enum", component_type.1),
            (txt "package_name", p.GetPackageName),
            (txt "declarations", declarations.1),
            (txt "code_snips", code_snips.1),
            (txt "call_enum_list", call_enum_list),
            (txt "callback_decls", callback_decls.1),
            (txt "namespace_open_section",
              (Parser.BuildNamespaceText snippets_cpp p.section_ p.namespace_).namespace_open),
            (txt "namespace_close_section",
              (Parser.BuildNamespaceText snippets_cpp p.section_ p.namespace_).namespace_close),
            (txt "namespace_slashes",
              (Parser.BuildNamespaceText snippets_cpp p.section_ p.namespace_).namespace_slashes),
            (txt "namespace_dots",
              (Parser.BuildNamespaceText snippets_cpp p.section_ p.namespace_).namespace_dots),
            (txt "namespace_underscores",
              (Parser.BuildNamespaceText snippets_cpp p.section_
                p.namespace_).namespace_underscores),
            (txt "vars_writer", vars_writer),
            (txt "vars_reader", vars_reader),
            (txt "vars_decl", vars_decl)]] ∧
        r.errors = component_type.2 ++ declarations.2 ++ code_snips.2 ++ callback_decls.2) ∧
    (p.interface_.isSome = true →
      (Parser.Write snippets_cpp p).isSome =
        ((Parser.component_type snippets_cpp p).isSome
          && (Parser.imports_section snippets_cpp p).isSome
          && (Parser.TextByPrefix snippets_cpp p.things_ p.section_ (txt "declare_")).isSome
          && (Parser.TextByPrefix snippets_cpp p.things_ p.section_ (txt "code_for_")).isSome
          && (Parser.CallEnumList snippets_cpp p.things_ p.section_).isSome
          && (Parser.CallbackDeclList snippets_cpp p.things_ p.section_).isSome
          && (Fields.TextByPrefix snippets_cpp p.vars_ p.section_ (txt "param_write_")).isSome
          && (Fields.TextByPrefix snippets_cpp p.vars_ p.section_ (txt "param_read_")).isSome
          && (Fields.GenSemiList snippets_cpp p.vars_ p.section_).isSome)) := by
  refine ⟨fun h => ?_, fun h r hr => ?_, fun h => ?_⟩
  · simp [Parser.Write, h]
  · obtain ⟨i, hi⟩ := Option.isSome_iff_exists.1 h
    unfold Parser.Write at hr
    simp only [hi] at hr
    split at hr <;> try contradiction
    rename_i component_type h1
    split at hr <;> try contradiction
    rename_i imports_section h2
    split at hr <;> try contradiction
    rename_i declarations h3
    split at hr <;> try contradiction
    rename_i code_snips h4
    split at hr <;> try contradiction
    rename_i call_enum_list h5
    split at hr <;> try contradiction
    rename_i callback_decls h6
    split at hr <;> try contradiction
    rename_i vars_writer h7
    split at hr <;> try contradiction
    rename_i vars_reader h8
    split at hr <;> try contradiction
    rename_i vars_decl h9
    simp only [Option.some.injEq] at hr
    subst hr
    exact ⟨component_type, imports_section, declarations, code_snips, call_enum_list,
      callback_decls, vars_writer, vars_reader, vars_decl, h1, h2, h3, h4, h5, h6, h7, h8, h9,
      rfl, rfl⟩
  · obtain ⟨i, hi⟩ := Option.isSome_iff_exists.1 h
    unfold Parser.Write
    simp only [hi]
    cases Parser.component_type snippets_cpp p <;>
    cases Parser.imports_section snippets_cpp p <;>
    cases Parser.TextByPrefix snippets_cpp p.things_ p.section_ (txt "declare_") <;>
    cases Parser.TextByPrefix snippets_cpp p.things_ p.section_ (txt "code_for_") <;>
    cases Parser.CallEnumList snippets_cpp p.things_ p.section_ <;>
    cases Parser.CallbackDeclList snippets_cpp p.things_ p.section_ <;>
    cases Fields.TextByPrefix snippets_cpp p.vars_ p.section_ (txt "param_write_") <;>
    cases Fields.TextByPrefix snippets_cpp p.vars_ p.section_ (txt "param_read_") <;>
    cases Fields.GenSemiList snippets_cpp p.vars_ p.section_ <;> rfl

set_option maxRecDepth 1000000 in
/-- Witness of C9: the pass on `demoParserNoInterface`, on `demoParser`, and
on `factsParser` with a snippet `file` that shows the 19 facts. -/
theorem Write_missing_interface_witness :
    Parser.Write demoSnippets demoParserNoInterface =
      some ⟨[], [⟨none, txt "Cannot Write output; don't have interface."⟩]⟩ ∧
    (Parser.Write demoSnippets demoParser).isSome = true ∧
    (Parser.Write demoSnippets demoParser).map (fun r => r.written) =
      some [txt "package android.hardware.demo; version 1.0\n"] ∧
    (Parser.Write factsSnippets factsParser).isSome = true ∧
    (Parser.Write factsSnippets factsParser).map (fun r => r.written) =
      some [txt "android.hardware.demo|1.0|1|0|import base;|component_class: NFC\n|"
        ++ txt "android.hardware.demo|void doThing();|// doThing\n|DOTHING = 1,\n|"
        ++ txt "cb doThing;|namespace android \x7b\nnamespace hardware \x7b\n|"
        ++ txt "\x7d  // hardware\n\x7d  // android\n|android/hardware|android.hardware|"
        ++ txt "android_hardware|writeInt32(v);\n|readInt32(v);\n|int32_t v;\n"] :=
  ⟨(Write_missing_interface demoSnippets demoParserNoInterface).1 rfl,
    ((Write_missing_interface demoSnippets demoParser).2.2 rfl).trans (by decide),
    by decide,
    ((Write_missing_interface factsSnippets factsParser).2.2 rfl).trans (by decide),
    by decide⟩

/-! ## The call-graph text -/

/-- C10: emptiness of the call-graph text.  A function with none of the
annotations `entry`, `exit`, `next_calls`, `prev_calls` has the empty
call-graph text and reports no error; and for the edge texts `next` and `prev`
of `Annotations::GenVtsCalls`, the result is the filled snippet `vts_callflow`
when one of the entry, exit, next and prev texts is not empty, and the empty
text otherwise. -/
theorem GenCallflow_empty (snippets_cpp : SnipMapMap) (f : Function) (section_ : Text) :
    (Annotations.HasKey f.annotations_ (txt "entry") = false →
      Annotations.HasKey f.annotations_ (txt "exit") = false →
      Annotations.HasKey f.annotations_ (txt "next_calls") = false →
      Annotations.HasKey f.annotations_ (txt "prev_calls") = false →
      Function.GenCallflow snippets_cpp f section_ = some ([], [])) ∧
    (∀ next prev,
      Annotations.GenVtsCalls snippets_cpp f.annotations_ section_ (txt "next_calls")
        (txt "next") = some next →
      Annotations.GenVtsCalls snippets_cpp f.annotations_ section_ (txt "prev_calls")
        (txt "prev") = some prev →
      Function.GenCallflow snippets_cpp f section_ =
        some (if (if Annotations.HasKey f.annotations_ (txt "entry")
                then Snip0 snippets_cpp section_ (txt "anno_entry") else [])
              ++ (if Annotations.HasKey f.annotations_ (txt "exit")
                then Snip0 snippets_cpp section_ (txt "anno_exit") else [])
              ++ next.1 ++ prev.1 = [] then []
          else Snip snippets_cpp section_ (txt "vts_callflow")
            [(txt "anno_entry", if Annotations.HasKey f.annotations_ (txt "entry")
                then Snip0 snippets_cpp section_ (txt "anno_entry") else []),
              (txt "anno_exit", if Annotations.HasKey f.annotations_ (txt "exit")
                then Snip0 snippets_cpp section_ (txt "anno_exit") else []),
              (txt "anno_calls", next.1 ++ prev.1)],
          next.2 ++ prev.2)) := by
  refine ⟨fun h1 h2 h3 h4 => ?_, fun next prev hn hp => ?_⟩
  · have hn : Annotations.GenVtsCalls snippets_cpp f.annotations_ section_ (txt "next_calls")
        (txt "next") = some ([], []) := by
      unfold Annotations.HasKey at h3
      unfold Annotations.GenVtsCalls
      cases hg : Annotations.GetAnnotation f.annotations_ (txt "next_calls") with
      | none => rfl
      | some a => simp [hg] at h3
    have hp : Annotations.GenVtsCalls snippets_cpp f.annotations_ section_ (txt "prev_calls")
        (txt "prev") = some ([], []) := by
      unfold Annotations.HasKey at h4
      unfold Annotations.GenVtsCalls
      cases hg : Annotations.GetAnnotation f.annotations_ (txt "prev_calls") with
      | none => rfl
      | some a => simp [hg] at h4
    simp [Function.GenCallflow, hn, hp, h1, h2]
  · simp only [Function.GenCallflow, hn, hp, Option.bind_eq_bind, Option.some_bind,
      Option.pure_def]
    split_ifs <;> rfl

/-- Witness of C10: `demoProcedure` has no annotation, and `demoFunction` has
the annotation `entry` only. -/
theorem GenCallflow_empty_witness :
    Function.GenCallflow demoSnippets demoProcedure (txt "cpp") = some ([], []) ∧
    Function.GenCallflow demoSnippets demoFunction (txt "cpp")
      = some (txt "callflow \x7b entry: true\n   \x7d", []) :=
  ⟨(GenCallflow_empty demoSnippets demoProcedure (txt "cpp")).1 rfl rfl rfl rfl,
    ((GenCallflow_empty demoSnippets demoFunction (txt "cpp")).2 ([], []) ([], [])
      rfl rfl).trans (by decide)⟩

/-! ## The call-graph text with the entry fragment only -/

/-- C11 as amended: the call-graph text of a function whose only call-graph
annotation is `entry`.  No error is reported; the text is the snippet
`vts_callflow` filled with the text of the snippet `anno_entry` for
`anno_entry` and with the empty text for `anno_exit` and for `anno_calls`,
provided the text of the snippet `anno_entry` is not empty; it is empty when
that text is empty (the snippet is missing or empty). -/
theorem GenCallflow_entry_only (snippets_cpp : SnipMapMap) (f : Function) (section_ : Text)
    (hentry : Annotations.HasKey f.annotations_ (txt "entry") = true)
    (hexit : Annotations.HasKey f.annotations_ (txt "exit") = false)
    (hnext : Annotations.HasKey f.annotations_ (txt "next_calls") = false)
    (hprev : Annotations.HasKey f.annotations_ (txt "prev_calls") = false) :
    Function.GenCallflow snippets_cpp f section_ =
      some (if Snip0 snippets_cpp section_ (txt "anno_entry") = [] then []
        else Snip snippets_cpp section_ (txt "vts_callflow")
          [(txt "anno_entry", Snip0 snippets_cpp section_ (txt "anno_entry")),
            (txt "anno_exit", []), (txt "anno_calls", [])], []) := by
  have hn : Annotations.GenVtsCalls snippets_cpp f.annotations_ section_ (txt "next_calls")
      (txt "next") = some ([], []) := by
    unfold Annotations.HasKey at hnext
    unfold Annotations.GenVtsCalls
    cases hg : Annotations.GetAnnotation f.annotations_ (txt "next_calls") with
    | none => rfl
    | some a => simp [hg] at hnext
  have hp : Annotations.GenVtsCalls snippets_cpp f.annotations_ section_ (txt "prev_calls")
      (txt "prev") = some ([], []) := by
    unfold Annotations.HasKey at hprev
    unfold Annotations.GenVtsCalls
    cases hg : Annotations.GetAnnotation f.annotations_ (txt "prev_calls") with
    | none => rfl
    | some a => simp [hg] at hprev
  simp only [Function.GenCallflow, hn, hp, hentry, hexit, Option.bind_eq_bind, Option.some_bind,
    Option.pure_def, if_true, List.append_nil, Bool.false_eq_true, if_false]
  split_ifs <;> rfl

/-- Witness of C11 as amended: `demoFunction`, whose only annotation is
`entry`, with the snippets of `demoSnippets`. -/
theorem GenCallflow_entry_only_witness :
    Function.GenCallflow demoSnippets demoFunction (txt "cpp")
      = some (txt "callflow \x7b entry: true\n   \x7d", []) :=
  (GenCallflow_entry_only demoSnippets demoFunction (txt "cpp") (by decide) (by decide)
    (by decide) (by decide)).trans (by decide)

/-- C11, the statement of the specification refuted: `demoFunction` has the
annotation `entry` and no other, and its call-graph text is empty in a section
without snippet `anno_entry`, and in a section without snippet
`vts_callflow`. -/
theorem GenCallflow_entry_only_counterexample :
    (Annotations.HasKey demoFunction.annotations_ (txt "entry") = true ∧
      Annotations.HasKey demoFunction.annotations_ (txt "exit") = false ∧
      Annotations.HasKey demoFunction.annotations_ (txt "next_calls") = false ∧
      Annotations.HasKey demoFunction.annotations_ (txt "prev_calls") = false) ∧
    Function.GenCallflow bareSnippets demoFunction (txt "bare") = some ([], []) ∧
    Function.GenCallflow bareSnippets demoFunction (txt "noflow") = some ([], []) := by
  decide

/-! ## Call-graph edges and the component type -/

/-- The loop of `Annotations::GenVtsCalls` over values that all have their
literal, started from the text `out`. -/
theorem GenVtsCalls_loop (snippets_cpp : SnipMapMap) (section_ out_label : Text)
    (elems : List Element) (out : Text) :
    (elems.map (fun e => (⟨some e⟩ : AnnotationValue))).foldlM
      (fun (out : Text) (value : AnnotationValue) => do
        let v ← value.GetValue
        let subs : Subs := [(txt "callflow_label", out_label),
          (txt "callflow_func_name", v.GetText)]
        pure (out ++ Snip snippets_cpp section_ (txt "anno_calls") subs)) out =
      some (out ++ (elems.map (fun e => Snip snippets_cpp section_ (txt "anno_calls")
        [(txt "callflow_label", out_label), (txt "callflow_func_name", e.GetText)])).flatten)
    := by
  induction elems generalizing out with
  | nil => simp
  | cons e es ih =>
    simp only [List.map_cons, List.foldlM_cons, Option.bind_eq_bind, Option.some_bind,
      Option.pure_def, List.flatten_cons]
    refine (ih _).trans ?_
    rw [List.append_assoc]

/-- C12: the edge lists of `Annotations::GenVtsCalls`.  Without annotation of
the given name the text is empty and no error is reported.  With an annotation
that has no unnamed values (a null pointer or an empty list) the text is empty
and exactly one error is reported, at the line of the annotation.  With an
annotation that has one or more unnamed values, each with its literal, no
error is reported and the text is the concatenation, in the order of the
values, of the snippet `anno_calls` filled with the label and the text of the
value. -/
theorem GenVtsCalls_edges (snippets_cpp : SnipMapMap) (annotations_ : Annotations)
    (section_ anno_name out_label : Text) :
    (Annotations.GetAnnotation annotations_ anno_name = none →
      Annotations.GenVtsCalls snippets_cpp annotations_ section_ anno_name out_label
        = some ([], [])) ∧
    (∀ calls, Annotations.GetAnnotation annotations_ anno_name = some calls →
      (calls.GetUnnamedValues = none ∨ calls.GetUnnamedValues = some []) →
      Annotations.GenVtsCalls snippets_cpp annotations_ section_ anno_name out_label
        = some ([], [⟨some calls.Line, GenVtsCalls.message anno_name⟩])) ∧
    (∀ calls elems, Annotations.GetAnnotation annotations_ anno_name = some calls →
      elems ≠ [] →
      calls.GetUnnamedValues = some (elems.map (fun e => (⟨some e⟩ : AnnotationValue))) →
      Annotations.GenVtsCalls snippets_cpp annotations_ section_ anno_name out_label
        = some ((elems.map (fun e => Snip snippets_cpp section_ (txt "anno_calls")
            [(txt "callflow_label", out_label), (txt "callflow_func_name", e.GetText)])).flatten,
          [])) := by
  refine ⟨fun h => ?_, fun calls h hv => ?_, fun calls elems h hne hv => ?_⟩
  · simp [Annotations.GenVtsCalls, h]
  · rcases hv with hv | hv
    · simp [Annotations.GenVtsCalls, h, hv, GenVtsCalls.message]
    · simp [Annotations.GenVtsCalls, h, hv, GenVtsCalls.message]
  · have hlen : (elems.map (fun e => (⟨some e⟩ : AnnotationValue))).length > 0 := by
      simpa [List.length_pos] using hne
    simp only [Annotations.GenVtsCalls, h, hv, hlen, if_true]
    rw [GenVtsCalls_loop]
    rfl

/-- Witness of C12 on the annotations of `demoEdges`: the two values of
`next_calls`, the empty `prev_calls`, and a name that is not there. -/
theorem GenVtsCalls_edges_witness :
    Annotations.GenVtsCalls demoSnippets demoEdges.annotations_ (txt "cpp") (txt "entry")
      (txt "x") = some ([], []) ∧
    Annotations.GenVtsCalls demoSnippets demoEdges.annotations_ (txt "cpp") (txt "prev_calls")
      (txt "prev") = some ([], [⟨some 12, GenVtsCalls.message (txt "prev_calls")⟩]) ∧
    Annotations.GenVtsCalls demoSnippets demoEdges.annotations_ (txt "cpp") (txt "next_calls")
      (txt "next") = some (txt "next: read\nnext: close\n", []) :=
  ⟨(GenVtsCalls_edges demoSnippets demoEdges.annotations_ (txt "cpp") (txt "entry")
      (txt "x")).1 rfl,
    (GenVtsCalls_edges demoSnippets demoEdges.annotations_ (txt "cpp") (txt "prev_calls")
      (txt "prev")).2.1 ⟨txt "prev_calls", 12, some [], none⟩ rfl (Or.inr rfl),
    ((GenVtsCalls_edges demoSnippets demoEdges.annotations_ (txt "cpp") (txt "next_calls")
      (txt "next")).2.2
      ⟨txt "next_calls", 11, some [⟨some (demoElement "read")⟩, ⟨some (demoElement "close")⟩],
        none⟩
      [demoElement "read", demoElement "close"] rfl (List.cons_ne_nil _ _) rfl).trans
      (by decide)⟩

/-- C13, the code at the failing inputs: with the two string values `"NFC"` and
`"OTHER"` on the annotation `hal_type` the component-type tag is the snippet
`component_type_enum` filled with the first value and no error is reported;
with an empty list of values `front()` has no defined result. -/
theorem component_type_malformed :
    Parser.component_type demoSnippets demoParserTwoHalTypes
      = some (txt "component_class: NFC\n", []) ∧
    Parser.component_type demoSnippets demoParserEmptyHalType = none := by
  decide

/-! ## Casing and type suffixes -/

/-- C15: the dispatch token.  `upcase` keeps the length, gives at each position
the upper-case letter of an ASCII lower-case letter (the character 32 code
points below) and the character itself otherwise, so that `doThing` becomes
`DOTHING`; it is idempotent; and it is the value of `func_name_as_enum` in the
substitution list of `Function::GetSubs`. -/
theorem upcase_spec (s : Text) :
    (upcase s).length = s.length ∧
    upcase s = s.map (fun c =>
      if 97 ≤ c.toNat ∧ c.toNat ≤ 122 then Char.ofNat (c.toNat - 32) else c) ∧
    (∀ c ∈ s, 97 ≤ c.toNat → c.toNat ≤ 122 → (Char.ofNat (c.toNat - 32)).toNat = c.toNat - 32) ∧
    upcase (upcase s) = upcase s ∧
    upcase (txt "doThing") = txt "DOTHING" ∧
    (∀ snippets_cpp f section_ subs errs,
      Function.GetSubs snippets_cpp f section_ = some (subs, errs) →
      subs.lookup (txt "func_name_as_enum") = some (upcase f.GetName.GetText)) := by
  have hnat : ∀ n : Nat, 97 ≤ n → n ≤ 122 → (Char.ofNat (n - 32)).toNat = n - 32 := by
    intro n h1 h2
    interval_cases n <;> rfl
  have hidem : ∀ c : Char, Char.toUpper (Char.toUpper c) = Char.toUpper c := by
    intro c
    by_cases h : 97 ≤ c.toNat ∧ c.toNat ≤ 122
    · have h1 : Char.toUpper c = Char.ofNat (c.toNat - 32) := by
        simp only [Char.toUpper, ge_iff_le, h, and_self, if_true]
      have h2 := hnat c.toNat h.1 h.2
      have h3 : ¬ (97 ≤ (Char.toUpper c).toNat ∧ (Char.toUpper c).toNat ≤ 122) := by
        rw [h1, h2]
        omega
      conv_lhs => rw [Char.toUpper]
      simp only [ge_iff_le, h3, if_false]
    · have h1 : Char.toUpper c = c := by
        simp only [Char.toUpper, ge_iff_le, h, if_false]
      rw [h1, h1]
  refine ⟨by simp [upcase], rfl, fun c _ h1 h2 => hnat c.toNat h1 h2, ?_, by decide, ?_⟩
  · simp only [upcase, List.map_map]
    congr 1
    funext c
    exact hidem c
  · intro snippets_cpp f section_ subs errs h
    unfold Function.GetSubs at h
    simp only at h
    split at h <;> try contradiction
    split at h <;> try contradiction
    split at h <;> try contradiction
    split at h <;> try contradiction
    split at h <;> try contradiction
    split at h <;> try contradiction
    split at h <;> try contradiction
    split at h <;> try contradiction
    split at h <;> try contradiction
    split at h <;> try contradiction
    split at h <;> try contradiction
    split at h <;> try contradiction
    simp only [Option.some.injEq, Prod.mk.injEq] at h
    rw [← h.1]
    rfl

/-- Witness of C15: the value of `func_name_as_enum` for `demoFunction`. -/
theorem upcase_spec_witness :
    ((Function.GetSubs demoSnippets demoFunction (txt "cpp")).getD ([], [])).1.lookup
      (txt "func_name_as_enum") = some (txt "DOTHING") :=
  ((upcase_spec []).2.2.2.2.2 demoSnippets demoFunction (txt "cpp")
    ((Function.GetSubs demoSnippets demoFunction (txt "cpp")).getD ([], [])).1
    ((Function.GetSubs demoSnippets demoFunction (txt "cpp")).getD ([], [])).2
    (by decide)).trans (by decide)

/-- C16: chaining of `TypeSuffix`.  A scalar type yields its kind followed by
`_all` in the plain form and by its specializer in the subtype form.  A derived
type and an enum type yield their kind followed by `_all` in the plain form
and, in the subtype form, their kind, `_` and the subtype suffix of the type
they contain.  Hence the subtype suffix of a type tree is the kind names of
its derived and enum types, outermost first and each followed by `_`, and then
the subtype suffix of the innermost type; the function is defined on every
type tree. -/
theorem TypeSuffix_chain (t : TypeTree) (name sfx : Text) :
    (TypeTree.scalarType name sfx).TypeSuffix false = name ++ txt "_all" ∧
    (TypeTree.scalarType name sfx).TypeSuffix true = name ++ sfx ∧
    (TypeTree.derivedType name t).TypeSuffix true = name ++ txt "_" ++ t.TypeSuffix true ∧
    (TypeTree.enumType name t).TypeSuffix true = name ++ txt "_" ++ t.TypeSuffix true ∧
    (TypeTree.derivedType name t).TypeSuffix false = name ++ txt "_all" ∧
    (TypeTree.enumType name t).TypeSuffix false = name ++ txt "_all" ∧
    t.TypeSuffix true =
      (t.wrappers.map (fun kind => kind ++ txt "_")).flatten ++ t.innermost.TypeSuffix true ∧
    (t.innermost = TypeTree.scalarType name sfx →
      t.TypeSuffix true =
        (t.wrappers.map (fun kind => kind ++ txt "_")).flatten ++ (name ++ sfx)) ∧
    (TypeTree.derivedType (txt "vec") (TypeTree.scalarType name sfx)).TypeSuffix true
      = txt "vec" ++ txt "_" ++ (name ++ sfx) := by
  have hchain : ∀ t : TypeTree, t.TypeSuffix true =
      (t.wrappers.map (fun kind => kind ++ txt "_")).flatten ++ t.innermost.TypeSuffix true := by
    intro t
    induction t with
    | scalarType n s => simp [TypeTree.wrappers, TypeTree.innermost]
    | derivedType n b ih =>
      simp only [TypeTree.TypeSuffix, if_true, TypeTree.wrappers, TypeTree.innermost,
        List.map_cons, List.flatten_cons, List.append_assoc]
      rw [ih]
    | enumType n b ih =>
      simp only [TypeTree.TypeSuffix, if_true, TypeTree.wrappers, TypeTree.innermost,
        List.map_cons, List.flatten_cons, List.append_assoc]
      rw [ih]
    | otherType n f => simp [TypeTree.wrappers, TypeTree.innermost]
  refine ⟨rfl, rfl, rfl, rfl, rfl, rfl, hchain t, fun h => ?_, rfl⟩
  rw [hchain t, h]
  rfl

/-! ## Name lists and namespace renderings -/

/-- A separated list that starts from a non-empty text: every item follows
with the separator in front. -/
theorem foldl_sepStep_of_ne_nil (sep : Text) (items : List Text) (p : Text) (hp : p ≠ []) :
    items.foldl (sepStep sep) p = p ++ (items.map (fun item => sep ++ item)).flatten := by
  induction items generalizing p with
  | nil => simp
  | cons i items ih =>
    have h1 : sepStep sep p i = p ++ sep ++ i := by simp [sepStep, hp]
    have h2 : p ++ sep ++ i ≠ [] := by simp [hp]
    rw [List.foldl_cons, h1, ih _ h2]
    simp [List.append_assoc]

/-- Joining with a separator puts the separator in front of every item but
the first. -/
theorem intercalate_cons (sep : Text) (a : Text) (items : List Text) :
    sep.intercalate (a :: items) = a ++ (items.map (fun item => sep ++ item)).flatten := by
  induction items generalizing a with
  | nil => simp [List.intercalate]
  | cons b items ih =>
    have := ih b
    simp only [List.intercalate, List.intersperse, List.flatten_cons, List.map_cons,
      List.append_assoc] at this ⊢
    rw [this]

/-- A separated list of non-empty items that starts from the empty text: the
items joined by the separator. -/
theorem foldl_sepStep_nil (sep : Text) (items : List Text) (h : ∀ i ∈ items, i ≠ []) :
    items.foldl (sepStep sep) [] = sep.intercalate items := by
  cases items with
  | nil => rfl
  | cons a items =>
    have ha : a ≠ [] := h a (List.mem_cons_self _ _)
    have h1 : sepStep sep [] a = a := by simp [sepStep]
    rw [List.foldl_cons, h1, foldl_sepStep_of_ne_nil sep items a ha, intercalate_cons]

/-- C18: the comma name list.  Without snippet name, `Fields::GenCommaNameList`
on fields with non-empty names and an empty previous text returns the names in
the order of the fields joined by `", "`; on a non-empty previous text `p` it
returns `p` followed by `", "` and the name for every field; and for every
snippet name the result on `xs ++ ys` from `p` is the result on `ys` from the
result on `xs` from `p`. -/
theorem GenCommaNameList_joined (snippets_cpp : SnipMapMap) (xs ys : Fields)
    (section_ p snippet : Text) :
    ((∀ f ∈ xs, f.GetName.GetText ≠ []) →
      Fields.GenCommaNameList snippets_cpp xs section_ [] []
        = (txt ", ").intercalate (xs.map (fun f => f.GetName.GetText))) ∧
    (p ≠ [] →
      Fields.GenCommaNameList snippets_cpp xs section_ p []
        = p ++ (xs.map (fun f => txt ", " ++ f.GetName.GetText)).flatten) ∧
    Fields.GenCommaNameList snippets_cpp (xs ++ ys) section_ p snippet
      = Fields.GenCommaNameList snippets_cpp ys section_
          (Fields.GenCommaNameList snippets_cpp xs section_ p snippet) snippet := by
  have hbody : ∀ (l : Fields) (q : Text),
      Fields.GenCommaNameList snippets_cpp l section_ q []
        = (l.map (fun f => f.GetName.GetText)).foldl (sepStep (txt ", ")) q := by
    intro l q
    unfold Fields.GenCommaNameList
    rw [List.foldl_map]
    rfl
  refine ⟨fun h => ?_, fun hp => ?_, ?_⟩
  · rw [hbody, foldl_sepStep_nil]
    intro i hi
    obtain ⟨f, hf, rfl⟩ := List.mem_map.1 hi
    exact h f hf
  · rw [hbody, foldl_sepStep_of_ne_nil _ _ _ hp, List.map_map]
    rfl
  · unfold Fields.GenCommaNameList
    rw [List.foldl_append]

/-- Witness of C18: the names of the parameters `a`, `b` and `c`. -/
theorem GenCommaNameList_joined_witness :
    Fields.GenCommaNameList demoSnippets [demoParam "a", demoParam "b", demoParam "c"]
      (txt "cpp") [] [] = txt "a, b, c" ∧
    Fields.GenCommaNameList demoSnippets [demoParam "a", demoParam "b"] (txt "cpp") (txt "x") []
      = txt "x, a, b" :=
  ⟨((GenCommaNameList_joined demoSnippets [demoParam "a", demoParam "b", demoParam "c"] []
      (txt "cpp") [] []).1 (by decide)).trans (by decide),
    ((GenCommaNameList_joined demoSnippets [demoParam "a", demoParam "b"] []
      (txt "cpp") (txt "x") []).2.1 (by decide)).trans (by decide)⟩

/-- `Parser::BuildNamespaceText` on a path with one more segment: one more pass
of the loop. -/
theorem BuildNamespaceText_snoc (snippets_cpp : SnipMapMap) (section_ : Text)
    (names : List Element) (name : Element) :
    Parser.BuildNamespaceText snippets_cpp section_ (names ++ [name]) =
      { namespace_open :=
          (Parser.BuildNamespaceText snippets_cpp section_ names).namespace_open
            ++ Snip snippets_cpp section_ (txt "namespace_open_line")
              [(txt "namespace_name", name.GetText)]
        namespace_close :=
          Snip snippets_cpp section_ (txt "namespace_close_line")
              [(txt "namespace_name", name.GetText)]
            ++ (Parser.BuildNamespaceText snippets_cpp section_ names).namespace_close
        namespace_slashes := sepStep (txt "/")
          (Parser.BuildNamespaceText snippets_cpp section_ names).namespace_slashes name.GetText
        namespace_dots := sepStep (txt ".")
          (Parser.BuildNamespaceText snippets_cpp section_ names).namespace_dots name.GetText
        namespace_underscores := sepStep (txt "_")
          (Parser.BuildNamespaceText snippets_cpp section_ names).namespace_underscores
          name.GetText } := by
  unfold Parser.BuildNamespaceText
  rw [List.foldl_append]
  rfl

/-- The texts of `Parser::BuildNamespaceText` as loops over the segments. -/
theorem BuildNamespaceText_folds (snippets_cpp : SnipMapMap) (section_ : Text)
    (names : List Element) :
    (Parser.BuildNamespaceText snippets_cpp section_ names).namespace_open
      = (names.map (fun name => Snip snippets_cpp section_ (txt "namespace_open_line")
          [(txt "namespace_name", name.GetText)])).flatten ∧
    (Parser.BuildNamespaceText snippets_cpp section_ names).namespace_close
      = (names.reverse.map (fun name => Snip snippets_cpp section_ (txt "namespace_close_line")
          [(txt "namespace_name", name.GetText)])).flatten ∧
    (Parser.BuildNamespaceText snippets_cpp section_ names).namespace_slashes
      = (names.map (fun name => name.GetText)).foldl (sepStep (txt "/")) [] ∧
    (Parser.BuildNamespaceText snippets_cpp section_ names).namespace_dots
      = (names.map (fun name => name.GetText)).foldl (sepStep (txt ".")) [] ∧
    (Parser.BuildNamespaceText snippets_cpp section_ names).namespace_underscores
      = (names.map (fun name => name.GetText)).foldl (sepStep (txt "_")) [] := by
  induction names using List.reverseRecOn with
  | nil => exact ⟨rfl, rfl, rfl, rfl, rfl⟩
  | append_singleton names name ih =>
    rw [BuildNamespaceText_snoc]
    obtain ⟨h1, h2, h3, h4, h5⟩ := ih
    refine ⟨?_, ?_, ?_, ?_, ?_⟩
    · simp [h1]
    · simp [h2]
    · simp [h3, List.foldl_append]
    · simp [h4, List.foldl_append]
    · simp [h5, List.foldl_append]

/-- C19: the namespace renderings.  For a namespace path with non-empty
segments `Parser::BuildNamespaceText` sets `namespace_slashes`,
`namespace_dots` and `namespace_underscores` to the segments in path order
joined by `/`, `.` and `_` (the empty text for the empty path), and
`namespace_open` to the concatenation, in path order, of the snippet
`namespace_open_line` filled for each segment. -/
theorem BuildNamespaceText_renderings (snippets_cpp : SnipMapMap) (section_ : Text)
    (names : List Element) (h : ∀ name ∈ names, name.GetText ≠ []) :
    (Parser.BuildNamespaceText snippets_cpp section_ names).namespace_slashes
      = (txt "/").intercalate (names.map (fun name => name.GetText)) ∧
    (Parser.BuildNamespaceText snippets_cpp section_ names).namespace_dots
      = (txt ".").intercalate (names.map (fun name => name.GetText)) ∧
    (Parser.BuildNamespaceText snippets_cpp section_ names).namespace_underscores
      = (txt "_").intercalate (names.map (fun name => name.GetText)) ∧
    (Parser.BuildNamespaceText snippets_cpp section_ names).namespace_open
      = (names.map (fun name => Snip snippets_cpp section_ (txt "namespace_open_line")
          [(txt "namespace_name", name.GetText)])).flatten ∧
    (Parser.BuildNamespaceText snippets_cpp section_ []).namespace_slashes = [] ∧
    (Parser.BuildNamespaceText snippets_cpp section_ []).namespace_dots = [] ∧
    (Parser.BuildNamespaceText snippets_cpp section_ []).namespace_underscores = [] := by
  have hne : ∀ i ∈ names.map (fun name => name.GetText), i ≠ [] := by
    intro i hi
    obtain ⟨n, hn, rfl⟩ := List.mem_map.1 hi
    exact h n hn
  obtain ⟨h1, _, h3, h4, h5⟩ := BuildNamespaceText_folds snippets_cpp section_ names
  exact ⟨h3.trans (foldl_sepStep_nil _ _ hne), h4.trans (foldl_sepStep_nil _ _ hne),
    h5.trans (foldl_sepStep_nil _ _ hne), h1, rfl, rfl, rfl⟩

/-- Witness of C19: the namespace `android::hardware` of `demoParser`. -/
theorem BuildNamespaceText_renderings_witness :
    (Parser.BuildNamespaceText demoSnippets (txt "cpp") demoParser.namespace_).namespace_slashes
      = txt "android/hardware" ∧
    (Parser.BuildNamespaceText demoSnippets (txt "cpp") demoParser.namespace_).namespace_dots
      = txt "android.hardware" ∧
    (Parser.BuildNamespaceText demoSnippets (txt "cpp")
      demoParser.namespace_).namespace_underscores = txt "android_hardware" ∧
    (Parser.BuildNamespaceText demoSnippets (txt "cpp") demoParser.namespace_).namespace_open
      = txt "namespace android \x7b\nnamespace hardware \x7b\n" := by
  obtain ⟨h1, h2, h3, h4, _⟩ :=
    BuildNamespaceText_renderings demoSnippets (txt "cpp") demoParser.namespace_ (by decide)
  exact ⟨h1.trans (by decide), h2.trans (by decide), h3.trans (by decide),
    h4.trans (by decide)⟩

/-! ## The fixed keys -/

/-- The substitution list of `Function::GetSubs` has the keys of
`Function.GetSubs.keys`. -/
theorem GetSubs_keys (snippets_cpp : SnipMapMap) (f : Function) (section_ : Text) (subs : Subs)
    (errs : List Err) (h : Function.GetSubs snippets_cpp f section_ = some (subs, errs)) :
    subs.map Prod.fst = Function.GetSubs.keys := by
  unfold Function.GetSubs at h
  simp only at h
  split at h <;> try contradiction
  split at h <;> try contradiction
  split at h <;> try contradiction
  split at h <;> try contradiction
  split at h <;> try contradiction
  split at h <;> try contradiction
  split at h <;> try contradiction
  split at h <;> try contradiction
  split at h <;> try contradiction
  split at h <;> try contradiction
  split at h <;> try contradiction
  split at h <;> try contradiction
  simp only [Option.some.injEq, Prod.mk.injEq] at h
  rw [← h.1]
  rfl

/-- The substitution list of `Parser::Write` has the keys of
`Parser.Write.keys`. -/
theorem Write_keys (snippets_cpp : SnipMapMap) (p : Parser) (r : WriteResult)
    (hi : p.interface_.isSome = true) (h : Parser.Write snippets_cpp p = some r) :
    ∃ subs : Subs, subs.map Prod.fst = Parser.Write.keys ∧
      r.written = [Snip snippets_cpp p.section_ (txt "file") subs] := by
  obtain ⟨i, hi⟩ := Option.isSome_iff_exists.1 hi
  unfold Parser.Write at h
  simp only [hi] at h
  split at h <;> try contradiction
  split at h <;> try contradiction
  split at h <;> try contradiction
  split at h <;> try contradiction
  split at h <;> try contradiction
  split at h <;> try contradiction
  split at h <;> try contradiction
  split at h <;> try contradiction
  split at h <;> try contradiction
  simp only [Option.some.injEq] at h
  subst h
  refine ⟨_, ?_, rfl⟩
  rfl

set_option maxRecDepth 100000 in
/-- C20: the keys of the two fixed substitution lists.  The list built by
`Function::GetSubs` has the 17 keys of `Function.GetSubs.keys` and the list
built by `Parser::Write` the 19 keys of `Parser.Write.keys`; in each list the
keys are pairwise distinct, no key is part of another key, and so no key is
part of another key followed by the marker `####`: the first loop of `Snip`
finds none of these keys inside the protected form of another. -/
theorem fixed_keys_not_nested :
    (∀ snippets_cpp f section_ subs errs,
      Function.GetSubs snippets_cpp f section_ = some (subs, errs) →
      subs.map Prod.fst = Function.GetSubs.keys) ∧
    (∀ snippets_cpp p r, p.interface_.isSome = true → Parser.Write snippets_cpp p = some r →
      ∃ subs : Subs, subs.map Prod.fst = Parser.Write.keys ∧
        r.written = [Snip snippets_cpp p.section_ (txt "file") subs]) ∧
    Function.GetSubs.keys.length = 17 ∧
    Parser.Write.keys.length = 19 ∧
    Function.GetSubs.keys.Nodup ∧
    Parser.Write.keys.Nodup ∧
    (∀ a ∈ Function.GetSubs.keys, ∀ b ∈ Function.GetSubs.keys, a ≠ b →
      ¬ a <:+: b ∧ ¬ a <:+: b ++ marker) ∧
    (∀ a ∈ Parser.Write.keys, ∀ b ∈ Parser.Write.keys, a ≠ b →
      ¬ a <:+: b ∧ ¬ a <:+: b ++ marker) := by
  refine ⟨GetSubs_keys, Write_keys, rfl, rfl, by decide, by decide, by decide, by decide⟩

/-! ## Text without entry and keys as patterns -/

/-- Where a pattern followed by more pattern matches, the pattern matches. -/
theorem matchesAt_append_left (k m s : Text) (h : matchesAt (k ++ m) s = true) :
    matchesAt k s = true := by
  induction k generalizing s with
  | nil => simp [matchesAt]
  | cons p ps ih =>
    cases s with
    | nil => simp [matchesAt] at h
    | cons c cs =>
      simp only [List.cons_append, matchesAt, Bool.and_eq_true] at h ⊢
      exact ⟨h.1, ih cs h.2⟩

/-- A longer pattern occurs only where its start occurs. -/
theorem occursIn_append_left (k m s : Text) (h : occursIn k s = false) :
    occursIn (k ++ m) s = false := by
  unfold occursIn at h ⊢
  rw [List.any_eq_false] at h ⊢
  intro t ht e
  exact h t ht (matchesAt_append_left k m t e)

/-- The scan of `std::regex_replace` returns a text without a match unchanged,
whatever the format string. -/
theorem replaceScan_no_match (pat fmt : Text) (hp : pat ≠ []) (s pre : Text)
    (h : occursIn pat s = false) : replaceScan pat fmt 0 pre s = s := by
  induction s generalizing pre with
  | nil => simp [replaceScan, hp]
  | cons c s ih =>
    unfold occursIn at h ih
    rw [List.tails, List.any_cons, Bool.or_eq_false_iff] at h
    simp only [replaceScan, h.1, Bool.false_eq_true, if_false, ih _ h.2]

/-- The first loop of `Snip` with keys that do not occur. -/
theorem uglify_no_match (subs : Subs) (snippet : Text)
    (h : ∀ sub ∈ subs, sub.1 ≠ [] ∧ occursIn sub.1 snippet = false) :
    uglify subs snippet = snippet := by
  induction subs with
  | nil => rfl
  | cons sub subs ih =>
    have hs := h sub (List.mem_cons_self _ _)
    unfold uglify at ih ⊢
    rw [List.foldl_cons, regex_replace, replaceScan_no_match _ _ hs.1 _ _ hs.2]
    exact ih (fun s hm => h s (List.mem_cons_of_mem _ hm))

/-- The second loop of `Snip` with keys that do not occur. -/
theorem restore_no_match (subs : Subs) (snippet : Text)
    (h : ∀ sub ∈ subs, sub.1 ≠ [] ∧ occursIn sub.1 snippet = false) :
    restore subs snippet = snippet := by
  induction subs with
  | nil => rfl
  | cons sub subs ih =>
    have hs := h sub (List.mem_cons_self _ _)
    unfold restore at ih ⊢
    rw [List.foldl_cons, regex_replace,
      replaceScan_no_match _ _ (by simp [marker]) _ _ (occursIn_append_left _ marker _ hs.2)]
    exact ih (fun s hm => h s (List.mem_cons_of_mem _ hm))

/-- A plain key has no `.`. -/
theorem plainKey_no_dot (k : Text) (h : plainKey k = true) : '.' ∉ k := by
  intro hm
  have := List.all_eq_true.1 h _ hm
  revert this
  decide

/-- A plain key that is not part of a text matches nowhere in it. -/
theorem occursIn_false_of_apart (k s : Text) (hk : plainKey k = true) (h : ¬ k <:+: s) :
    occursIn k s = false := by
  unfold occursIn
  rw [List.any_eq_false]
  intro t ht e
  rw [matchesAt_eq_isPrefixOf k (plainKey_no_dot k hk), List.isPrefixOf_iff_prefix] at e
  exact h (e.isInfix.trans ((List.mem_tails _ _).1 ht).isInfix)

/-- A plain key that is part of a text matches somewhere in it. -/
theorem occursIn_true_of_part (k s : Text) (hk : plainKey k = true) (h : k <:+: s) :
    occursIn k s = true := by
  obtain ⟨u, w, huw⟩ := h
  unfold occursIn
  rw [List.any_eq_true]
  refine ⟨k ++ w, (List.mem_tails _ _).2 ⟨u, by rw [← huw, List.append_assoc]⟩, ?_⟩
  rw [matchesAt_eq_isPrefixOf k (plainKey_no_dot k hk), List.isPrefixOf_iff_prefix]
  exact List.prefix_append _ _

/-- C14 as amended: `Snip` leaves in place the text for which the substitution
list has no entry: when the keys of `subs` are not empty, made of ordinary
characters and `.`, and match nowhere in the snippet found (`.` matching any
character but a line terminator; for a key of ordinary characters only that
is: the key is not part of the snippet), the result is the snippet itself, and
so it is for the empty substitution list; no placeholder text is turned into
the empty text. -/
theorem Snip_keeps_unmatched (snippets_cpp : SnipMapMap) (section_ name : Text)
    (snip_map : SnipMap) (snippet : Text) (subs : Subs)
    (hsec : snippets_cpp.lookup section_ = some snip_map)
    (hname : snip_map.lookup name = some snippet)
    (h : ∀ sub ∈ subs, sub.1 ≠ [] ∧ dottedKey sub.1 = true ∧ occursIn sub.1 snippet = false) :
    Snip snippets_cpp section_ name subs = snippet
      ∧ Snip snippets_cpp section_ name [] = snippet
      ∧ Snip0 snippets_cpp section_ name = snippet
      ∧ ∀ k, plainKey k = true → (occursIn k snippet = false ↔ ¬ k <:+: snippet) := by
  have h2 : ∀ sub ∈ subs, sub.1 ≠ [] ∧ occursIn sub.1 snippet = false :=
    fun sub hsub => ⟨(h sub hsub).1, (h sub hsub).2.2⟩
  refine ⟨?_, ?_, ?_, fun k hk => ⟨fun e hi => ?_, occursIn_false_of_apart k snippet hk⟩⟩
  · rw [Snip_found _ _ _ _ _ _ hsec hname, uglify_no_match _ _ h2, restore_no_match _ _ h2]
  · rw [Snip_found _ _ _ _ _ _ hsec hname]; rfl
  · unfold Snip0
    rw [Snip_found _ _ _ _ _ _ hsec hname]; rfl
  · rw [occursIn_true_of_part k snippet hk hi] at e
    exact Bool.noConfusion e

/-- Witness of C14 as amended: the snippet `const NAME = VAL;` filled with a
list that has entries for neither `NAME` nor `VAL` keeps both. -/
theorem Snip_keeps_unmatched_witness :
    Snip trapSnippets (txt "cpp") (txt "const") [(txt "type_name", txt "int"), (txt "p.name", txt "x")]
        = txt "const NAME = VAL;\n"
      ∧ Snip trapSnippets (txt "cpp") (txt "const") [] = txt "const NAME = VAL;\n"
      ∧ Snip0 trapSnippets (txt "cpp") (txt "const") = txt "const NAME = VAL;\n" := by
  have h := Snip_keeps_unmatched trapSnippets (txt "cpp") (txt "const") _ _
    [(txt "type_name", txt "int"), (txt "p.name", txt "x")] rfl rfl (by decide)
  exact ⟨h.1, h.2.1, h.2.2.1⟩

/-- C14, the statement of the specification refuted: the placeholders of
`const NAME = VAL;` survive the filling, both with the empty list, and `VAL`
with a list that has an entry for `NAME` only. -/
theorem Snip_keeps_unmatched_counterexample :
    Snip trapSnippets (txt "cpp") (txt "const") [] = txt "const NAME = VAL;\n"
      ∧ Snip trapSnippets (txt "cpp") (txt "const") [(txt "NAME", txt "x")]
        = txt "const x = VAL;\n" := by
  decide

/-- C17: the keys of `Snip` are compiled as regular expressions and not taken
as literal text: on the snippet `p.name = p_name;` the key `p.name` is replaced
at its literal occurrence and at `p_name` as well, where the replacement of the
literal occurrences gives `V = p_name;`. -/
theorem Snip_key_is_pattern :
    Snip trapSnippets (txt "cpp") (txt "dotted") [(txt "p.name", txt "V")] = txt "V = V;"
      ∧ singlePass [(txt "p.name", txt "V")] 0 (txt "p.name = p_name;") = txt "V = p_name;"
      ∧ uglify [(txt "p.name", txt "V")] (txt "p.name = p_name;")
        = txt "p.name#### = p.name####;" := by
  decide

/-! ## The closing text of the namespaces -/

/-- C21: the closing text mirrors the opening text.  For every namespace path
`Parser::BuildNamespaceText` sets `namespace_close` to the concatenation of
the snippet `namespace_close_line` filled for the last segment, then the one
before it, and so on down to the first: it is empty for the empty path, a
segment added at the end of the path puts its line in front, a segment added
in front of the path puts its line at the end, and the text is what
`namespace_open` is on the reversed path for snippets whose
`namespace_open_line` fills as `namespace_close_line` does here. -/
theorem BuildNamespaceText_close_mirrors (snippets_cpp : SnipMapMap) (section_ : Text)
    (names : List Element) (name : Element) :
    (Parser.BuildNamespaceText snippets_cpp section_ names).namespace_close
      = (names.reverse.map (fun name => Snip snippets_cpp section_ (txt "namespace_close_line")
          [(txt "namespace_name", name.GetText)])).flatten ∧
    (Parser.BuildNamespaceText snippets_cpp section_ []).namespace_close = [] ∧
    (Parser.BuildNamespaceText snippets_cpp section_ (names ++ [name])).namespace_close
      = Snip snippets_cpp section_ (txt "namespace_close_line")
          [(txt "namespace_name", name.GetText)]
        ++ (Parser.BuildNamespaceText snippets_cpp section_ names).namespace_close ∧
    (Parser.BuildNamespaceText snippets_cpp section_ (name :: names)).namespace_close
      = (Parser.BuildNamespaceText snippets_cpp section_ names).namespace_close
        ++ Snip snippets_cpp section_ (txt "namespace_close_line")
          [(txt "namespace_name", name.GetText)] ∧
    (∀ mirror_cpp : SnipMapMap,
      (∀ n ∈ names,
        Snip mirror_cpp section_ (txt "namespace_open_line") [(txt "namespace_name", n.GetText)]
          = Snip snippets_cpp section_ (txt "namespace_close_line")
            [(txt "namespace_name", n.GetText)]) →
      (Parser.BuildNamespaceText snippets_cpp section_ names).namespace_close
        = (Parser.BuildNamespaceText mirror_cpp section_ names.reverse).namespace_open) := by
  have hclose := fun l => (BuildNamespaceText_folds snippets_cpp section_ l).2.1
  refine ⟨hclose names, rfl, ?_, ?_, fun mirror_cpp h => ?_⟩
  · rw [BuildNamespaceText_snoc]
  · rw [hclose, hclose]
    simp
  · rw [hclose, (BuildNamespaceText_folds mirror_cpp section_ names.reverse).1]
    congr 1
    apply List.map_congr_left
    intro n hn
    exact (h n (List.mem_reverse.1 hn)).symm

/-- Witness of C21: the namespace `android::hardware` of `demoParser` is closed
innermost first, and the text is the opening text of `hardware::android` for
the snippets of `mirrorSnippets`. -/
theorem BuildNamespaceText_close_mirrors_witness :
    (Parser.BuildNamespaceText demoSnippets (txt "cpp") demoParser.namespace_).namespace_close
      = txt "\x7d  // hardware\n\x7d  // android\n" ∧
    (Parser.BuildNamespaceText demoSnippets (txt "cpp") demoParser.namespace_).namespace_close
      = (Parser.BuildNamespaceText mirrorSnippets (txt "cpp")
          demoParser.namespace_.reverse).namespace_open :=
  ⟨((BuildNamespaceText_close_mirrors demoSnippets (txt "cpp") demoParser.namespace_
      (demoElement "x")).1).trans (by decide),
    (BuildNamespaceText_close_mirrors demoSnippets (txt "cpp") demoParser.namespace_
      (demoElement "x")).2.2.2.2 mirrorSnippets (by decide)⟩

end HidlGen
